import Mathlib
set_option maxRecDepth 10000

/-!
Verification of the device-tree identification module `bredos/dt.py`
(BredOS `python-common`).  Python functions are shallowly embedded as
executable Lean definitions over `String` / `List Char`; Python `dict`s
are modelled as insertion-ordered association lists with in-place update
(the semantics of CPython dict assignment); machine-independent Python
integers are `Nat` / `Int`.  Subprocess invocations are modelled by an
explicit oracle datatype.  String methods (`strip`, `splitlines`,
`lower`, `isdigit`, ...) are modelled on the ASCII repertoire that the
data handled by the module actually uses.
-/

namespace BredosDT

/-! ## Python string primitives (ASCII model) -/

/-- Python `str` whitespace (ASCII part): the characters stripped by
`str.strip()` / split on by `str.split()`. -/
def pyIsSpace (c : Char) : Bool :=
  c = ' ' || c = '\t' || c = '\n' || c = '\r' || c = '\x0b' || c = '\x0c'

/-- Characters that `str.splitlines` treats as a line boundary
(`\r\n` is additionally combined into a single boundary). -/
def pyIsLineBreak (c : Char) : Bool :=
  c = '\n' || c = '\r' || c = '\x0b' || c = '\x0c' ||
  c = '\x1c' || c = '\x1d' || c = '\x1e' || c = '\x85' ||
  c.toNat = 0x2028 || c.toNat = 0x2029

def stripLeftCh (p : Char → Bool) (cs : List Char) : List Char :=
  cs.dropWhile p

def stripRightCh (p : Char → Bool) (cs : List Char) : List Char :=
  (cs.reverse.dropWhile p).reverse

def stripCh (p : Char → Bool) (cs : List Char) : List Char :=
  stripRightCh p (stripLeftCh p cs)

/-- Python `s.strip()`. -/
def pyStrip (s : String) : String := ⟨stripCh pyIsSpace s.data⟩

/-- Python `s.startswith(pre)`. -/
def pyStartsWith (s pre : String) : Bool := pre.data.isPrefixOf s.data

/-- Python `s.lstrip()`. -/
def pyLstrip (s : String) : String := ⟨stripLeftCh pyIsSpace s.data⟩

/-- Python `s.rstrip()`. -/
def pyRstrip (s : String) : String := ⟨stripRightCh pyIsSpace s.data⟩

/-- Python `s.splitlines()` on a character list. -/
def splitlinesCh : List Char → List Char → List String
  | [], acc => if acc.isEmpty then [] else [⟨acc⟩]
  | [c], acc =>
    if pyIsLineBreak c then [(⟨acc⟩ : String)]
    else [⟨acc ++ [c]⟩]
  | c :: c2 :: rest, acc =>
    if c = '\r' && c2 = '\n' then (⟨acc⟩ : String) :: splitlinesCh rest []
    else if pyIsLineBreak c then (⟨acc⟩ : String) :: splitlinesCh (c2 :: rest) []
    else splitlinesCh (c2 :: rest) (acc ++ [c])

/-- Python `s.splitlines()`. -/
def pySplitlines (s : String) : List String := splitlinesCh s.data []

/-! ## `diff_dts`  (dt.py lines 382-385)

```python
def diff_dts(base_dts, live_dts) -> list:
    base_lines = set(base_dts.splitlines())
    live_lines = set(live_dts.splitlines())
    return list(live_lines - base_lines)
```

The Python `set` difference is modelled as a duplicate-free list; the
(unspecified) iteration order of the set is modelled by the order of the
lines in `live_dts`. -/

def diff_dts (base_dts live_dts : String) : List String :=
  ((pySplitlines live_dts).dedup).filter
    (fun l => decide (l ∉ pySplitlines base_dts))

/-! ## `hash_str`  (dt.py lines 622-623)

```python
def hash_str(data):
    return hashlib.sha256(data.encode()).hexdigest()
```

`hashlib.sha256` is the standard SHA-256 function; it is embedded below
(FIPS 180-4) over the UTF-8 bytes of the string. -/

def w32 (n : Nat) : Nat := n % 4294967296

def rotr32 (n x : Nat) : Nat := w32 ((x >>> n) ||| (x <<< (32 - n)))

def shaK : List Nat :=
  [1116352408, 1899447441, 3049323471, 3921009573, 961987163, 1508970993,
   2453635748, 2870763221, 3624381080, 310598401, 607225278, 1426881987,
   1925078388, 2162078206, 2614888103, 3248222580, 3835390401, 4022224774,
   264347078, 604807628, 770255983, 1249150122, 1555081692, 1996064986,
   2554220882, 2821834349, 2952996808, 3210313671, 3336571891, 3584528711,
   113926993, 338241895, 666307205, 773529912, 1294757372, 1396182291,
   1695183700, 1986661051, 2177026350, 2456956037, 2730485921, 2820302411,
   3259730800, 3345764771, 3516065817, 3600352804, 4094571909, 275423344,
   430227734, 506948616, 659060556, 883997877, 958139571, 1322822218,
   1537002063, 1747873779, 1955562222, 2024104815, 2227730452, 2361852424,
   2428436474, 2756734187, 3204031479, 3329325298]

def shaH0 : List Nat :=
  [1779033703, 3144134277, 1013904242, 2773480762,
   1359893119, 2600822924, 528734635, 1541459225]

/-- SHA-256 message padding of a byte sequence. -/
def shaPad (msg : List Nat) : List Nat :=
  let l := msg.length
  let padLen := (55 + 64 - l % 64) % 64 + 1
  let bitLen := 8 * l
  msg ++ (0x80 :: List.replicate (padLen - 1) 0) ++
    [w32 (bitLen >>> 56) % 256, (bitLen >>> 48) % 256, (bitLen >>> 40) % 256,
     (bitLen >>> 32) % 256, (bitLen >>> 24) % 256, (bitLen >>> 16) % 256,
     (bitLen >>> 8) % 256, bitLen % 256]

/-- Split a padded byte sequence into 64-byte blocks (fuel-indexed so the
recursion is structural; the fuel is always sufficient at the call site). -/
def shaChunksF (fuel : Nat) (l : List Nat) : List (List Nat) :=
  match fuel, l with
  | _, [] => []
  | 0, _ => []
  | fuel + 1, b :: bs => (b :: bs).take 64 :: shaChunksF fuel ((b :: bs).drop 64)

def shaChunks (l : List Nat) : List (List Nat) := shaChunksF l.length l

/-- Big-endian 32-bit words of a 64-byte block. -/
def blockWords : List Nat → List Nat
  | b0 :: b1 :: b2 :: b3 :: rest =>
    (((b0 * 256 + b1) * 256 + b2) * 256 + b3) :: blockWords rest
  | _ => []

/-- Extend 16 message words to the 64-entry message schedule. -/
def shaSchedule (ws : List Nat) : List Nat :=
  (List.range 48).foldl
    (fun w t =>
      let i := t + 16
      let x15 := w.getD (i - 15) 0
      let x2 := w.getD (i - 2) 0
      let s0 := Nat.xor (Nat.xor (rotr32 7 x15) (rotr32 18 x15)) (x15 >>> 3)
      let s1 := Nat.xor (Nat.xor (rotr32 17 x2) (rotr32 19 x2)) (x2 >>> 10)
      w ++ [w32 (w.getD (i - 16) 0 + s0 + w.getD (i - 7) 0 + s1)])
    ws

/-- One SHA-256 compression round. -/
def shaRound (ws : List Nat) (st : List Nat) (t : Nat) : List Nat :=
  match st with
  | [a, b, c, d, e, f, g, h] =>
    let s1 := Nat.xor (Nat.xor (rotr32 6 e) (rotr32 11 e)) (rotr32 25 e)
    let ch := Nat.xor (Nat.land e f) (Nat.land (Nat.xor e 4294967295) g)
    let t1 := w32 (h + s1 + ch + shaK.getD t 0 + ws.getD t 0)
    let s0 := Nat.xor (Nat.xor (rotr32 2 a) (rotr32 13 a)) (rotr32 22 a)
    let mj := Nat.xor (Nat.xor (Nat.land a b) (Nat.land a c)) (Nat.land b c)
    let t2 := w32 (s0 + mj)
    [w32 (t1 + t2), a, b, c, w32 (d + t1), e, f, g]
  | other => other

/-- Process one 64-byte block. -/
def shaBlock (h : List Nat) (blk : List Nat) : List Nat :=
  let ws := shaSchedule (blockWords blk)
  let st := (List.range 64).foldl (shaRound ws) h
  (h.zip st).map (fun p => w32 (p.1 + p.2))

/-- SHA-256 digest (32 bytes) of a byte sequence. -/
def sha256 (msg : List Nat) : List Nat :=
  let hs := (shaChunks (shaPad msg)).foldl shaBlock shaH0
  hs.foldr (fun wo acc =>
    (wo >>> 24) % 256 :: (wo >>> 16) % 256 :: (wo >>> 8) % 256 :: wo % 256 :: acc) []

def hexDigitCh (n : Nat) : Char :=
  if n < 10 then Char.ofNat (48 + n) else Char.ofNat (87 + n)

/-- Lowercase hex rendering of a byte sequence (`hexdigest`). -/
def hexDigest (bs : List Nat) : String :=
  ⟨bs.foldr (fun b acc => hexDigitCh (b / 16) :: hexDigitCh (b % 16) :: acc) []⟩

/-- UTF-8 encoding of a character (`str.encode()`). -/
def utf8Char (c : Char) : List Nat :=
  let n := c.toNat
  if n < 0x80 then [n]
  else if n < 0x800 then [0xc0 + (n >>> 6), 0x80 + n % 64]
  else if n < 0x10000 then
    [0xe0 + (n >>> 12), 0x80 + (n >>> 6) % 64, 0x80 + n % 64]
  else
    [0xf0 + (n >>> 18), 0x80 + (n >>> 12) % 64, 0x80 + (n >>> 6) % 64,
     0x80 + n % 64]

def utf8Bytes (s : String) : List Nat := (s.data.map utf8Char).flatten

/-- `hash_str` (dt.py 622-623): SHA-256 hex digest of the UTF-8 text. -/
def hash_str (data : String) : String := hexDigest (sha256 (utf8Bytes data))

/-! ## `detect_live` best-match search  (dt.py lines 249-287, 388-393)

`detect_live` reads the live tree, hashes it, converts every candidate
`.dtb` to text (`dt_process_candidate`) and scans the results: an exact
hash match returns immediately with an empty diff; otherwise the
candidate with the strictly smallest `diff_dts` length is retained.
The scan is modelled over a list of `(id, text)` candidates (the
`as_completed` completion order); `min_diff = float("inf")` is the
`none` accumulator, and the final `if best_dts:` truthiness test means
an empty best text (or no candidate at all) yields `(None, "No match
found")`, modelled as `none`. -/

def bmGo (live liveHash : String) :
    List (String × String) → Option ((String × String) × Nat) →
    Option (String × List String)
  | [], best =>
    match best with
    | some ((bid, bdts), _) =>
      if bdts ≠ "" then some (bid, diff_dts bdts live) else none
    | none => none
  | (cid, cdts) :: rest, best =>
    if hash_str cdts = liveHash then some (cid, [])
    else
      let diffLen := (diff_dts cdts live).length
      match best with
      | none => bmGo live liveHash rest (some ((cid, cdts), diffLen))
      | some (b, minDiff) =>
        if diffLen < minDiff then bmGo live liveHash rest (some ((cid, cdts), diffLen))
        else bmGo live liveHash rest (some (b, minDiff))

/-- The candidate scan of `detect_live` (dt.py 249-287) over already
converted candidate texts. -/
def bestMatch (live : String) (cands : List (String × String)) :
    Option (String × List String) :=
  bmGo live (hash_str live) cands none

/-! ## `shlex.split(val, posix=True)`

`parse_uboot` / `parse_grub` tokenize values with `shlex.split`, i.e. a
`shlex` instance with `posix=True`, `whitespace_split=True` and (since
`comments=False`) no comment characters.  The reader below is a direct
transcription of `shlex.read_token` restricted to that configuration:
whitespace `' \t\r\n'`, quotes `'` and `"`, escape `\`, and `\` inside
`"..."` escaping only `\` and `"`.  `None` models the `ValueError`
raised on an unclosed quote or trailing escape. -/

def shWs (c : Char) : Bool := c = ' ' || c = '\t' || c = '\r' || c = '\n'

def squoteC : Char := Char.ofNat 39

def dquoteC : Char := '"'

def bslashC : Char := '\\'

inductive ShMode where
  | ws | word | squote | dquote | escWord | escDquote
deriving DecidableEq, Repr

def shlexRun (mode : ShMode) (tk : List Char) (q : Bool) (acc : List String) :
    List Char → Option (List String)
  | [] =>
    match mode with
    | .ws => some acc
    | .word => if tk ≠ [] ∨ q then some (acc ++ [⟨tk⟩]) else some acc
    | _ => none
  | c :: rest =>
    match mode with
    | .ws =>
      if shWs c then shlexRun .ws [] false acc rest
      else if c = squoteC then shlexRun .squote tk q acc rest
      else if c = dquoteC then shlexRun .dquote tk q acc rest
      else if c = bslashC then shlexRun .escWord tk q acc rest
      else shlexRun .word [c] q acc rest
    | .word =>
      if shWs c then
        shlexRun .ws [] false (acc ++ if tk ≠ [] ∨ q then [(⟨tk⟩ : String)] else []) rest
      else if c = squoteC then shlexRun .squote tk q acc rest
      else if c = dquoteC then shlexRun .dquote tk q acc rest
      else if c = bslashC then shlexRun .escWord tk q acc rest
      else shlexRun .word (tk ++ [c]) q acc rest
    | .squote =>
      if c = squoteC then shlexRun .word tk true acc rest
      else shlexRun .squote (tk ++ [c]) true acc rest
    | .dquote =>
      if c = dquoteC then shlexRun .word tk true acc rest
      else if c = bslashC then shlexRun .escDquote tk true acc rest
      else shlexRun .dquote (tk ++ [c]) true acc rest
    | .escWord => shlexRun .word (tk ++ [c]) q acc rest
    | .escDquote =>
      if c = bslashC ∨ c = dquoteC then shlexRun .dquote (tk ++ [c]) q acc rest
      else shlexRun .dquote (tk ++ [bslashC, c]) q acc rest

def pyShlexSplit (s : String) : Option (List String) :=
  shlexRun .ws [] false [] s.data

/-- A character that the shlex reader treats as an ordinary word
character: not whitespace, not a quote, not the escape. -/
def shPlain (c : Char) : Bool :=
  !shWs c && !(c = squoteC) && !(c = dquoteC) && !(c = bslashC)

/-! ## Environment-style codec  (dt.py 25-28, 31-79, 82-127) -/

/-- A parsed environment-file value: a scalar (string or nonnegative
integer, the result of the `isdigit` coercion) or a token list. -/
inductive UScal where
  | num (n : Nat)
  | str (s : String)
deriving DecidableEq, Repr

inductive UVal where
  | scal (v : UScal)
  | list (l : List UScal)
deriving DecidableEq, Repr

/-- Python `str.isdigit()` (ASCII-digit model; the exotic Unicode digit
repertoire never occurs in boot configuration files). -/
def pyIsDigitStr (s : String) : Bool :=
  !s.data.isEmpty && s.data.all Char.isDigit

/-- `int(s)` for an ASCII digit string. -/
def natOfDigits (cs : List Char) : Nat :=
  cs.foldl (fun a c => a * 10 + (c.toNat - 48)) 0

/-- The single-token coercion of `parse_uboot`/`parse_grub`:
`if val.isdigit(): val = int(val)`. -/
def coerceTok (t : String) : UScal :=
  if pyIsDigitStr t then .num (natOfDigits t.data) else .str t

/-- Python `dict` assignment `d[k] = v` on an insertion-ordered
association list: replace in place, else append. -/
def updIn {α : Type} (cfg : List (String × α)) (k : String) (v : α) :
    List (String × α) :=
  match cfg with
  | [] => [(k, v)]
  | (k', v') :: rest => if k' = k then (k, v) :: rest else (k', v') :: updIn rest k v

/-- Python `d.get(k)` / `k in d`. -/
def lookupKey {α : Type} (cfg : List (String × α)) (k : String) : Option α :=
  match cfg with
  | [] => none
  | (k', v') :: rest => if k' = k then some v' else lookupKey rest k

/-- Split at the first occurrence of a character (`s.split(ch, 1)` when
present; `none` when absent). -/
def splitOnChar (ch : Char) : List Char → Option (List Char × List Char)
  | [] => none
  | c :: rest =>
    if c = ch then some ([], rest)
    else (splitOnChar ch rest).map (fun p => (c :: p.1, p.2))

abbrev EnvCfg := List (String × UVal)

/-- One line of the `parse_uboot` / `parse_grub` loop (dt.py 35-60 and
85-110; the two loops are textually identical). -/
def parseEnvLine (config : EnvCfg) (rawLine : String) : EnvCfg :=
  let line := pyStrip rawLine
  if line = "" || pyStartsWith line "#" then config
  else
    match splitOnChar '=' line.data with
    | none => config
    | some (kcs, vcs) =>
      let key := pyStrip ⟨kcs⟩
      let val : String := ⟨vcs⟩
      match pyShlexSplit val with
      | none => updIn config key (.scal (.str (pyStrip val)))
      | some toks =>
        match toks with
        | [t] => updIn config key (.scal (coerceTok t))
        | l => updIn config key (.list (l.map coerceTok))

def ubootDefaults : EnvCfg :=
  [("U_BOOT_IS_SETUP", .scal (.str "false")),
   ("U_BOOT_PARAMETERS", .scal (.str "splash quiet"))]

/-- `parse_uboot` (dt.py 31-63).  The input is the decoded content of
`/etc/default/u-boot`, or `none` when opening the file raises (the
function's blanket `except` then returns the pre-filled defaults). -/
def parse_uboot (file : Option String) : EnvCfg :=
  match file with
  | none => ubootDefaults
  | some text => (pySplitlines text).foldl parseEnvLine ubootDefaults

/-- `parse_grub` (dt.py 82-111): same loop, no defaults, no `try`. -/
def parse_grub (text : String) : EnvCfg :=
  (pySplitlines text).foldl parseEnvLine []

/-- `str(n)` for a Python nonnegative integer (decimal digits). -/
def natDigitsF : Nat → Nat → List Char
  | 0, _ => []
  | fuel + 1, n =>
    if n < 10 then [Char.ofNat (48 + n)]
    else natDigitsF fuel (n / 10) ++ [Char.ofNat (48 + n % 10)]

def pyIntStr (n : Nat) : String := ⟨natDigitsF (n + 1) n⟩

/-- `"'" + str(val).replace("'", "'\"'\"'") + "'"`: the single-quote
escaping of `force_quote`. -/
def escQuote : List Char → List Char
  | [] => []
  | c :: rest =>
    if c = squoteC then
      squoteC :: dquoteC :: squoteC :: dquoteC :: squoteC :: escQuote rest
    else c :: escQuote rest

def forceQuoteStr (s : String) : String :=
  ⟨squoteC :: (escQuote s.data ++ [squoteC])⟩

/-- `force_quote` (dt.py 25-28) on a scalar config value. -/
def force_quote : UScal → String
  | .num n => pyIntStr n
  | .str s => forceQuoteStr s

/-- `" ".join(val)` for a token-list value; `none` models the
`TypeError` raised when a list element is an `int`. -/
def joinStrs : List UScal → Option String
  | [] => some ""
  | [.str s] => some s
  | .str s :: rest => (joinStrs rest).map (fun r => s ++ " " ++ r)
  | _ => none

/-- One `KEY=quoted` line of `encode_uboot`/`encode_grub` (dt.py 70-78
and 118-126). -/
def encodeEnvEntry (k : String) (v : UVal) : Option String :=
  match v with
  | .scal sc => some (k ++ "=" ++ force_quote sc)
  | .list l => (joinStrs l).map (fun s => k ++ "=" ++ forceQuoteStr s)

def encodeEntries : EnvCfg → Option (List String)
  | [] => some []
  | (k, v) :: rest =>
    match encodeEnvEntry k v, encodeEntries rest with
    | some l, some ls => some (l :: ls)
    | _, _ => none

/-- Python `sep.join(ls)`. -/
def pyJoin (sep : String) : List String → String
  | [] => ""
  | [x] => x
  | x :: xs => x ++ sep ++ pyJoin sep xs

/-- `encode_uboot` (dt.py 66-79); `none` models the `TypeError` on
`" ".join` of a list containing an `int`. -/
def encode_uboot (config : EnvCfg) : Option String :=
  (encodeEntries config).map
    (fun ls => pyJoin "\n" ("## /etc/default/u-boot - configuration file" :: ls))

/-- `encode_grub` (dt.py 114-127). -/
def encode_grub (config : EnvCfg) : Option String :=
  (encodeEntries config).map
    (fun ls => pyJoin "\n" ("## /etc/default/grub - configuration file" :: ls))

/-! ## Extlinux codec  (dt.py 130-197) -/

/-- A directive value of the extlinux boot-menu format: a plain string or
(for `fdtoverlays`) a token list. -/
inductive ExtVal where
  | s (v : String)
  | l (vs : List String)
deriving DecidableEq, Repr

/-- Python `s.lower()` (ASCII case mapping, which covers the directive
keywords the format uses). -/
def pyToLower (s : String) : String := ⟨s.data.map Char.toLower⟩

/-- Python `s.upper()` (ASCII case mapping). -/
def pyToUpper (s : String) : String := ⟨s.data.map Char.toUpper⟩

/-- Python `s.split(None, 1)`: `none` when the string has no token;
otherwise the first whitespace-delimited token and, if present, the
remainder (leading whitespace removed, trailing kept). -/
def pySplitNone1 (s : String) : Option (String × Option String) :=
  match s.data.dropWhile pyIsSpace with
  | [] => none
  | c :: rest =>
    let cs := c :: rest
    let tok := cs.takeWhile (fun c => !pyIsSpace c)
    let rest2 := (cs.dropWhile (fun c => !pyIsSpace c)).dropWhile pyIsSpace
    some (⟨tok⟩, if rest2.isEmpty then none else some ⟨rest2⟩)

/-- Python `s.split()` (split on whitespace runs, no empty tokens). -/
def splitWsCh : List Char → List Char → List String
  | [], acc => if acc.isEmpty then [] else [⟨acc⟩]
  | c :: rest, acc =>
    if pyIsSpace c then
      if acc.isEmpty then splitWsCh rest [] else (⟨acc⟩ : String) :: splitWsCh rest []
    else splitWsCh rest (acc ++ [c])

def pySplitWs (s : String) : List String := splitWsCh s.data []

/-- The parser state of `parse_extlinux_conf`: the `global` and `labels`
dicts under construction plus `current_label`. -/
structure ExtSt where
  global : List (String × Option ExtVal)
  labels : List (String × List (String × Option ExtVal))
  cur : Option String
deriving DecidableEq, Repr

/-- `config["labels"][name][key] = v` (the label is always present when
this runs, since every `LABEL` line inserts it). -/
def setLabelKey (labels : List (String × List (String × Option ExtVal)))
    (name key : String) (v : Option ExtVal) :
    List (String × List (String × Option ExtVal)) :=
  match labels with
  | [] => []
  | (n, d) :: rest =>
    if n = name then (n, updIn d key v) :: rest
    else (n, d) :: setLabelKey rest name key v

/-- One line of the `parse_extlinux_conf` loop (dt.py 140-168). -/
def parseExtLine (st : ExtSt) (rawLine : String) : ExtSt :=
  let line := pyStrip rawLine
  if line = "" || pyStartsWith line "#" then st
  else if pyStartsWith (pyToLower line) "label " then
    let name := pyStrip ⟨line.data.drop 6⟩
    { global := st.global, labels := updIn st.labels name [], cur := some name }
  else
    match pySplitNone1 line with
    | none => st
    | some (k, orest) =>
      match orest with
      | some v =>
        let key := pyToLower k
        let value := pyStrip v
        let val : Option ExtVal :=
          if key = "fdtoverlays" then some (.l (pySplitWs value))
          else some (.s value)
        match st.cur with
        | some n => { st with labels := setLabelKey st.labels n key val }
        | none => { st with global := updIn st.global key val }
      | none =>
        let key := pyToLower k
        match st.cur with
        | some n => { st with labels := setLabelKey st.labels n key none }
        | none => { st with global := updIn st.global key none }

structure ExtConfig where
  global : List (String × Option ExtVal)
  labels : List (String × List (String × Option ExtVal))
deriving DecidableEq, Repr

/-- The condition under which `parse_extlinux_conf` treats a raw line as a
`LABEL` line (dt.py 145). -/
def isLabelLine (rawLine : String) : Bool :=
  let line := pyStrip rawLine
  !(line = "" || pyStartsWith line "#") && pyStartsWith (pyToLower line) "label "

/-- The label name a `LABEL` line introduces (dt.py 146). -/
def labelName (rawLine : String) : String :=
  pyStrip ⟨(pyStrip rawLine).data.drop 6⟩

/-- `parse_extlinux_conf` (dt.py 130-170) on an already-decoded text. -/
def parse_extlinux_conf (source : String) : ExtConfig :=
  let st := (pySplitlines source).foldl parseExtLine ⟨[], [], none⟩
  ⟨st.global, st.labels⟩

/-- Python `repr` of a string (printable-ASCII model: backslash, quote and
the common control characters are escaped; double quotes are preferred
exactly when the string contains a single quote and no double quote). -/
def reprEscape (quote : Char) : List Char → List Char
  | [] => []
  | c :: rest =>
    (if c = bslashC then [bslashC, bslashC]
     else if c = quote then [bslashC, quote]
     else if c = '\n' then [bslashC, 'n']
     else if c = '\r' then [bslashC, 'r']
     else if c = '\t' then [bslashC, 't']
     else [c]) ++ reprEscape quote rest

def pyStrRepr (s : String) : String :=
  if s.data.contains squoteC && !s.data.contains dquoteC then
    ⟨dquoteC :: (reprEscape dquoteC s.data ++ [dquoteC])⟩
  else ⟨squoteC :: (reprEscape squoteC s.data ++ [squoteC])⟩

/-- Python `str` of a list of strings (as interpolated by the f-string in
`serialize_extlinux_conf` when a non-special directive holds a list). -/
def pyListRepr (xs : List String) : String :=
  "[" ++ pyJoin ", " (xs.map pyStrRepr) ++ "]"

def strOfExtVal : ExtVal → String
  | .s v => v
  | .l xs => pyListRepr xs

/-- One line of the `global` section of `serialize_extlinux_conf`
(dt.py 176-180). -/
def extGlobalLine (e : String × Option ExtVal) : String :=
  match e.2 with
  | none => pyToUpper e.1
  | some v => pyToUpper e.1 ++ " " ++ strOfExtVal v

/-- One indented directive line of a label block (dt.py 187-194). -/
def extDirLine (d : String × Option ExtVal) : String :=
  match d.2 with
  | none => "    " ++ pyToUpper d.1
  | some (.l xs) =>
    if d.1 = "fdtoverlays" then
      "    " ++ pyToUpper d.1 ++ " " ++ pyJoin " " xs
    else "    " ++ pyToUpper d.1 ++ " " ++ pyListRepr xs
  | some (.s v) => "    " ++ pyToUpper d.1 ++ " " ++ v

/-- The lines a label contributes (dt.py 185-195): the `LABEL` header, its
directives, and a trailing blank separator. -/
def extLabelBlock (lb : String × List (String × Option ExtVal)) : List String :=
  ("LABEL " ++ lb.1) :: (lb.2.map extDirLine) ++ [""]

/-- `serialize_extlinux_conf` (dt.py 173-197). -/
def serialize_extlinux_conf (config : ExtConfig) : String :=
  let globalLines := config.global.map extGlobalLine
  let lines1 := if globalLines.isEmpty then globalLines else globalLines ++ [""]
  pyRstrip (pyJoin "\n" (lines1 ++ (config.labels.map extLabelBlock).flatten))

/-! ### Verification predicates for the environment codec

The shape of the keys and scalar values that `parse_uboot` / `parse_grub`
can actually produce; these are the invariants the round-trip argument
rests on. -/

def headNotHash (k : String) : Bool :=
  match k.data with
  | [] => true
  | c :: _ => !(c = '#')

def KeyOK (k : String) : Prop :=
  pyStrip k = k ∧ '=' ∉ k.data ∧ (∀ c ∈ k.data, pyIsLineBreak c = false) ∧
  headNotHash k = true

def ValScalarOK : UVal → Prop
  | .scal (.num _) => True
  | .scal (.str s) =>
    pyIsDigitStr s = false ∧ ∀ c ∈ s.data, pyIsLineBreak c = false
  | .list _ => True

def isScalVal : UVal → Bool
  | .scal _ => true
  | .list _ => false

def EnvInv (cfg : EnvCfg) : Prop :=
  (∀ e ∈ cfg, KeyOK e.1 ∧ ValScalarOK e.2) ∧ (cfg.map Prod.fst).Nodup

/-! ### Verification predicates for the extlinux codec

The shape of the keys, values, label names and token lists that
`parse_extlinux_conf` can actually produce. -/

/-- A whitespace-delimited token: nonempty, no whitespace, no line-break
characters. -/
def TokOK (s : String) : Prop :=
  ¬s = "" ∧ ∀ c ∈ s.data, pyIsSpace c = false ∧ pyIsLineBreak c = false

/-- A directive key as stored by `parse_extlinux_conf`: a token, already
lower-cased, not beginning with `#`. -/
def ExtKeyOK (k : String) : Prop :=
  TokOK k ∧ pyToLower k = k ∧ ∀ c rest, k.data = c :: rest → ¬c = '#'

/-- A string directive value as stored by `parse_extlinux_conf`: stripped,
nonempty, free of line breaks. -/
def ExtValStrOK (v : String) : Prop :=
  pyStrip v = v ∧ ¬v = "" ∧ ∀ c ∈ v.data, pyIsLineBreak c = false

/-- One directive entry as stored by `parse_extlinux_conf`: list values
occur exactly under the `fdtoverlays` key and are nonempty token lists. -/
def ExtDirOK (d : String × Option ExtVal) : Prop :=
  ExtKeyOK d.1 ∧
  match d.2 with
  | none => True
  | some (.s v) => ExtValStrOK v ∧ ¬d.1 = "fdtoverlays"
  | some (.l xs) => d.1 = "fdtoverlays" ∧ ¬xs = [] ∧ ∀ x ∈ xs, TokOK x

/-- A label name as stored by `parse_extlinux_conf`: stripped, nonempty,
free of line breaks. -/
def LabelNameOK (n : String) : Prop :=
  pyStrip n = n ∧ ¬n = "" ∧ ∀ c ∈ n.data, pyIsLineBreak c = false

/-- The invariant of the `parse_extlinux_conf` loop state. -/
def ExtStWF (st : ExtSt) : Prop :=
  (st.global.map Prod.fst).Nodup ∧ (∀ e ∈ st.global, ExtDirOK e) ∧
  (st.labels.map Prod.fst).Nodup ∧
  ∀ lb ∈ st.labels, LabelNameOK lb.1 ∧ (lb.2.map Prod.fst).Nodup ∧
    ∀ d ∈ lb.2, ExtDirOK d

/-- The invariant of a parsed extlinux configuration. -/
def ExtWF (cfg : ExtConfig) : Prop :=
  (cfg.global.map Prod.fst).Nodup ∧ (∀ e ∈ cfg.global, ExtDirOK e) ∧
  (cfg.labels.map Prod.fst).Nodup ∧
  ∀ lb ∈ cfg.labels, LabelNameOK lb.1 ∧ (lb.2.map Prod.fst).Nodup ∧
    ∀ d ∈ lb.2, ExtDirOK d

/-- Drop trailing whitespace-only lines and right-strip the last surviving
line: the effect the final `.rstrip()` of `serialize_extlinux_conf` has on
the joined line list. -/
def trimTail : List String → List String
  | [] => []
  | l :: rest =>
    match trimTail rest with
    | [] => if pyRstrip l = "" then [] else [pyRstrip l]
    | r => l :: r

/-! ## The dtc YAML reader  (dt.py 445-570)

Python values as they occur in the parsed trees: strings, booleans,
integers, floats (modelled as rationals — the decimal literals of the
source format are exact), lists and insertion-ordered dicts. -/

inductive PyVal where
  | str (s : String)
  | bool (b : Bool)
  | int (n : Int)
  | float (num : Int) (den : Nat)
  | list (l : List PyVal)
  | dict (d : List (String × PyVal))

abbrev PyDict := List (String × PyVal)

/-- The Python exceptions the embedded fragments can raise. -/
inductive PyExc where
  | calledProcessError
  | fileNotFoundError
  | attributeError
  | typeError
deriving DecidableEq, Repr

/-- `key.strip('"')`. -/
def stripDq (s : String) : String := ⟨stripCh (fun c => c = dquoteC) s.data⟩

/-- `_no_brackets` (dt.py 445-451): drop one surrounding pair of double or
single quotes. -/
def _no_brackets (key : String) : String :=
  if (key.data.head? = some dquoteC && key.data.getLast? = some dquoteC) ||
     (key.data.head? = some squoteC && key.data.getLast? = some squoteC) then
    ⟨(key.data.drop 1).dropLast⟩
  else key

/-- `int(s, 0)` digits of a given base (no underscore separators, which the
dtc output never contains). -/
def baseDigit (base : Nat) (c : Char) : Option Nat :=
  let v :=
    if '0' ≤ c && c ≤ '9' then some (c.toNat - 48)
    else if 'a' ≤ c && c ≤ 'f' then some (c.toNat - 87)
    else if 'A' ≤ c && c ≤ 'F' then some (c.toNat - 55)
    else none
  match v with
  | some d => if d < base then some d else none
  | none => none

def baseDigits (base : Nat) : List Char → Option Nat
  | [] => none
  | cs => cs.foldl (fun acc c =>
      match acc, baseDigit base c with
      | some a, some d => some (a * base + d)
      | _, _ => none) (some 0)

/-- The magnitude part of `int(s, 0)`: radix prefixes `0x`/`0o`/`0b`,
plain zero runs, or decimal without a leading zero. -/
def pyIntMag : List Char → Option Nat
  | [] => none
  | ['0'] => some 0
  | '0' :: c :: rest =>
    if c = 'x' || c = 'X' then baseDigits 16 rest
    else if c = 'o' || c = 'O' then baseDigits 8 rest
    else if c = 'b' || c = 'B' then baseDigits 2 rest
    else if (c :: rest).all (fun x => x = '0') then some 0
    else none
  | cs => baseDigits 10 cs

/-- `int(s, 0)` (dt.py 568) on an already-stripped string. -/
def pyIntBase0 (s : String) : Option Int :=
  match s.data with
  | '+' :: r => (pyIntMag r).map Int.ofNat
  | '-' :: r => (pyIntMag r).map (fun n => -(n : Int))
  | r => (pyIntMag r).map Int.ofNat

/-- `float(s)` (dt.py 567) on the plain decimal forms the dtc output uses:
optional sign, digits around one decimal point, optional exponent (no
`inf`/`nan`/underscores).  The value is kept exact as the pair
`(numerator, denominator)` — the represented number is `num / den`. -/
def pyFloat (s : String) : Option (Int × Nat) :=
  let signAndRest : Int × List Char :=
    match s.data with
    | '+' :: r => (1, r)
    | '-' :: r => (-1, r)
    | r => (1, r)
  let sgn := signAndRest.1
  let cs := signAndRest.2
  let mant := cs.takeWhile (fun c => !(c = 'e' || c = 'E'))
  let expPart := cs.dropWhile (fun c => !(c = 'e' || c = 'E'))
  let ipart := mant.takeWhile (fun c => !(c = '.'))
  let rest := mant.dropWhile (fun c => !(c = '.'))
  let fpart := rest.drop 1
  let digitsOK := ipart.all Char.isDigit && fpart.all Char.isDigit &&
    !(ipart.isEmpty && fpart.isEmpty) &&
    (rest.isEmpty || (rest.head? = some '.' && !fpart.contains '.'))
  let expVal : Option Int :=
    match expPart with
    | [] => some 0
    | _ :: '+' :: ds => if !ds.isEmpty && ds.all Char.isDigit
        then some (Int.ofNat (natOfDigits ds)) else none
    | _ :: '-' :: ds => if !ds.isEmpty && ds.all Char.isDigit
        then some (-(Int.ofNat (natOfDigits ds))) else none
    | _ :: ds => if !ds.isEmpty && ds.all Char.isDigit
        then some (Int.ofNat (natOfDigits ds)) else none
  if digitsOK then
    match expVal with
    | some e =>
      some (sgn * Int.ofNat (natOfDigits (ipart ++ fpart) * 10 ^ e.toNat),
        10 ^ fpart.length * 10 ^ (-e).toNat)
    | none => none
  else none

/-- A separator position for the flow-list tokenizer: the regex
`"([^"]*)"|([^,\s\]]+)` treats commas, closing brackets and whitespace as
the characters a bare token cannot contain. -/
def flowSep (c : Char) : Bool := c = ',' || c = ']' || pyIsSpace c

/-- `re.finditer` of `"([^"]*)"|([^,\s\]]+)` over the list body: a quoted
alternative matches only when a closing quote exists; otherwise the bare
alternative consumes a maximal separator-free run (which may contain
quotes). -/
def flowTokensF : Nat → List Char → List String
  | 0, _ => []
  | _, [] => []
  | fuel + 1, c :: rest =>
    if flowSep c then flowTokensF fuel rest
    else if c = dquoteC && rest.contains dquoteC then
      (⟨rest.takeWhile (fun x => !(x = dquoteC))⟩ : String) ::
        flowTokensF fuel ((rest.dropWhile (fun x => !(x = dquoteC))).drop 1)
    else
      (⟨(c :: rest).takeWhile (fun x => !flowSep x)⟩ : String) ::
        flowTokensF fuel ((c :: rest).dropWhile (fun x => !flowSep x))

def flowTokens (cs : List Char) : List String := flowTokensF cs.length cs

def rstripComma (s : String) : String :=
  ⟨stripRightCh (fun c => c = ',') s.data⟩

/-- `_parse_scalar` (dt.py 533-570), with fuel for the recursion through
flow lists; every recursive call is on a strictly shorter string, so
`length + 1` fuel always suffices. -/
def parseScalarF : Nat → String → PyVal
  | 0, v => .str v
  | fuel + 1, v0 =>
    let val := pyStrip v0
    if val.data.head? = some dquoteC && val.data.getLast? = some dquoteC then
      .str ⟨(val.data.drop 1).dropLast⟩
    else if pyToLower val = "true" || pyToLower val = "false" then
      .bool (pyToLower val = "true")
    else if pyStartsWith val "[" then
      let inner0 : String := ⟨val.data.drop 1⟩
      let inner1 : String :=
        if inner0.data.getLast? = some ']' then ⟨inner0.data.dropLast⟩ else inner0
      let inner : String :=
        ⟨stripRightCh (fun c => c = ',' || c = ';') (pyStrip inner1).data⟩
      if inner = "" then .list []
      else .list ((flowTokens inner.data).map
        (fun t => parseScalarF fuel (rstripComma (pyStrip t))))
    else if val.data.contains '.' then
      match pyFloat val with
      | some q => .float q.1 q.2
      | none => .str val
    else
      match pyIntBase0 val with
      | some n => .int n
      | none => .str val

def _parse_scalar (v : String) : PyVal := parseScalarF (v.data.length + 1) v

/-! `_flatten` (dt.py 454-466). -/
mutual
def _flatten : PyVal → PyVal
  | .str s => .str s
  | .bool b => .bool b
  | .int n => .int n
  | .float n d => .float n d
  | .dict d => .dict (flattenDict d)
  | .list l =>
    match flattenList l with
    | [.list inner] => .list inner
    | lst => .list lst

def flattenDict : List (String × PyVal) → List (String × PyVal)
  | [] => []
  | (k, v) :: rest => (k, _flatten v) :: flattenDict rest

def flattenList : List PyVal → List PyVal
  | [] => []
  | v :: rest => _flatten v :: flattenList rest
end

/-- One frame of the `parse_dtc_yaml` stack: the dict under construction,
the key in its parent under which Python installed the reference at push
time (installed here at pop time, which is equivalent because the parent is
not touched while the child is open), the indent recorded at the push, and
the frame's `last_keys` entry. -/
structure YFrame where
  dict : PyDict
  key : String
  indent : Nat
  lastKey : Option String

structure YSt where
  root : PyDict
  rootLast : Option String
  frames : List YFrame

def curDict (st : YSt) : PyDict :=
  match st.frames with
  | [] => st.root
  | f :: _ => f.dict

def setCurDict (st : YSt) (d : PyDict) : YSt :=
  match st.frames with
  | [] => ⟨d, st.rootLast, []⟩
  | f :: rest => ⟨st.root, st.rootLast, ⟨d, f.key, f.indent, f.lastKey⟩ :: rest⟩

def curLast (st : YSt) : Option String :=
  match st.frames with
  | [] => st.rootLast
  | f :: _ => f.lastKey

def setCurLast (st : YSt) (k : Option String) : YSt :=
  match st.frames with
  | [] => ⟨st.root, k, []⟩
  | f :: rest => ⟨st.root, st.rootLast, ⟨f.dict, f.key, f.indent, k⟩ :: rest⟩

/-- Pop one frame, installing its dict into the parent under the recorded
key. -/
def yPop (st : YSt) : YSt :=
  match st.frames with
  | [] => st
  | f :: rest =>
    match rest with
    | [] => ⟨updIn st.root f.key (.dict f.dict), st.rootLast, []⟩
    | g :: rest2 =>
      ⟨st.root, st.rootLast,
        ⟨updIn g.dict f.key (.dict f.dict), g.key, g.indent, g.lastKey⟩ :: rest2⟩

/-- `while indent < indents[-1]: pop` (dt.py 484-487); each pop removes a
frame, so the frame count is enough fuel. -/
def yPopsF : Nat → YSt → Nat → YSt
  | 0, st, _ => st
  | fuel + 1, st, indent =>
    match st.frames with
    | [] => st
    | f :: _ => if indent < f.indent then yPopsF fuel (yPop st) indent else st

def yPops (st : YSt) (indent : Nat) : YSt := yPopsF st.frames.length st indent

/-- `container.setdefault(key, []).append(val)` (dt.py 500): appends to an
existing list, raises `AttributeError` on a non-list value. -/
def setdefaultAppend (d : PyDict) (key : String) (val : PyVal) :
    Except PyExc PyDict :=
  match lookupKey d key with
  | none => .ok (updIn d key (.list [val]))
  | some (.list l) => .ok (updIn d key (.list (l ++ [val])))
  | some _ => .error .attributeError

/-- The plain list-item branch (dt.py 503-510): a non-list value is first
wrapped in a singleton list. -/
def listItemAppend (d : PyDict) (key : String) (val : PyVal) : PyDict :=
  match lookupKey d key with
  | none => updIn d key (.list [val])
  | some (.list l) => updIn d key (.list (l ++ [val]))
  | some w => updIn d key (.list [w, val])

/-- One line of `parse_dtc_yaml` (dt.py 475-528). -/
def yLine (st : YSt) (line : String) : Except PyExc YSt :=
  let raw : String := ⟨stripRightCh (fun c => c = ';') (pyRstrip line).data⟩
  let stripped := pyLstrip raw
  if stripped = "" || stripped = "---" || stripped = "..." ||
      pyStartsWith stripped "#" then .ok st
  else
    let indent := line.data.length - stripped.data.length
    let st := yPops st indent
    if pyStartsWith stripped "- " then
      let entry := pyStrip ⟨stripped.data.drop 2⟩
      if entry.data.contains ':' && !(entry.data.head? = some dquoteC) then
        match splitOnChar ':' entry.data with
        | none => .ok st
        | some (k0, v0) =>
          let key := stripDq (pyStrip ⟨k0⟩)
          let val := _parse_scalar (pyStrip ⟨v0⟩)
          (setdefaultAppend (curDict st) key val).map (setCurDict st)
      else
        match curLast st with
        | none => .ok st
        | some lk => .ok (setCurDict st (listItemAppend (curDict st) lk
            (_parse_scalar entry)))
    else if stripped.data.contains ':' then
      match splitOnChar ':' stripped.data with
      | none => .ok st
      | some (k0, rest) =>
        let key := stripDq (pyStrip ⟨k0⟩)
        let valStr := pyStrip ⟨rest⟩
        if valStr = "" then
          .ok ⟨st.root, st.rootLast,
            (⟨[], _no_brackets key, indent, none⟩ : YFrame) :: st.frames⟩
        else
          .ok (setCurLast
            (setCurDict st (updIn (curDict st) (_no_brackets key)
              (_parse_scalar valStr))) (some key))
    else .ok st

/-- Pop-install every remaining frame (the references Python kept live in
`root` all along). -/
def yCloseAllF : Nat → YSt → PyDict
  | 0, st => st.root
  | fuel + 1, st =>
    match st.frames with
    | [] => st.root
    | _ :: _ => yCloseAllF fuel (yPop st)

def yCloseAll (st : YSt) : PyDict := yCloseAllF st.frames.length st

/-- `parse_dtc_yaml` (dt.py 469-530); the `AttributeError` of line 500 on
malformed input surfaces as `.error`. -/
def parse_dtc_yaml (data : String) : Except PyExc PyDict :=
  match (pySplitlines data).foldlM yLine ⟨[], none, []⟩ with
  | .error e => .error e
  | .ok st => .ok (flattenDict (yCloseAll st))

/-! The flattening invariant of C6: no value anywhere in a tree is a
single-element list whose sole element is itself a list. -/
mutual
def noSLLB : PyVal → Bool
  | .str _ => true
  | .bool _ => true
  | .int _ => true
  | .float _ _ => true
  | .dict d => noSLLBd d
  | .list l =>
    (match l with
     | [.list _] => false
     | _ => true) && noSLLBl l

def noSLLBl : List PyVal → Bool
  | [] => true
  | v :: rest => noSLLB v && noSLLBl rest

def noSLLBd : List (String × PyVal) → Bool
  | [] => true
  | e :: rest => noSLLB e.2 && noSLLBd rest
end

/-! ## Conversion pipeline and cache build  (dt.py 200-246, 427-442, 573-609)

The external `dtc` invocations are modelled by an oracle value per call:
a successful run with its output text, a non-zero exit
(`CalledProcessError`), or a missing executable (`FileNotFoundError`). -/

inductive ProcResult where
  | ok (out : String)
  | exitErr
  | missingExe
deriving DecidableEq, Repr

/-- `dtb_to_dts` (dt.py 600-609): only `CalledProcessError` is caught. -/
def dtb_to_dts (r : ProcResult) : Except PyExc (Option String) :=
  match r with
  | .ok out => .ok (some out)
  | .exitErr => .ok none
  | .missingExe => .error .fileNotFoundError

/-- `dtb_to_yaml` (dt.py 427-442): `r1` is the dts conversion, `r2` the
yaml conversion; the `except` clause catches only `CalledProcessError`,
so a missing executable or a parse `AttributeError` propagates. -/
def dtb_to_yaml (r1 r2 : ProcResult) : Except PyExc (Option PyDict) :=
  match dtb_to_dts r1 with
  | .error e => .error e
  | .ok none => .ok none
  | .ok (some dts) =>
    if dts = "" then .ok none
    else
      match r2 with
      | .missingExe => .error .fileNotFoundError
      | .exitErr => .ok none
      | .ok yaml_raw =>
        match parse_dtc_yaml yaml_raw with
        | .error e => .error e
        | .ok d => .ok (some d)

/-- `" ".join` of a Python list that must hold strings (`TypeError`
otherwise). -/
def joinPyStrs : List PyVal → Option (List String)
  | [] => some []
  | .str s :: rest => (joinPyStrs rest).map (fun l => s :: l)
  | _ => none

/-- `extract_dtb_info` (dt.py 573-597) on a file outside the cache (the
batch below only submits uncached paths); `stem` is `dtb_path.stem`. -/
def extract_dtb_info (r1 r2 : ProcResult) (stem : String) :
    Except PyExc (Option PyDict) :=
  match dtb_to_yaml r1 r2 with
  | .error e => .error e
  | .ok none => .ok none
  | .ok (some tree) =>
    if tree.isEmpty then .ok none
    else
      match (lookupKey tree "model").getD (.str "") with
      | .list l =>
        match joinPyStrs l with
        | none => .error .typeError
        | some parts =>
          .ok (some [("name", .str stem), ("description", .str (pyJoin " " parts)),
            ("compatible", (lookupKey tree "compatible").getD (.list []))])
      | v =>
        .ok (some [("name", .str stem), ("description", v),
          ("compatible", (lookupKey tree "compatible").getD (.list []))])

def exOk : Except PyExc (Option PyDict) → Bool
  | .ok _ => true
  | .error _ => false

/-- One file of a `gencache` batch: its path, whether it is a `.dtbo`
overlay, its stem, and the two conversion oracles. -/
structure GFile where
  path : String
  isOverlay : Bool
  stem : String
  r1 : ProcResult
  r2 : ProcResult
deriving DecidableEq, Repr

/-- The `as_completed` collection loop of `gencache` (dt.py 227-232),
taken in submission order (one fixed completion order of the pool): an
exception re-raised by `future.result()` lands in the blanket `except`
(dt.py 243), which abandons the loop and returns what was collected so
far.  The module cache starts empty, so the refill loop (dt.py 235-239)
re-inserts the same entries. -/
def gencacheGo :
    List GFile → List (String × PyDict) × List (String × PyDict) →
      List (String × PyDict) × List (String × PyDict)
  | [], res => res
  | f :: rest, res =>
    match extract_dtb_info f.r1 f.r2 f.stem with
    | .error _ => res
    | .ok none => gencacheGo rest res
    | .ok (some d) =>
      gencacheGo rest
        (if f.isOverlay then (res.1, res.2 ++ [(f.path, d)])
         else (res.1 ++ [(f.path, d)], res.2))

/-- `gencache` (dt.py 208-246): the `(base, overlays)` result components. -/
def gencache (files : List GFile) :
    List (String × PyDict) × List (String × PyDict) :=
  gencacheGo files ([], [])

/-! ## Firmware overlay listing  (dt.py 336-355)

A directory entry as `rglob("*.dtbo")` yields it: `is_file()` follows
symlinks (false for a broken link), `is_symlink()` is true for any
symlink, and `resolved` is `str(resolve(strict=True))` (only consulted
for regular-file targets, where it cannot raise). -/

structure FsEntry where
  path : String
  isFile : Bool
  isSymlink : Bool
  resolved : String
deriving DecidableEq, Repr

/-- `dtbof[dtbof.rfind("/") + 1 :]`: the final path segment (the whole
string when it has no slash). -/
def pyBasename (s : String) : String :=
  ⟨(s.data.reverse.takeWhile (fun c => !(c = '/'))).reverse⟩

/-- The firmware branch of `identify_overlays` (dt.py 347-353): keep an
entry only when it is a regular file and not a symlink, and append the
base name of its resolved path. -/
def identify_overlays_fw (entries : List FsEntry) : List String :=
  entries.foldl (fun res e =>
    if e.isFile && !e.isSymlink then res ++ [pyBasename e.resolved] else res) []

/-- The behaviour the specification describes for the same branch: follow
symlinks and reject only broken ones, i.e. keep every entry whose target
is a regular file. -/
def identify_overlays_fw_spec (entries : List FsEntry) : List String :=
  entries.foldl (fun res e =>
    if e.isFile then res ++ [pyBasename e.resolved] else res) []

/-! ## Theorems -/

/-! ### String-primitive lemmas -/

theorem stripLeftCh_eq_self {p : Char → Bool} {cs : List Char}
    (h : ∀ c, cs.head? = some c → p c = false) : stripLeftCh p cs = cs := by
  cases cs with
  | nil => rfl
  | cons c ds =>
    simp [stripLeftCh, List.dropWhile_cons, h c rfl]

theorem stripRightCh_eq_self {p : Char → Bool} {cs : List Char}
    (h : ∀ c, cs.getLast? = some c → p c = false) : stripRightCh p cs = cs := by
  rcases hr : cs.reverse with _ | ⟨e, ds⟩
  · have : cs = [] := by simpa using congrArg List.reverse hr
    simp [this, stripRightCh]
  · have hcs : cs = ds.reverse ++ [e] := by
      have := congrArg List.reverse hr
      simpa using this
    have he : p e = false := by
      apply h
      simp [hcs, List.getLast?_concat]
    simp [stripRightCh, hr, List.dropWhile_cons, he, hcs]

theorem stripCh_eq_self {p : Char → Bool} {cs : List Char}
    (h1 : ∀ c, cs.head? = some c → p c = false)
    (h2 : ∀ c, cs.getLast? = some c → p c = false) : stripCh p cs = cs := by
  rw [stripCh, stripLeftCh_eq_self h1, stripRightCh_eq_self h2]

theorem splitOnChar_eq_some {ch : Char} :
    ∀ {cs a b : List Char}, splitOnChar ch cs = some (a, b) →
      ch ∉ a ∧ cs = a ++ ch :: b := by
  intro cs
  induction cs with
  | nil => intro a b h; simp [splitOnChar] at h
  | cons c rest ih =>
    intro a b h
    by_cases hc : c = ch
    · subst hc
      simp [splitOnChar] at h
      obtain ⟨ha, hb⟩ := h
      subst ha; subst hb
      simp
    · simp only [splitOnChar, if_neg hc] at h
      rcases hp : splitOnChar ch rest with _ | ⟨a', b'⟩
      · rw [hp] at h; simp at h
      · rw [hp,
          show Option.map (fun p => (c :: p.1, p.2)) (some (a', b')) =
            some (c :: a', b') from rfl] at h
        have hpair : (c :: a', b') = (a, b) := Option.some.inj h
        have ha : c :: a' = a := congrArg Prod.fst hpair
        have hb : b' = b := congrArg Prod.snd hpair
        obtain ⟨hna, hcs⟩ := ih hp
        constructor
        · rw [← ha]
          intro hm
          rcases List.mem_cons.mp hm with he | hm'
          · exact hc he.symm
          · exact hna hm'
        · rw [← ha, ← hb, hcs]
          simp

theorem splitOnChar_append {ch : Char} :
    ∀ {kcs : List Char} (vcs : List Char), ch ∉ kcs →
      splitOnChar ch (kcs ++ ch :: vcs) = some (kcs, vcs) := by
  intro kcs
  induction kcs with
  | nil => intro vcs _; simp [splitOnChar]
  | cons c rest ih =>
    intro vcs h
    have hc : ¬c = ch := fun he => h (by simp [he])
    have hr : ch ∉ rest := fun hm => h (by simp [hm])
    simp [splitOnChar, hc, ih vcs hr]

/-! ### `updIn` (dict-assignment) lemmas -/

theorem updIn_fresh {α : Type} {cfg : List (String × α)} {k : String} (v : α)
    (h : k ∉ cfg.map Prod.fst) : updIn cfg k v = cfg ++ [(k, v)] := by
  induction cfg with
  | nil => rfl
  | cons e rest ih =>
    obtain ⟨k', v'⟩ := e
    have hk : k' ≠ k := fun he => h (by simp [he])
    have hr : k ∉ rest.map Prod.fst := fun hm => h (by simp [hm])
    simp [updIn, hk, ih hr]

theorem map_fst_updIn_mem {α : Type} :
    ∀ {cfg : List (String × α)} {k : String} (v : α), k ∈ cfg.map Prod.fst →
      (updIn cfg k v).map Prod.fst = cfg.map Prod.fst := by
  intro cfg
  induction cfg with
  | nil => intro k v h; simp at h
  | cons e rest ih =>
    intro k v h
    obtain ⟨k', v'⟩ := e
    by_cases hk : k' = k
    · subst hk
      simp [updIn]
    · have hm : k ∈ rest.map Prod.fst := by
        rcases List.mem_cons.mp h with he | hm'
        · exact absurd he.symm hk
        · exact hm'
      simp [updIn, hk, ih v hm]

theorem nodup_updIn {α : Type} {cfg : List (String × α)} {k : String} {v : α}
    (h : (cfg.map Prod.fst).Nodup) : ((updIn cfg k v).map Prod.fst).Nodup := by
  by_cases hm : k ∈ cfg.map Prod.fst
  · rw [map_fst_updIn_mem v hm]; exact h
  · rw [updIn_fresh v hm]
    rw [List.map_append]
    apply List.Nodup.append h (by simp)
    intro x hx hy
    simp at hy
    subst hy
    exact hm hx

theorem mem_updIn {α : Type} :
    ∀ {cfg : List (String × α)} {k : String} {v : α} {e : String × α},
      e ∈ updIn cfg k v → e ∈ cfg ∨ e = (k, v) := by
  intro cfg
  induction cfg with
  | nil => intro k v e h; simp [updIn] at h; simp [h]
  | cons hd rest ih =>
    obtain ⟨k', v'⟩ := hd
    intro k v e h
    by_cases hk : k' = k
    · subst hk
      rw [updIn, if_pos rfl] at h
      rcases List.mem_cons.mp h with h | h
      · right; exact h
      · left; exact List.mem_cons_of_mem _ h
    · rw [updIn, if_neg hk] at h
      rcases List.mem_cons.mp h with h | h
      · left; simp [h]
      · rcases ih h with h' | h'
        · left; exact List.mem_cons_of_mem _ h'
        · right; exact h'

theorem lookupKey_updIn {α : Type} :
    ∀ (cfg : List (String × α)) (k : String) (v : α) (k' : String),
      lookupKey (updIn cfg k v) k' =
        if k' = k then some v else lookupKey cfg k' := by
  intro cfg
  induction cfg with
  | nil =>
    intro k v k'
    by_cases h : k' = k
    · subst h; simp [updIn, lookupKey]
    · have h' : ¬k = k' := fun he => h he.symm
      simp [updIn, lookupKey, h, h']
  | cons e rest ih =>
    intro k v k'
    obtain ⟨k'', v''⟩ := e
    by_cases h1 : k'' = k
    · subst h1
      rw [updIn, if_pos rfl]
      by_cases h2 : k' = k''
      · subst h2; simp [lookupKey]
      · have h2' : ¬k'' = k' := fun he => h2 he.symm
        simp [lookupKey, h2, h2']
    · rw [updIn, if_neg h1]
      by_cases h2 : k' = k''
      · subst h2
        simp [lookupKey, h1]
      · have h2' : ¬k'' = k' := fun he => h2 he.symm
        rw [lookupKey, if_neg h2', ih, lookupKey, if_neg h2']

theorem foldl_updIn_fresh {α : Type} :
    ∀ (rest : List (String × α)) (acc : List (String × α)),
      (rest.map Prod.fst).Nodup →
      (∀ k ∈ rest.map Prod.fst, k ∉ acc.map Prod.fst) →
      rest.foldl (fun a e => updIn a e.1 e.2) acc = acc ++ rest := by
  intro rest
  induction rest with
  | nil => intro acc _ _; simp
  | cons e rest ih =>
    intro acc hnodup hfresh
    obtain ⟨k, v⟩ := e
    have hkey : ((k, v) :: rest).map Prod.fst = k :: rest.map Prod.fst := by simp
    rw [hkey] at hnodup
    have hnd := List.nodup_cons.mp hnodup
    have h1 : k ∉ acc.map Prod.fst := hfresh k (by simp)
    have h3 : ∀ k' ∈ rest.map Prod.fst, k' ∉ (acc ++ [(k, v)]).map Prod.fst := by
      intro k' hk'
      have hne : k' ≠ k := fun he => hnd.1 (he ▸ hk')
      rw [List.map_append]
      intro hm
      rcases List.mem_append.mp hm with hm' | hm'
      · exact hfresh k' (List.mem_cons_of_mem _ hk') hm'
      · simp at hm'
        exact hne hm'
    simp only [List.foldl_cons, updIn_fresh v h1]
    rw [ih (acc ++ [(k, v)]) hnd.2 h3]
    simp

/-! ### Character-class facts -/

theorem isDigit_props {c : Char} (h : c.isDigit = true) :
    shWs c = false ∧ ¬c = squoteC ∧ ¬c = dquoteC ∧ ¬c = bslashC ∧
    pyIsLineBreak c = false ∧ pyIsSpace c = false ∧ ¬c = '#' ∧ ¬c = '=' := by
  simp only [Char.isDigit, Bool.and_eq_true, decide_eq_true_eq] at h
  obtain ⟨h1, h2⟩ := h
  have h1' : 48 ≤ c.toNat := h1
  have h2' : c.toNat ≤ 57 := h2
  refine ⟨?_, ?_, ?_, ?_, ?_, ?_, ?_, ?_⟩
  all_goals
    try simp only [shWs, pyIsLineBreak, pyIsSpace, Bool.or_eq_false_iff,
      decide_eq_false_iff_not]
  all_goals repeat' apply And.intro
  all_goals first
    | (intro he; subst he; revert h1' h2'; decide)
    | omega

theorem pyIsSpace_shlex_safe {c : Char} (h : pyIsSpace c = true) :
    ¬c = squoteC ∧ ¬c = dquoteC ∧ ¬c = bslashC := by
  simp only [pyIsSpace, Bool.or_eq_true, decide_eq_true_eq] at h
  refine ⟨?_, ?_, ?_⟩ <;>
    (intro he; subst he; revert h; decide)

/-! ### `shlex` machine lemmas -/

/-- Running the single-quote state over the `force_quote` escaping of `cs`
followed by the closing quote accumulates exactly `cs`. -/
theorem shlexRun_squote_esc :
    ∀ (cs tk : List Char) (q : Bool) (acc : List String) (rest : List Char),
      shlexRun .squote tk q acc (escQuote cs ++ squoteC :: rest) =
        shlexRun .word (tk ++ cs) true acc rest := by
  intro cs
  induction cs with
  | nil => intro tk q acc rest; simp [escQuote, shlexRun]
  | cons c cs ih =>
    intro tk q acc rest
    by_cases hc : c = squoteC
    · subst hc
      rw [escQuote, if_pos rfl]
      show shlexRun .squote tk q acc
          (squoteC :: dquoteC :: squoteC :: dquoteC :: squoteC ::
            (escQuote cs ++ squoteC :: rest)) = _
      rw [show shlexRun .squote tk q acc
            (squoteC :: dquoteC :: squoteC :: dquoteC :: squoteC ::
              (escQuote cs ++ squoteC :: rest)) =
          shlexRun .squote (tk ++ [squoteC]) true acc
            (escQuote cs ++ squoteC :: rest) from by
        simp [shlexRun, shWs, squoteC, dquoteC, bslashC]]
      rw [ih (tk ++ [squoteC]) true acc rest]
      simp
    · rw [escQuote, if_neg hc, List.cons_append]
      rw [show shlexRun .squote tk q acc (c :: (escQuote cs ++ squoteC :: rest)) =
          shlexRun .squote (tk ++ [c]) true acc (escQuote cs ++ squoteC :: rest) from by
        simp [shlexRun, hc]]
      rw [ih (tk ++ [c]) true acc rest]
      simp

/-- `shlex.split` of a `force_quote`d string yields exactly that string as
a single token. -/
theorem pyShlexSplit_forceQuote (s : String) :
    pyShlexSplit (forceQuoteStr s) = some [s] := by
  obtain ⟨cs⟩ := s
  show shlexRun .ws [] false [] (squoteC :: (escQuote cs ++ [squoteC])) = _
  rw [show shlexRun .ws [] false [] (squoteC :: (escQuote cs ++ [squoteC])) =
      shlexRun .squote [] false [] (escQuote cs ++ [squoteC]) from by
    simp [shlexRun, shWs, squoteC]]
  rw [show (escQuote cs ++ [squoteC] : List Char) =
      escQuote cs ++ squoteC :: [] from rfl]
  rw [shlexRun_squote_esc cs [] false [] []]
  simp [shlexRun]

/-- A word made of plain characters is consumed as one token. -/
theorem shlexRun_word_plain :
    ∀ (cs tk : List Char) (q : Bool) (acc : List String),
      tk ≠ [] → (∀ c ∈ cs, shPlain c = true) →
      shlexRun .word tk q acc cs = some (acc ++ [⟨tk ++ cs⟩]) := by
  intro cs
  induction cs with
  | nil =>
    intro tk q acc htk _
    simp [shlexRun, htk]
  | cons c cs ih =>
    intro tk q acc htk h
    have hc := h c (by simp)
    simp only [shPlain, Bool.and_eq_true, Bool.not_eq_true'] at hc
    obtain ⟨⟨⟨hws, hsq⟩, hdq⟩, hbs⟩ := hc
    have hsq' : ¬c = squoteC := of_decide_eq_false hsq
    have hdq' : ¬c = dquoteC := of_decide_eq_false hdq
    have hbs' : ¬c = bslashC := of_decide_eq_false hbs
    rw [show shlexRun .word tk q acc (c :: cs) =
        shlexRun .word (tk ++ [c]) q acc cs from by
      simp [shlexRun, hws, hsq', hdq', hbs']]
    rw [ih (tk ++ [c]) q acc (by simp) (fun c' hm => h c' (by simp [hm]))]
    simp

/-- The shlex reader never raises on input made only of whitespace and
plain characters (it can only raise inside a quote or escape state). -/
theorem shlexRun_safe_isSome :
    ∀ (cs tk : List Char) (q : Bool) (acc : List String) (mode : ShMode),
      (mode = .ws ∨ mode = .word) →
      (∀ c ∈ cs, ¬c = squoteC ∧ ¬c = dquoteC ∧ ¬c = bslashC) →
      (shlexRun mode tk q acc cs).isSome := by
  intro cs
  induction cs with
  | nil =>
    intro tk q acc mode hm _
    rcases hm with rfl | rfl
    · simp [shlexRun]
    · by_cases h : tk ≠ [] ∨ q <;> simp [shlexRun, h]
  | cons c cs ih =>
    intro tk q acc mode hm h
    obtain ⟨h1, h2, h3⟩ := h c (by simp)
    have hrest : ∀ c' ∈ cs, ¬c' = squoteC ∧ ¬c' = dquoteC ∧ ¬c' = bslashC :=
      fun c' hm' => h c' (by simp [hm'])
    rcases hm with rfl | rfl
    · by_cases hws : shWs c = true
      · rw [show shlexRun .ws tk q acc (c :: cs) =
            shlexRun .ws [] false acc cs from by simp [shlexRun, hws]]
        exact ih [] false acc .ws (Or.inl rfl) hrest
      · rw [show shlexRun .ws tk q acc (c :: cs) =
            shlexRun .word [c] q acc cs from by
          simp [shlexRun, hws, h1, h2, h3]]
        exact ih [c] q acc .word (Or.inr rfl) hrest
    · by_cases hws : shWs c = true
      · rw [show shlexRun .word tk q acc (c :: cs) =
            shlexRun .ws [] false
              (acc ++ if tk ≠ [] ∨ q then [(⟨tk⟩ : String)] else []) cs from by
          simp [shlexRun, hws]]
        exact ih [] false _ .ws (Or.inl rfl) hrest
      · rw [show shlexRun .word tk q acc (c :: cs) =
            shlexRun .word (tk ++ [c]) q acc cs from by
          simp [shlexRun, hws, h1, h2, h3]]
        exact ih (tk ++ [c]) q acc .word (Or.inr rfl) hrest

/-- Characters of the tokens produced by the shlex reader satisfy any
predicate that holds for the input, the pending token, the accumulated
tokens and the backslash character. -/
theorem shlexRun_tokens_pred (P : Char → Bool) (hbs : P bslashC = true) :
    ∀ (cs tk : List Char) (q : Bool) (acc res : List String) (mode : ShMode),
      (∀ c ∈ cs, P c = true) → (∀ c ∈ tk, P c = true) →
      (∀ t ∈ acc, ∀ c ∈ t.data, P c = true) →
      shlexRun mode tk q acc cs = some res →
      ∀ t ∈ res, ∀ c ∈ t.data, P c = true := by
  intro cs
  induction cs with
  | nil =>
    intro tk q acc res mode _ htk hacc hres
    have hacc' : ∀ t ∈ acc ++ [(⟨tk⟩ : String)], ∀ c ∈ t.data, P c = true := by
      intro t hmem
      rcases List.mem_append.mp hmem with hm | hm
      · exact hacc t hm
      · simp at hm
        subst hm
        exact htk
    cases mode with
    | ws =>
      rw [shlexRun] at hres
      obtain rfl := Option.some.inj hres
      exact hacc
    | word =>
      rw [shlexRun] at hres
      by_cases hc : tk ≠ [] ∨ q
      · rw [if_pos hc] at hres
        obtain rfl := Option.some.inj hres
        exact hacc'
      · rw [if_neg hc] at hres
        obtain rfl := Option.some.inj hres
        exact hacc
    | squote => simp [shlexRun] at hres
    | dquote => simp [shlexRun] at hres
    | escWord => simp [shlexRun] at hres
    | escDquote => simp [shlexRun] at hres
  | cons c cs ih =>
    intro tk q acc res mode h htk hacc hres
    have hc : P c = true := h c (by simp)
    have hrest : ∀ c' ∈ cs, P c' = true := fun c' hm => h c' (by simp [hm])
    have htkc : ∀ c' ∈ tk ++ [c], P c' = true := by
      intro c' hm
      rcases List.mem_append.mp hm with hm' | hm'
      · exact htk c' hm'
      · simp at hm'; subst hm'; exact hc
    have htk1 : ∀ c' ∈ [c], P c' = true := by
      intro c' hm; simp at hm; subst hm; exact hc
    have htkbs : ∀ c' ∈ tk ++ [bslashC, c], P c' = true := by
      intro c' hm
      rcases List.mem_append.mp hm with hm' | hm'
      · exact htk c' hm'
      · simp at hm'
        rcases hm' with rfl | rfl
        · exact hbs
        · exact hc
    have hacc' : ∀ t ∈ acc ++ if tk ≠ [] ∨ q then [(⟨tk⟩ : String)] else [],
        ∀ c' ∈ t.data, P c' = true := by
      intro t hmem
      rcases List.mem_append.mp hmem with hm | hm
      · exact hacc t hm
      · by_cases hq : tk ≠ [] ∨ q
        · rw [if_pos hq] at hm
          simp at hm
          subst hm
          exact htk
        · rw [if_neg hq] at hm
          simp at hm
    cases mode with
    | ws =>
      rw [shlexRun] at hres
      split at hres
      · exact ih [] false acc res .ws hrest (by simp) hacc hres
      · split at hres
        · exact ih tk q acc res .squote hrest htk hacc hres
        · split at hres
          · exact ih tk q acc res .dquote hrest htk hacc hres
          · split at hres
            · exact ih tk q acc res .escWord hrest htk hacc hres
            · exact ih [c] q acc res .word hrest htk1 hacc hres
    | word =>
      rw [shlexRun] at hres
      split at hres
      · exact ih [] false _ res .ws hrest (by simp) hacc' hres
      · split at hres
        · exact ih tk q acc res .squote hrest htk hacc hres
        · split at hres
          · exact ih tk q acc res .dquote hrest htk hacc hres
          · split at hres
            · exact ih tk q acc res .escWord hrest htk hacc hres
            · exact ih (tk ++ [c]) q acc res .word hrest htkc hacc hres
    | squote =>
      rw [shlexRun] at hres
      split at hres
      · exact ih tk true acc res .word hrest htk hacc hres
      · exact ih (tk ++ [c]) true acc res .squote hrest htkc hacc hres
    | dquote =>
      rw [shlexRun] at hres
      split at hres
      · exact ih tk true acc res .word hrest htk hacc hres
      · split at hres
        · exact ih tk true acc res .escDquote hrest htk hacc hres
        · exact ih (tk ++ [c]) true acc res .dquote hrest htkc hacc hres
    | escWord =>
      rw [shlexRun] at hres
      exact ih (tk ++ [c]) q acc res .word hrest htkc hacc hres
    | escDquote =>
      rw [shlexRun] at hres
      split at hres
      · exact ih (tk ++ [c]) q acc res .dquote hrest htkc hacc hres
      · exact ih (tk ++ [bslashC, c]) q acc res .dquote hrest htkbs hacc hres

/-! ### Decimal rendering (`str(n)`) lemmas -/

theorem natOfDigits_append (ds : List Char) (c : Char) :
    natOfDigits (ds ++ [c]) = natOfDigits ds * 10 + (c.toNat - 48) := by
  simp [natOfDigits, List.foldl_append]

theorem natDigitsF_spec :
    ∀ (fuel n : Nat), n < fuel →
      natDigitsF fuel n ≠ [] ∧ (∀ c ∈ natDigitsF fuel n, c.isDigit = true) ∧
      natOfDigits (natDigitsF fuel n) = n := by
  intro fuel
  induction fuel with
  | zero => intro n h; omega
  | succ fuel ih =>
    intro n hn
    by_cases h : n < 10
    · rw [natDigitsF, if_pos h]
      interval_cases n <;> exact ⟨by decide, by decide, by decide⟩
    · rw [natDigitsF, if_neg h]
      have hdiv : n / 10 < fuel := by omega
      obtain ⟨ih1, ih2, ih3⟩ := ih (n / 10) hdiv
      have hm : n % 10 < 10 := Nat.mod_lt _ (by omega)
      have hlast : (Char.ofNat (48 + n % 10)).isDigit = true ∧
          (Char.ofNat (48 + n % 10)).toNat = 48 + n % 10 := by
        generalize hg : n % 10 = m at hm
        interval_cases m <;> exact ⟨by decide, by decide⟩
      refine ⟨by simp, ?_, ?_⟩
      · intro c hc
        rcases List.mem_append.mp hc with hc' | hc'
        · exact ih2 c hc'
        · simp at hc'
          subst hc'
          exact hlast.1
      · rw [natOfDigits_append, ih3, hlast.2]
        omega

theorem pyIntStr_spec (n : Nat) :
    (pyIntStr n).data ≠ [] ∧ (∀ c ∈ (pyIntStr n).data, c.isDigit = true) ∧
    natOfDigits (pyIntStr n).data = n :=
  natDigitsF_spec (n + 1) n (by omega)

theorem coerceTok_pyIntStr (n : Nat) : coerceTok (pyIntStr n) = .num n := by
  obtain ⟨h1, h2, h3⟩ := pyIntStr_spec n
  have hd : pyIsDigitStr (pyIntStr n) = true := by
    simp only [pyIsDigitStr, Bool.and_eq_true, Bool.not_eq_true',
      List.isEmpty_eq_false, List.all_eq_true]
    exact ⟨by simpa using h1, fun c hc => h2 c hc⟩
  rw [coerceTok, if_pos hd, h3]

theorem isDigit_shPlain {c : Char} (h : c.isDigit = true) : shPlain c = true := by
  obtain ⟨hws, hsq, hdq, hbs, _, _, _, _⟩ := isDigit_props h
  simp [shPlain, hws, hsq, hdq, hbs]

/-- `shlex.split` of a nonempty all-plain word is that single word. -/
theorem pyShlexSplit_plain (cs : List Char) (h : cs ≠ [])
    (hp : ∀ c ∈ cs, shPlain c = true) :
    pyShlexSplit ⟨cs⟩ = some [⟨cs⟩] := by
  match cs, h with
  | c :: rest, _ =>
    have hc := hp c (by simp)
    simp only [shPlain, Bool.and_eq_true, Bool.not_eq_true'] at hc
    obtain ⟨⟨⟨hws, hsq⟩, hdq⟩, hbs⟩ := hc
    have hsq' : ¬c = squoteC := of_decide_eq_false hsq
    have hdq' : ¬c = dquoteC := of_decide_eq_false hdq
    have hbs' : ¬c = bslashC := of_decide_eq_false hbs
    show shlexRun .ws [] false [] (c :: rest) = _
    rw [show shlexRun .ws [] false [] (c :: rest) =
        shlexRun .word [c] false [] rest from by
      simp [shlexRun, hws, hsq', hdq', hbs']]
    rw [shlexRun_word_plain rest [c] false [] (by simp)
      (fun c' hm => hp c' (by simp [hm]))]
    simp

theorem pyShlexSplit_pyIntStr (n : Nat) :
    pyShlexSplit (pyIntStr n) = some [pyIntStr n] := by
  obtain ⟨h1, h2, _⟩ := pyIntStr_spec n
  have := pyShlexSplit_plain (pyIntStr n).data h1
    (fun c hc => isDigit_shPlain (h2 c hc))
  simpa using this

/-! ### `strip` decomposition lemmas -/

theorem stripRightCh_decomp (p : Char → Bool) (cs : List Char) :
    ∃ w, cs = stripRightCh p cs ++ w ∧ ∀ c ∈ w, p c = true := by
  refine ⟨(cs.reverse.takeWhile p).reverse, ?_, ?_⟩
  · rw [stripRightCh]
    have h := List.takeWhile_append_dropWhile (p := p) (l := cs.reverse)
    have := congrArg List.reverse h
    simp only [List.reverse_append, List.reverse_reverse] at this
    exact this.symm
  · intro c hc
    rw [List.mem_reverse] at hc
    exact List.mem_takeWhile_imp hc

theorem stripCh_decomp (p : Char → Bool) (cs : List Char) :
    ∃ w1 w2, cs = w1 ++ stripCh p cs ++ w2 ∧
      (∀ c ∈ w1, p c = true) ∧ (∀ c ∈ w2, p c = true) := by
  obtain ⟨w2, hw2, hp2⟩ := stripRightCh_decomp p (stripLeftCh p cs)
  refine ⟨cs.takeWhile p, w2, ?_, fun c hc => List.mem_takeWhile_imp hc, hp2⟩
  rw [stripCh, List.append_assoc, ← hw2]
  exact (List.takeWhile_append_dropWhile (p := p) (l := cs)).symm

theorem stripCh_subset {p : Char → Bool} {cs : List Char} :
    ∀ c ∈ stripCh p cs, c ∈ cs := by
  intro c hc
  obtain ⟨w1, w2, hd, _, _⟩ := stripCh_decomp p cs
  rw [hd]
  simp [hc]

theorem length_dropWhile_le (p : Char → Bool) :
    ∀ (cs : List Char), (cs.dropWhile p).length ≤ cs.length := by
  intro cs
  induction cs with
  | nil => simp
  | cons c rest ih =>
    rw [List.dropWhile_cons]
    by_cases h : p c
    · rw [if_pos h]
      exact le_trans ih (by simp)
    · simp [if_neg h]

theorem stripRightCh_length_le (p : Char → Bool) (cs : List Char) :
    (stripRightCh p cs).length ≤ cs.length := by
  rw [stripRightCh]
  have := length_dropWhile_le p cs.reverse
  simpa using this

theorem stripCh_fixed_head {p : Char → Bool} {c0 : Char} {rest : List Char}
    (hfix : stripCh p (c0 :: rest) = c0 :: rest) : p c0 = false := by
  by_contra hx
  have hp : p c0 = true := by revert hx; cases p c0 <;> simp
  have hlen : (stripCh p (c0 :: rest)).length ≤ rest.length := by
    rw [stripCh, stripLeftCh, List.dropWhile_cons, if_pos hp]
    calc (stripRightCh p (rest.dropWhile p)).length
        ≤ (rest.dropWhile p).length := stripRightCh_length_le _ _
      _ ≤ rest.length := length_dropWhile_le _ _
  rw [hfix] at hlen
  simp at hlen

theorem head?_dropWhile (p : Char → Bool) :
    ∀ (cs : List Char) (c : Char), (cs.dropWhile p).head? = some c → p c = false := by
  intro cs
  induction cs with
  | nil => intro c h; simp at h
  | cons c0 rest ih =>
    intro c h
    rw [List.dropWhile_cons] at h
    by_cases hp : p c0
    · rw [if_pos hp] at h
      exact ih c h
    · rw [if_neg hp] at h
      obtain rfl : c0 = c := by simpa using h
      revert hp; cases p c0 <;> simp

theorem head?_stripCh {p : Char → Bool} {cs : List Char} {c : Char}
    (h : (stripCh p cs).head? = some c) : p c = false := by
  obtain ⟨w, hw, -⟩ := stripRightCh_decomp p (stripLeftCh p cs)
  rw [stripCh] at h
  apply head?_dropWhile p cs c
  show (stripLeftCh p cs).head? = some c
  rw [hw]
  cases he : (stripRightCh p (stripLeftCh p cs)).head? with
  | none =>
    rw [he] at h
    exact absurd h (by simp)
  | some c' =>
    have hcc : c' = c := by rw [he] at h; exact Option.some.inj h
    rcases hsr : stripRightCh p (stripLeftCh p cs) with _ | ⟨c0, rest⟩
    · rw [hsr] at he; simp at he
    · rw [hsr] at he
      have hc0 : c0 = c' := by simpa using he
      simp [hc0, hcc]

theorem getLast?_stripCh {p : Char → Bool} {cs : List Char} {c : Char}
    (h : (stripCh p cs).getLast? = some c) : p c = false := by
  rw [stripCh, stripRightCh, ← List.head?_reverse, List.reverse_reverse] at h
  exact head?_dropWhile p (stripLeftCh p cs).reverse c h

theorem stripCh_idem (p : Char → Bool) (cs : List Char) :
    stripCh p (stripCh p cs) = stripCh p cs :=
  stripCh_eq_self (fun _ h => head?_stripCh h) (fun _ h => getLast?_stripCh h)

/-- A `shlex.split` `ValueError` implies the stripped value contains a
quote or escape character, hence is not a pure digit string. -/
theorem shlexNone_not_digits {val : String} (h : pyShlexSplit val = none) :
    pyIsDigitStr (pyStrip val) = false := by
  by_contra hx
  have hd : pyIsDigitStr (pyStrip val) = true := by
    revert hx; cases pyIsDigitStr (pyStrip val) <;> simp
  simp only [pyIsDigitStr, Bool.and_eq_true, Bool.not_eq_true',
    List.isEmpty_eq_false, List.all_eq_true] at hd
  obtain ⟨-, hdig⟩ := hd
  obtain ⟨w1, w2, hdec, hp1, hp2⟩ := stripCh_decomp pyIsSpace val.data
  have hsafe : ∀ c ∈ val.data, ¬c = squoteC ∧ ¬c = dquoteC ∧ ¬c = bslashC := by
    intro c hc
    rw [hdec] at hc
    rcases List.mem_append.mp hc with hc' | hc'
    · rcases List.mem_append.mp hc' with hc'' | hc''
      · exact pyIsSpace_shlex_safe (hp1 c hc'')
      · have := isDigit_props (hdig c hc'')
        exact ⟨this.2.1, this.2.2.1, this.2.2.2.1⟩
    · exact pyIsSpace_shlex_safe (hp2 c hc')
  have := shlexRun_safe_isSome val.data [] false [] .ws (Or.inl rfl) hsafe
  rw [show shlexRun ShMode.ws [] false [] val.data = pyShlexSplit val from rfl,
    h] at this
  simp at this

/-! ### `splitlines` / `join` lemmas -/

theorem splitlinesCh_cons_noBreak (c : Char) (rest acc : List Char)
    (hc : pyIsLineBreak c = false) :
    splitlinesCh (c :: rest) acc = splitlinesCh rest (acc ++ [c]) := by
  have hcr : ¬c = '\r' := by
    intro he; rw [he] at hc; simp [pyIsLineBreak] at hc
  cases rest with
  | nil => simp [splitlinesCh, hc]
  | cons c2 rest2 =>
    have hb : (c = '\r' && c2 = '\n') = false := by simp [hcr]
    simp [splitlinesCh, hb, hc]

theorem splitlinesCh_cons_break (c : Char) (rest acc : List Char)
    (hc : pyIsLineBreak c = true) (hcr : ¬c = '\r') :
    splitlinesCh (c :: rest) acc = (⟨acc⟩ : String) :: splitlinesCh rest [] := by
  cases rest with
  | nil => simp [splitlinesCh, hc]
  | cons c2 rest2 =>
    have hb : (c = '\r' && c2 = '\n') = false := by simp [hcr]
    simp [splitlinesCh, hb, hc]

theorem splitlinesCh_noBreak :
    ∀ (cs acc : List Char), (∀ c ∈ cs, pyIsLineBreak c = false) →
      splitlinesCh cs acc =
        if (acc ++ cs).isEmpty then [] else [⟨acc ++ cs⟩] := by
  intro cs
  induction cs with
  | nil => intro acc _; simp [splitlinesCh]
  | cons c rest ih =>
    intro acc h
    have hc : pyIsLineBreak c = false := h c (by simp)
    have hrest : ∀ c' ∈ rest, pyIsLineBreak c' = false := fun c' hm => h c' (by simp [hm])
    rw [splitlinesCh_cons_noBreak c rest acc hc, ih (acc ++ [c]) hrest]
    simp

theorem splitlinesCh_newline :
    ∀ (cs : List Char) (rest acc : List Char),
      (∀ c ∈ cs, pyIsLineBreak c = false) →
      splitlinesCh (cs ++ '\n' :: rest) acc =
        (⟨acc ++ cs⟩ : String) :: splitlinesCh rest [] := by
  intro cs
  induction cs with
  | nil =>
    intro rest acc _
    rw [List.nil_append,
      splitlinesCh_cons_break '\n' rest acc (by simp [pyIsLineBreak]) (by decide)]
    simp
  | cons c cs ih =>
    intro rest acc h
    have hc : pyIsLineBreak c = false := h c (by simp)
    have hcs : ∀ c' ∈ cs, pyIsLineBreak c' = false := fun c' hm => h c' (by simp [hm])
    rw [List.cons_append, splitlinesCh_cons_noBreak c _ acc hc,
      ih rest (acc ++ [c]) hcs]
    simp

theorem splitlinesCh_mem_noBreak :
    ∀ (n : Nat) (cs acc : List Char), cs.length ≤ n →
      (∀ c ∈ acc, pyIsLineBreak c = false) →
      ∀ l ∈ splitlinesCh cs acc, ∀ c ∈ l.data, pyIsLineBreak c = false := by
  intro n
  induction n with
  | zero =>
    intro cs acc hn hacc l hl
    have : cs = [] := by
      cases cs with
      | nil => rfl
      | cons a b => simp at hn
    subst this
    rw [splitlinesCh] at hl
    by_cases h : acc.isEmpty
    · rw [if_pos h] at hl; simp at hl
    · rw [if_neg h] at hl
      simp at hl
      subst hl
      exact hacc
  | succ n ih =>
    intro cs acc hn hacc l hl
    cases cs with
    | nil => exact ih [] acc (by simp) hacc l hl
    | cons c0 rest =>
      cases rest with
      | nil =>
        rw [splitlinesCh] at hl
        by_cases hb : pyIsLineBreak c0 = true
        · rw [if_pos hb] at hl
          simp at hl
          subst hl
          exact hacc
        · rw [if_neg hb] at hl
          simp at hl
          subst hl
          intro c hc
          rcases List.mem_append.mp hc with hc' | hc'
          · exact hacc c hc'
          · simp at hc'
            rw [hc']
            revert hb; cases pyIsLineBreak c0 <;> simp
      | cons c2 rest2 =>
        have hlen : rest2.length ≤ n := by simp at hn; omega
        have hlen2 : (c2 :: rest2).length ≤ n := by simp at hn ⊢; omega
        rw [splitlinesCh] at hl
        by_cases hcrlf : (c0 = '\r' && c2 = '\n') = true
        · rw [if_pos hcrlf] at hl
          rcases List.mem_cons.mp hl with rfl | hl'
          · exact hacc
          · exact ih rest2 [] hlen (by simp) l hl'
        · rw [if_neg hcrlf] at hl
          by_cases hb : pyIsLineBreak c0 = true
          · rw [if_pos hb] at hl
            rcases List.mem_cons.mp hl with rfl | hl'
            · exact hacc
            · exact ih (c2 :: rest2) [] hlen2 (by simp) l hl'
          · rw [if_neg hb] at hl
            refine ih (c2 :: rest2) (acc ++ [c0]) hlen2 ?_ l hl
            intro c hc
            rcases List.mem_append.mp hc with hc' | hc'
            · exact hacc c hc'
            · simp at hc'
              rw [hc']
              revert hb; cases pyIsLineBreak c0 <;> simp

theorem pySplitlines_mem_noBreak (s : String) :
    ∀ l ∈ pySplitlines s, ∀ c ∈ l.data, pyIsLineBreak c = false :=
  splitlinesCh_mem_noBreak s.data.length s.data [] (le_refl _) (by simp)

theorem escQuote_pred (P : Char → Bool) (hsq : P squoteC = true)
    (hdq : P dquoteC = true) :
    ∀ (cs : List Char), (∀ c ∈ cs, P c = true) →
      ∀ c ∈ escQuote cs, P c = true := by
  intro cs
  induction cs with
  | nil => intro _ c hc; simp [escQuote] at hc
  | cons c0 rest ih =>
    intro h c hc
    have hrest := ih (fun c' hm => h c' (by simp [hm]))
    rw [escQuote] at hc
    by_cases he : c0 = squoteC
    · rw [if_pos he] at hc
      simp at hc
      rcases hc with rfl | rfl | rfl | rfl | rfl | hm
      · exact hsq
      · exact hdq
      · exact hsq
      · exact hdq
      · exact hsq
      · exact hrest c hm
    · rw [if_neg he] at hc
      rcases List.mem_cons.mp hc with rfl | hm
      · exact h c (by simp)
      · exact hrest c hm

theorem pySplitlines_join :
    ∀ (ls : List String), ls ≠ [] →
      (∀ l ∈ ls, l ≠ "" ∧ ∀ c ∈ l.data, pyIsLineBreak c = false) →
      pySplitlines (pyJoin "\n" ls) = ls := by
  intro ls
  induction ls with
  | nil => intro h _; exact absurd rfl h
  | cons l ls ih =>
    intro _ h
    obtain ⟨hne, hnb⟩ := h l (by simp)
    cases ls with
    | nil =>
      have : pyJoin "\n" [l] = l := rfl
      rw [this]
      unfold pySplitlines
      rw [splitlinesCh_noBreak l.data [] hnb]
      have : l.data.isEmpty = false := by
        cases hl : l.data with
        | nil => exact absurd (by cases l; simp_all) hne
        | cons a b => simp
      simp only [List.nil_append, this]
      cases l; simp
    | cons l2 ls2 =>
      have hdata : (pyJoin "\n" (l :: l2 :: ls2)).data =
          l.data ++ '\n' :: (pyJoin "\n" (l2 :: ls2)).data := by
        show (l ++ "\n" ++ pyJoin "\n" (l2 :: ls2)).data = _
        simp [String.data_append]
      unfold pySplitlines
      rw [hdata, splitlinesCh_newline l.data _ [] hnb]
      have ih2 := ih (by simp) (fun l' hm => h l' (by simp [hm]))
      unfold pySplitlines at ih2
      rw [ih2]
      cases l; simp

/-! ### Environment-codec invariant lemmas -/

theorem pyStartsWith_hash {c0 : Char} {rest : List Char} {s : String}
    (hs : s.data = c0 :: rest) (h : pyStartsWith s "#" = false) : ¬c0 = '#' := by
  intro he
  subst he
  rw [pyStartsWith, hs] at h
  simp [List.isPrefixOf] at h

theorem stripCh_cons_head {p : Char → Bool} {c0 c : Char} {k0 rest : List Char}
    (hc0 : p c0 = false) (h : stripCh p (c0 :: k0) = c :: rest) : c = c0 := by
  have hs : stripCh p (c0 :: k0) = stripRightCh p (c0 :: k0) := by
    rw [stripCh, stripLeftCh, List.dropWhile_cons, if_neg (by simp [hc0])]
  rw [hs] at h
  obtain ⟨w, hw, -⟩ := stripRightCh_decomp p (c0 :: k0)
  rw [h, List.cons_append] at hw
  injection hw with h1 h2
  exact h1.symm

theorem envInv_updIn {cfg : EnvCfg} {k : String} {v : UVal}
    (hinv : EnvInv cfg) (hk : KeyOK k) (hv : ValScalarOK v) :
    EnvInv (updIn cfg k v) := by
  refine ⟨?_, nodup_updIn hinv.2⟩
  intro e he
  rcases mem_updIn he with h | h
  · exact hinv.1 e h
  · rw [h]
    exact ⟨hk, hv⟩

/-- Processing one (break-free) line preserves the parse invariant. -/
theorem envInv_parseEnvLine {cfg : EnvCfg} {rawLine : String}
    (hline : ∀ c ∈ rawLine.data, pyIsLineBreak c = false)
    (hinv : EnvInv cfg) : EnvInv (parseEnvLine cfg rawLine) := by
  simp only [parseEnvLine]
  split
  · exact hinv
  · rename_i hskip
    have hnash : pyStartsWith (pyStrip rawLine) "#" = false := by
      revert hskip
      cases pyStartsWith (pyStrip rawLine) "#" <;> simp
    have hlnb : ∀ c ∈ (pyStrip rawLine).data, pyIsLineBreak c = false :=
      fun c hc => hline c (stripCh_subset c hc)
    have hlfix : stripCh pyIsSpace (pyStrip rawLine).data = (pyStrip rawLine).data :=
      stripCh_idem pyIsSpace rawLine.data
    cases hsp : splitOnChar '=' (pyStrip rawLine).data with
    | none => simp only [hsp]; exact hinv
    | some kv =>
      obtain ⟨kcs, vcs⟩ := kv
      simp only [hsp]
      obtain ⟨hknotin, hldata⟩ := splitOnChar_eq_some hsp
      have hkcs_nb : ∀ c ∈ kcs, pyIsLineBreak c = false := by
        intro c hc
        exact hlnb c (by rw [hldata]; simp [hc])
      have hvcs_nb : ∀ c ∈ vcs, pyIsLineBreak c = false := by
        intro c hc
        exact hlnb c (by rw [hldata]; simp [hc])
      have hkey : KeyOK (pyStrip ⟨kcs⟩) := by
        refine ⟨?_, ?_, ?_, ?_⟩
        · show pyStrip ⟨stripCh pyIsSpace kcs⟩ = ⟨stripCh pyIsSpace kcs⟩
          exact congrArg String.mk (stripCh_idem pyIsSpace kcs)
        · intro hm
          exact hknotin (stripCh_subset _ hm)
        · intro c hc
          exact hkcs_nb c (stripCh_subset c hc)
        · rw [headNotHash]
          cases hdata : (pyStrip (⟨kcs⟩ : String)).data with
          | nil => simp
          | cons c rest =>
            have hdata' : stripCh pyIsSpace kcs = c :: rest := hdata
            cases kcs with
            | nil => simp [stripCh, stripLeftCh, stripRightCh] at hdata'
            | cons c0 k0 =>
              have hc0l : (pyStrip rawLine).data = c0 :: (k0 ++ '=' :: vcs) := by
                rw [hldata]; simp
              have hc0sp : pyIsSpace c0 = false := by
                apply @stripCh_fixed_head pyIsSpace c0 (k0 ++ '=' :: vcs)
                rw [← hc0l]
                exact hlfix
              have hne : ¬c0 = '#' := pyStartsWith_hash hc0l hnash
              have hcc0 : c = c0 := stripCh_cons_head hc0sp hdata'
              simp [hcc0, hne]
      cases hsh : pyShlexSplit ⟨vcs⟩ with
      | none =>
        simp only [hsh]
        refine envInv_updIn hinv hkey ?_
        refine ⟨shlexNone_not_digits hsh, ?_⟩
        intro c hc
        exact hvcs_nb c (stripCh_subset c hc)
      | some toks =>
        have htoks_nb : ∀ t ∈ toks, ∀ c ∈ t.data, pyIsLineBreak c = false := by
          intro t ht c hc
          have := shlexRun_tokens_pred (fun c => !pyIsLineBreak c) (by decide)
            vcs [] false [] toks .ws
            (fun c' hc' => by simp [hvcs_nb c' hc']) (by simp) (by simp)
            hsh t ht c hc
          simpa using this
        match toks with
        | [t] =>
          simp only [hsh]
          refine envInv_updIn hinv hkey ?_
          rw [coerceTok]
          by_cases hd : pyIsDigitStr t = true
          · rw [if_pos hd]
            exact trivial
          · rw [if_neg hd]
            refine ⟨by revert hd; cases pyIsDigitStr t <;> simp, ?_⟩
            exact htoks_nb t (by simp)
        | [] =>
          simp only [hsh]
          exact envInv_updIn hinv hkey trivial
        | t1 :: t2 :: ts =>
          simp only [hsh]
          exact envInv_updIn hinv hkey trivial

/-- Parsing an encoded `KEY=value` line: the generic shape with the value
part left opaque. -/
theorem parseEnvLine_keyval (cfg : EnvCfg) (k q : String)
    (hk : KeyOK k) (hqne : q.data ≠ [])
    (hqlast : ∀ c, q.data.getLast? = some c → pyIsSpace c = false) :
    parseEnvLine cfg (k ++ "=" ++ q) =
      (match pyShlexSplit q with
       | none => updIn cfg k (.scal (.str (pyStrip q)))
       | some [t] => updIn cfg k (.scal (coerceTok t))
       | some l => updIn cfg k (.list (l.map coerceTok))) := by
  obtain ⟨hk1, hk2, hk3, hk4⟩ := hk
  have hdata : (k ++ "=" ++ q).data = k.data ++ '=' :: q.data := by
    simp [String.data_append]
  have hkfix : stripCh pyIsSpace k.data = k.data := congrArg String.data hk1
  have hstrip : pyStrip (k ++ "=" ++ q) = k ++ "=" ++ q := by
    show (⟨stripCh pyIsSpace (k ++ "=" ++ q).data⟩ : String) = k ++ "=" ++ q
    rw [hdata]
    have hfix : stripCh pyIsSpace (k.data ++ '=' :: q.data) =
        k.data ++ '=' :: q.data := by
      apply stripCh_eq_self
      · intro c hc
        cases hkd : k.data with
        | nil =>
          rw [hkd] at hc
          simp at hc
          rw [← hc]
          decide
        | cons c0 k0 =>
          rw [hkd] at hc
          simp at hc
          rw [← hc]
          exact stripCh_fixed_head (by rw [← hkd]; exact hkfix)
      · intro c hc
        rw [List.getLast?_append_of_ne_nil _ (by simp)] at hc
        rw [show ('=' :: q.data) = ['='] ++ q.data from rfl,
          List.getLast?_append_of_ne_nil _ hqne] at hc
        exact hqlast c hc
    rw [hfix, ← hdata]
  have hne : ¬(k ++ "=" ++ q) = "" := by
    intro he
    have := congrArg String.data he
    rw [hdata] at this
    simp at this
  have hhash : pyStartsWith (k ++ "=" ++ q) "#" = false := by
    rw [pyStartsWith, hdata]
    cases hkd : k.data with
    | nil =>
      simp [List.isPrefixOf]
    | cons c0 k0 =>
      have hc0 : ¬c0 = '#' := by
        have := hk4
        rw [headNotHash, hkd] at this
        simpa using this
      rw [List.cons_append]
      simp [List.isPrefixOf]
      intro he
      exact absurd he.symm hc0
  simp only [parseEnvLine]
  rw [hstrip]
  rw [if_neg (by simp [hne, hhash])]
  rw [hdata, splitOnChar_append q.data hk2]
  simp only [show (⟨k.data⟩ : String) = k from rfl,
    show (⟨q.data⟩ : String) = q from rfl, hk1]
  rcases pyShlexSplit q with _ | toks
  · rfl
  · rcases toks with _ | ⟨t, _ | ⟨t2, ts⟩⟩ <;> rfl

theorem parseEnvLine_encoded_num (cfg : EnvCfg) (k : String) (n : Nat)
    (hk : KeyOK k) :
    parseEnvLine cfg (k ++ "=" ++ force_quote (.num n)) =
      updIn cfg k (.scal (.num n)) := by
  obtain ⟨h1, h2, h3⟩ := pyIntStr_spec n
  have hlast : ∀ c, (pyIntStr n).data.getLast? = some c → pyIsSpace c = false := by
    intro c hc
    have hmem : c ∈ (pyIntStr n).data := List.mem_of_mem_getLast? hc
    exact (isDigit_props (h2 c hmem)).2.2.2.2.2.1
  rw [show force_quote (.num n) = pyIntStr n from rfl,
    parseEnvLine_keyval cfg k (pyIntStr n) hk h1 hlast,
    pyShlexSplit_pyIntStr n]
  show updIn cfg k (UVal.scal (coerceTok (pyIntStr n))) = _
  rw [coerceTok_pyIntStr n]

theorem parseEnvLine_encoded_str (cfg : EnvCfg) (k s : String)
    (hk : KeyOK k) (hnd : pyIsDigitStr s = false) :
    parseEnvLine cfg (k ++ "=" ++ force_quote (.str s)) =
      updIn cfg k (.scal (.str s)) := by
  have hqdata : (forceQuoteStr s).data =
      squoteC :: (escQuote s.data ++ [squoteC]) := rfl
  have hqne : (forceQuoteStr s).data ≠ [] := by rw [hqdata]; simp
  have hlast : ∀ c, (forceQuoteStr s).data.getLast? = some c →
      pyIsSpace c = false := by
    intro c hc
    rw [hqdata, show squoteC :: (escQuote s.data ++ [squoteC]) =
      (squoteC :: escQuote s.data) ++ [squoteC] from by simp,
      List.getLast?_concat] at hc
    obtain rfl : squoteC = c := by simpa using hc
    decide
  rw [show force_quote (.str s) = forceQuoteStr s from rfl,
    parseEnvLine_keyval cfg k (forceQuoteStr s) hk hqne hlast,
    pyShlexSplit_forceQuote s]
  show updIn cfg k (UVal.scal (coerceTok s)) = _
  rw [coerceTok, if_neg (by simp [hnd])]

/-- The characters of an encoded `KEY=value` line, for a scalar value. -/
theorem encodedLine_noBreak (k : String) (sc : UScal)
    (hk3 : ∀ c ∈ k.data, pyIsLineBreak c = false)
    (hv : ValScalarOK (.scal sc)) :
    ∀ c ∈ (k ++ "=" ++ force_quote sc).data, pyIsLineBreak c = false := by
  intro c hc
  have hdata : (k ++ "=" ++ force_quote sc).data =
      k.data ++ '=' :: (force_quote sc).data := by
    simp [String.data_append]
  rw [hdata] at hc
  rcases List.mem_append.mp hc with hc' | hc'
  · exact hk3 c hc'
  · rcases List.mem_cons.mp hc' with rfl | hc''
    · decide
    · cases sc with
      | num n =>
        exact (isDigit_props ((pyIntStr_spec n).2.1 c hc'')).2.2.2.2.1
      | str s =>
        rw [show force_quote (.str s) = forceQuoteStr s from rfl] at hc''
        rw [show (forceQuoteStr s).data =
          squoteC :: (escQuote s.data ++ [squoteC]) from rfl] at hc''
        rcases List.mem_cons.mp hc'' with rfl | hc3
        · decide
        · rcases List.mem_append.mp hc3 with hc4 | hc4
          · have := escQuote_pred (fun c => !pyIsLineBreak c) (by decide)
              (by decide) s.data (fun c' hc' => by simp [hv.2 c' hc']) c hc4
            simpa using this
          · simp at hc4
            rw [hc4]
            decide

theorem encodedLine_ne_empty (k : String) (sc : UScal) :
    ¬(k ++ "=" ++ force_quote sc) = "" := by
  intro he
  have := congrArg String.data he
  simp [String.data_append] at this

/-- Encoding a list of scalar entries succeeds and re-parsing the encoded
lines replays the dict assignments. -/
theorem env_rt_fold :
    ∀ (entries : List (String × UVal)) (acc : EnvCfg),
      (∀ e ∈ entries, (KeyOK e.1 ∧ ValScalarOK e.2) ∧ isScalVal e.2 = true) →
      ∃ ls, encodeEntries entries = some ls ∧
        (∀ l ∈ ls, ¬l = "" ∧ ∀ c ∈ l.data, pyIsLineBreak c = false) ∧
        ls.foldl parseEnvLine acc =
          entries.foldl (fun a e => updIn a e.1 e.2) acc := by
  intro entries
  induction entries with
  | nil => intro acc _; exact ⟨[], rfl, by simp, rfl⟩
  | cons e rest ih =>
    intro acc h
    obtain ⟨k, v⟩ := e
    obtain ⟨⟨hk, hv⟩, hscal⟩ := h (k, v) (by simp)
    cases v with
    | list l => simp [isScalVal] at hscal
    | scal sc =>
      obtain ⟨ls, hls, hprops, hfold⟩ :=
        ih (updIn acc k (.scal sc)) (fun e he => h e (by simp [he]))
      refine ⟨(k ++ "=" ++ force_quote sc) :: ls, ?_, ?_, ?_⟩
      · rw [encodeEntries, show encodeEnvEntry k (.scal sc) =
          some (k ++ "=" ++ force_quote sc) from rfl, hls]
      · intro l hl
        rcases List.mem_cons.mp hl with rfl | hl'
        · exact ⟨encodedLine_ne_empty k sc, encodedLine_noBreak k sc hk.2.2.1 hv⟩
        · exact hprops l hl'
      · rw [List.foldl_cons, List.foldl_cons]
        have hone : parseEnvLine acc (k ++ "=" ++ force_quote sc) =
            updIn acc k (.scal sc) := by
          cases sc with
          | num n => exact parseEnvLine_encoded_num acc k n hk
          | str s => exact parseEnvLine_encoded_str acc k s hk hv.1
        rw [hone, hfold]

theorem envInv_foldl (lines : List String) (init : EnvCfg)
    (hlines : ∀ l ∈ lines, ∀ c ∈ l.data, pyIsLineBreak c = false)
    (hinit : EnvInv init) : EnvInv (lines.foldl parseEnvLine init) := by
  induction lines generalizing init with
  | nil => exact hinit
  | cons l rest ih =>
    rw [List.foldl_cons]
    exact ih (parseEnvLine init l) (fun l' hl' => hlines l' (by simp [hl']))
      (envInv_parseEnvLine (hlines l (by simp)) hinit)

theorem envInv_ubootDefaults : EnvInv ubootDefaults := by
  constructor
  · intro e he
    rcases List.mem_cons.mp he with rfl | he'
    · exact ⟨⟨by decide, by decide, by decide, by decide⟩, by decide, by decide⟩
    · rcases List.mem_cons.mp he' with rfl | he''
      · exact ⟨⟨by decide, by decide, by decide, by decide⟩, by decide, by decide⟩
      · simp at he''
  · decide

theorem envInv_parse_uboot (file : Option String) : EnvInv (parse_uboot file) := by
  cases file with
  | none => exact envInv_ubootDefaults
  | some t =>
    exact envInv_foldl (pySplitlines t) ubootDefaults
      (pySplitlines_mem_noBreak t) envInv_ubootDefaults

theorem envInv_parse_grub (t : String) : EnvInv (parse_grub t) :=
  envInv_foldl (pySplitlines t) [] (pySplitlines_mem_noBreak t)
    ⟨by simp, by simp⟩

/-- `parseEnvLine` either leaves the dict unchanged or performs one
assignment. -/
theorem parseEnvLine_cases (cfg : EnvCfg) (line : String) :
    parseEnvLine cfg line = cfg ∨
      ∃ k v, parseEnvLine cfg line = updIn cfg k v := by
  simp only [parseEnvLine]
  split
  · exact Or.inl rfl
  · cases hsp : splitOnChar '=' (pyStrip line).data with
    | none => exact Or.inl rfl
    | some kv =>
      obtain ⟨kcs, vcs⟩ := kv
      simp only
      cases hsh : pyShlexSplit ⟨vcs⟩ with
      | none => exact Or.inr ⟨_, _, rfl⟩
      | some toks =>
        match toks with
        | [] => exact Or.inr ⟨_, _, rfl⟩
        | [t] => exact Or.inr ⟨_, _, rfl⟩
        | t1 :: t2 :: ts => exact Or.inr ⟨_, _, rfl⟩

theorem updIn_two_head {v1 v2 : UVal} {rest : List (String × UVal)}
    {k1 k2 : String} (k : String) (v : UVal) :
    ∃ w1 w2 rest', updIn ((k1, v1) :: (k2, v2) :: rest) k v =
      (k1, w1) :: (k2, w2) :: rest' := by
  rw [updIn]
  by_cases h1 : k1 = k
  · rw [if_pos h1]
    exact ⟨v, v2, rest, by rw [h1]⟩
  · rw [if_neg h1, updIn]
    by_cases h2 : k2 = k
    · rw [if_pos h2]
      exact ⟨v1, v, rest, by rw [h2]⟩
    · rw [if_neg h2]
      exact ⟨v1, v2, updIn rest k v, rfl⟩

/-- `parse_uboot` always yields a dict whose first two entries are the two
pre-filled default keys. -/
theorem parse_uboot_shape (file : Option String) :
    ∃ v1 v2 rest, parse_uboot file =
      ("U_BOOT_IS_SETUP", v1) :: ("U_BOOT_PARAMETERS", v2) :: rest := by
  have main : ∀ (lines : List String) (cfg : EnvCfg) (v1 v2 : UVal)
      (rest : List (String × UVal)),
      cfg = ("U_BOOT_IS_SETUP", v1) :: ("U_BOOT_PARAMETERS", v2) :: rest →
      ∃ w1 w2 rest', lines.foldl parseEnvLine cfg =
        ("U_BOOT_IS_SETUP", w1) :: ("U_BOOT_PARAMETERS", w2) :: rest' := by
    intro lines
    induction lines with
    | nil => intro cfg v1 v2 rest h; exact ⟨v1, v2, rest, by simp [h]⟩
    | cons l rest0 ih =>
      intro cfg v1 v2 rest h
      rw [List.foldl_cons]
      rcases parseEnvLine_cases cfg l with hc | ⟨k, v, hc⟩
      · exact ih _ v1 v2 rest (by rw [hc, h])
      · rw [hc, h]
        obtain ⟨w1, w2, rest', hw⟩ :=
          @updIn_two_head v1 v2 rest "U_BOOT_IS_SETUP" "U_BOOT_PARAMETERS" k v
        exact ih _ w1 w2 rest' hw
  cases file with
  | none => exact ⟨.scal (.str "false"), .scal (.str "splash quiet"), [], rfl⟩
  | some t =>
    exact main (pySplitlines t) ubootDefaults (.scal (.str "false"))
      (.scal (.str "splash quiet")) [] rfl

/-- Replaying the entries of a parsed u-boot config over the defaults
reproduces the config. -/
theorem foldl_updIn_parse_uboot {cfg : EnvCfg} {v1 v2 : UVal}
    {rest : List (String × UVal)}
    (hshape : cfg = ("U_BOOT_IS_SETUP", v1) :: ("U_BOOT_PARAMETERS", v2) :: rest)
    (hnodup : (cfg.map Prod.fst).Nodup) :
    cfg.foldl (fun a e => updIn a e.1 e.2) ubootDefaults = cfg := by
  subst hshape
  rw [List.foldl_cons, List.foldl_cons]
  rw [show updIn ubootDefaults "U_BOOT_IS_SETUP" v1 =
    [("U_BOOT_IS_SETUP", v1), ("U_BOOT_PARAMETERS", .scal (.str "splash quiet"))]
    from by rw [ubootDefaults, updIn, if_pos rfl]]
  rw [show updIn [("U_BOOT_IS_SETUP", v1),
      ("U_BOOT_PARAMETERS", UVal.scal (.str "splash quiet"))]
      "U_BOOT_PARAMETERS" v2 =
    [("U_BOOT_IS_SETUP", v1), ("U_BOOT_PARAMETERS", v2)] from by
    rw [updIn, if_neg (by decide), updIn, if_pos rfl]]
  simp only [List.map_cons, List.nodup_cons] at hnodup
  obtain ⟨hn1, hn2, hn3⟩ := hnodup
  have hfresh : ∀ k ∈ rest.map Prod.fst,
      k ∉ ([("U_BOOT_IS_SETUP", v1), ("U_BOOT_PARAMETERS", v2)] :
        List (String × UVal)).map Prod.fst := by
    intro k hk hmem
    simp at hmem
    rcases hmem with he | he
    · exact hn1 (by simp [← he, hk])
    · exact hn2 (by rw [← he]; exact hk)
  rw [foldl_updIn_fresh rest [("U_BOOT_IS_SETUP", v1), ("U_BOOT_PARAMETERS", v2)]
    hn3 hfresh]
  simp

/-- Round trip for the u-boot environment codec on list-free configs. -/
theorem uboot_roundtrip (t : String)
    (hscal : ∀ e ∈ parse_uboot (some t), isScalVal e.2 = true) :
    ∃ out, encode_uboot (parse_uboot (some t)) = some out ∧
      parse_uboot (some out) = parse_uboot (some t) := by
  obtain ⟨hwf, hnodup⟩ := envInv_parse_uboot (some t)
  obtain ⟨ls, hls, hprops, hfold⟩ := env_rt_fold (parse_uboot (some t))
    ubootDefaults (fun e he => ⟨hwf e he, hscal e he⟩)
  refine ⟨pyJoin "\n"
    ("## /etc/default/u-boot - configuration file" :: ls), ?_, ?_⟩
  · rw [encode_uboot, hls, Option.map_some']
  · show (pySplitlines _).foldl parseEnvLine ubootDefaults = _
    rw [pySplitlines_join _ (by simp) ?_]
    · rw [List.foldl_cons,
        show parseEnvLine ubootDefaults
          "## /etc/default/u-boot - configuration file" = ubootDefaults from rfl,
        hfold]
      obtain ⟨v1, v2, rest, hshape⟩ := parse_uboot_shape (some t)
      exact foldl_updIn_parse_uboot hshape hnodup
    · intro l hl
      rcases List.mem_cons.mp hl with rfl | hl'
      · exact ⟨by decide, by decide⟩
      · exact hprops l hl'

/-- Round trip for the grub environment codec on list-free configs. -/
theorem grub_roundtrip (t : String)
    (hscal : ∀ e ∈ parse_grub t, isScalVal e.2 = true) :
    ∃ out, encode_grub (parse_grub t) = some out ∧
      parse_grub out = parse_grub t := by
  obtain ⟨hwf, hnodup⟩ := envInv_parse_grub t
  obtain ⟨ls, hls, hprops, hfold⟩ := env_rt_fold (parse_grub t)
    [] (fun e he => ⟨hwf e he, hscal e he⟩)
  refine ⟨pyJoin "\n"
    ("## /etc/default/grub - configuration file" :: ls), ?_, ?_⟩
  · rw [encode_grub, hls, Option.map_some']
  · show (pySplitlines _).foldl parseEnvLine [] = _
    rw [pySplitlines_join _ (by simp) ?_]
    · rw [List.foldl_cons,
        show parseEnvLine []
          "## /etc/default/grub - configuration file" = [] from rfl,
        hfold]
      exact foldl_updIn_fresh (parse_grub t) [] hnodup (by simp)
    · intro l hl
      rcases List.mem_cons.mp hl with rfl | hl'
      · exact ⟨by decide, by decide⟩
      · exact hprops l hl'

/-- An exact fingerprint match returns immediately, whatever the
accumulator holds. -/
theorem bmGo_exact (live lh cid ctxt : String) (rest : List (String × String)) :
    ∀ (pre : List (String × String)) (best : Option ((String × String) × Nat)),
      (∀ c ∈ pre, hash_str c.2 ≠ lh) → hash_str ctxt = lh →
      bmGo live lh (pre ++ (cid, ctxt) :: rest) best = some (cid, [])
  | [], best, _, hm => by simp [bmGo, hm]
  | (pid, ptxt) :: pre, best, hpre, hm => by
    have hne : hash_str ptxt ≠ lh := hpre (pid, ptxt) (by simp)
    have hrest : ∀ c ∈ pre, hash_str c.2 ≠ lh := fun c hc => hpre c (by simp [hc])
    have ih := fun b => bmGo_exact live lh cid ctxt rest pre b hrest hm
    simp only [List.cons_append, bmGo, if_neg hne]
    match best with
    | none => exact ih _
    | some (b, m) =>
      by_cases hlt : (diff_dts ptxt live).length < m
      · simp only [if_pos hlt]; exact ih _
      · simp only [if_neg hlt]; exact ih _

/-- With no exact match anywhere and a nonempty accumulator text, the scan
returns a strict-first minimiser of the diff length. -/
theorem bmGo_min (live lh : String) :
    ∀ (cands : List (String × String)) (bid btxt : String),
      (∀ c ∈ cands, hash_str c.2 ≠ lh) → (∀ c ∈ cands, c.2 ≠ "") → btxt ≠ "" →
      ∃ r : String × String, (r = (bid, btxt) ∨ r ∈ cands) ∧ r.2 ≠ "" ∧
        bmGo live lh cands (some ((bid, btxt), (diff_dts btxt live).length)) =
          some (r.1, diff_dts r.2 live) ∧
        (diff_dts r.2 live).length ≤ (diff_dts btxt live).length ∧
        ∀ c ∈ cands, (diff_dts r.2 live).length ≤ (diff_dts c.2 live).length
  | [], bid, btxt, _, _, hb => by
    refine ⟨(bid, btxt), Or.inl rfl, hb, ?_, le_refl _, by simp⟩
    simp [bmGo, hb]
  | (cid, ctxt) :: rest, bid, btxt, hmatch, hne, hb => by
    have hh : hash_str ctxt ≠ lh := hmatch (cid, ctxt) (by simp)
    have hc : ctxt ≠ "" := hne (cid, ctxt) (by simp)
    have hmrest : ∀ c ∈ rest, hash_str c.2 ≠ lh := fun c h => hmatch c (by simp [h])
    have hnrest : ∀ c ∈ rest, c.2 ≠ "" := fun c h => hne c (by simp [h])
    by_cases hlt : (diff_dts ctxt live).length < (diff_dts btxt live).length
    · obtain ⟨r, hr, hr0, heq, hle, hall⟩ := bmGo_min live lh rest cid ctxt hmrest hnrest hc
      refine ⟨r, ?_, hr0, ?_, ?_, ?_⟩
      · rcases hr with h | h
        · exact Or.inr (by simp [h])
        · exact Or.inr (by simp [h])
      · simpa [bmGo, hh, hlt] using heq
      · exact le_trans hle (le_of_lt hlt)
      · intro c hcmem
        rcases List.mem_cons.mp hcmem with rfl | h
        · exact hle
        · exact hall c h
    · obtain ⟨r, hr, hr0, heq, hle, hall⟩ := bmGo_min live lh rest bid btxt hmrest hnrest hb
      refine ⟨r, ?_, hr0, ?_, hle, ?_⟩
      · rcases hr with h | h
        · exact Or.inl h
        · exact Or.inr (by simp [h])
      · simpa [bmGo, hh, hlt] using heq
      · intro c hcmem
        rcases List.mem_cons.mp hcmem with rfl | h
        · exact le_trans hle (le_of_not_lt hlt)
        · exact hall c h

/-- C1 (amended).  On encountering a candidate whose fingerprint equals the
live text's fingerprint, `detect_live`'s scan returns that candidate's id
with an empty diff.  Otherwise — provided the candidate collection is
nonempty and every candidate text is nonempty — it returns a candidate
whose `diff_dts` against the live text has minimum length, with that diff
(the original claim fails for an empty collection and for an empty
candidate text, where the scan returns "No match found" instead).  In
particular, for candidates A = "x\ny\n" and B = "x\ny\nz\n" and live text
"x\ny\nz\nw\n", it returns B with diff ["w"]. -/
theorem c1_best_match_behaviour :
    (∀ (live cid ctxt : String) (pre rest : List (String × String)),
       (∀ c ∈ pre, hash_str c.2 ≠ hash_str live) →
       hash_str ctxt = hash_str live →
       bestMatch live (pre ++ (cid, ctxt) :: rest) = some (cid, [])) ∧
    (∀ (live : String) (cands : List (String × String)),
       cands ≠ [] →
       (∀ c ∈ cands, hash_str c.2 ≠ hash_str live) →
       (∀ c ∈ cands, c.2 ≠ "") →
       ∃ r ∈ cands, bestMatch live cands = some (r.1, diff_dts r.2 live) ∧
         ∀ c ∈ cands, (diff_dts r.2 live).length ≤ (diff_dts c.2 live).length) ∧
    bestMatch "x\ny\nz\nw\n" [("A", "x\ny\n"), ("B", "x\ny\nz\n")] =
      some ("B", ["w"]) := by
  refine ⟨?_, ?_, by decide⟩
  · intro live cid ctxt pre rest hpre hm
    exact bmGo_exact live (hash_str live) cid ctxt rest pre none hpre hm
  · intro live cands hnil hmatch hne
    match cands with
    | [] => exact absurd rfl hnil
    | (cid, ctxt) :: rest =>
      have hh : hash_str ctxt ≠ hash_str live := hmatch (cid, ctxt) (by simp)
      have hc : ctxt ≠ "" := hne (cid, ctxt) (by simp)
      have hmrest : ∀ c ∈ rest, hash_str c.2 ≠ hash_str live :=
        fun c h => hmatch c (by simp [h])
      have hnrest : ∀ c ∈ rest, c.2 ≠ "" := fun c h => hne c (by simp [h])
      obtain ⟨r, hr, hr0, heq, hle, hall⟩ :=
        bmGo_min live (hash_str live) rest cid ctxt hmrest hnrest hc
      refine ⟨r, ?_, ?_, ?_⟩
      · rcases hr with h | h
        · simp [h]
        · simp [h]
      · simpa [bestMatch, bmGo, hh] using heq
      · intro c hcm
        rcases List.mem_cons.mp hcm with rfl | h
        · exact hle
        · exact hall c h

/-- C1 witness: the minimum-diff clause applied to the concrete A/B
scenario of the claim. -/
theorem c1_best_match_behaviour_witness :
    ∃ r ∈ [("A", "x\ny\n"), ("B", "x\ny\nz\n")],
      bestMatch "x\ny\nz\nw\n" [("A", "x\ny\n"), ("B", "x\ny\nz\n")] =
        some (r.1, diff_dts r.2 "x\ny\nz\nw\n") ∧
      ∀ c ∈ [("A", "x\ny\n"), ("B", "x\ny\nz\n")],
        (diff_dts r.2 "x\ny\nz\nw\n").length ≤ (diff_dts c.2 "x\ny\nz\nw\n").length :=
  c1_best_match_behaviour.2.1 "x\ny\nz\nw\n" [("A", "x\ny\n"), ("B", "x\ny\nz\n")]
    (by decide) (by decide) (by decide)

/-- C1 counterexample: as literally stated the claim fails on the code —
with an empty candidate collection, and with a candidate whose converted
text is empty, `detect_live`'s scan returns the "No match found" outcome
(`none`) instead of a minimum-diff candidate. -/
theorem c1_best_match_counterexample :
    bestMatch "x" [] = none ∧ bestMatch "x" [("A", "")] = none := by
  exact ⟨rfl, by decide⟩

/-- C4: `diff_dts a b` contains exactly the lines occurring in `b` that do
not occur in `a`. -/
theorem c4_diff_dts_membership (a b l : String) :
    l ∈ diff_dts a b ↔ l ∈ pySplitlines b ∧ l ∉ pySplitlines a := by
  simp [diff_dts, List.mem_filter, List.mem_dedup]

/-- C9: `parse_uboot` is total — the function body is wrapped in a blanket
`try`/`except`, the per-line `shlex`/`int` errors are caught inside the
loop, and a missing or unreadable file (the `none` input) returns the
pre-filled defaults — and for every input state the returned mapping binds
both `U_BOOT_IS_SETUP` and `U_BOOT_PARAMETERS`. -/
theorem c9_parse_uboot_never_fails (file : Option String) :
    (lookupKey (parse_uboot file) "U_BOOT_IS_SETUP").isSome ∧
    (lookupKey (parse_uboot file) "U_BOOT_PARAMETERS").isSome ∧
    parse_uboot none = ubootDefaults := by
  obtain ⟨v1, v2, rest, hshape⟩ := parse_uboot_shape file
  refine ⟨?_, ?_, rfl⟩
  · rw [hshape, lookupKey, if_pos rfl]
    simp
  · rw [hshape, lookupKey, if_neg (by decide), lookupKey, if_pos rfl]
    simp

/-! ### Extlinux label-reset lemmas (C10) -/

theorem parseExtLine_label {st : ExtSt} {rawLine : String}
    (h : isLabelLine rawLine = true) :
    parseExtLine st rawLine =
      ⟨st.global, updIn st.labels (labelName rawLine) [],
        some (labelName rawLine)⟩ := by
  rw [isLabelLine] at h
  simp only [Bool.and_eq_true, Bool.not_eq_true'] at h
  obtain ⟨h1, h2⟩ := h
  rw [parseExtLine]
  simp only [h1, h2]
  rfl

theorem lookupKey_setLabelKey (labels : List (String × List (String × Option ExtVal)))
    (m k : String) (v : Option ExtVal) (n : String) :
    lookupKey (setLabelKey labels m k v) n =
      if m = n then (lookupKey labels n).map (fun d => updIn d k v)
      else lookupKey labels n := by
  induction labels with
  | nil =>
    by_cases h : m = n <;> simp [setLabelKey, lookupKey, h]
  | cons e rest ih =>
    obtain ⟨n', d⟩ := e
    by_cases h1 : n' = m
    · rw [setLabelKey, if_pos h1]
      by_cases h3 : n' = n
      · rw [lookupKey, if_pos h3, if_pos (h1.symm.trans h3), lookupKey, if_pos h3]
        simp
      · have h2 : ¬m = n := fun he => h3 (h1.trans he)
        rw [lookupKey, if_neg h3, if_neg h2, lookupKey, if_neg h3]
    · rw [setLabelKey, if_neg h1, lookupKey]
      by_cases h3 : n' = n
      · have h2 : ¬m = n := fun he => h1 (h3.trans he.symm)
        rw [if_pos h3, if_neg h2, lookupKey, if_pos h3]
      · rw [if_neg h3, ih, lookupKey, if_neg h3]

/-- A line that is not a `LABEL` line for `n` transforms `current_label`
and the binding of `n` in a way determined only by those two components. -/
theorem parseExtLine_congr (n : String) (l : String) (st1 st2 : ExtSt)
    (hnl : ¬(isLabelLine l = true ∧ labelName l = n))
    (hcur : st1.cur = st2.cur)
    (hlk : lookupKey st1.labels n = lookupKey st2.labels n) :
    (parseExtLine st1 l).cur = (parseExtLine st2 l).cur ∧
    lookupKey (parseExtLine st1 l).labels n =
      lookupKey (parseExtLine st2 l).labels n := by
  obtain ⟨g1, lb1, c1⟩ := st1
  obtain ⟨g2, lb2, c2⟩ := st2
  simp only at hcur hlk
  subst hcur
  by_cases hlab : isLabelLine l = true
  · have hname : ¬labelName l = n := fun he => hnl ⟨hlab, he⟩
    have hne : ¬n = labelName l := fun he => hname he.symm
    rw [parseExtLine_label hlab, parseExtLine_label hlab]
    refine ⟨rfl, ?_⟩
    simp only
    rw [lookupKey_updIn, lookupKey_updIn, if_neg hne, if_neg hne, hlk]
  · rw [isLabelLine] at hlab
    simp only [Bool.and_eq_true, Bool.not_eq_true'] at hlab
    rw [parseExtLine, parseExtLine]
    by_cases hskip : (pyStrip l = "" || pyStartsWith (pyStrip l) "#") = true
    · simp only [hskip]
      exact ⟨rfl, hlk⟩
    · have hskip' : (pyStrip l = "" || pyStartsWith (pyStrip l) "#") = false := by
        revert hskip; cases (pyStrip l = "" || pyStartsWith (pyStrip l) "#") <;> simp
      have hlab' : pyStartsWith (pyToLower (pyStrip l)) "label " = false := by
        by_contra hx
        have : pyStartsWith (pyToLower (pyStrip l)) "label " = true := by
          revert hx; cases pyStartsWith (pyToLower (pyStrip l)) "label " <;> simp
        exact hlab ⟨hskip', this⟩
      simp only [hskip', hlab', Bool.false_eq_true, if_false]
      cases hsp : pySplitNone1 (pyStrip l) with
      | none => exact ⟨rfl, hlk⟩
      | some kv =>
        obtain ⟨k, orest⟩ := kv
        cases orest with
        | some v =>
          cases c1 with
          | none => exact ⟨rfl, hlk⟩
          | some m =>
            refine ⟨rfl, ?_⟩
            simp only
            rw [lookupKey_setLabelKey, lookupKey_setLabelKey]
            by_cases hm : m = n
            · rw [if_pos hm, if_pos hm, hlk]
            · rw [if_neg hm, if_neg hm, hlk]
        | none =>
          cases c1 with
          | none => exact ⟨rfl, hlk⟩
          | some m =>
            refine ⟨rfl, ?_⟩
            simp only
            rw [lookupKey_setLabelKey, lookupKey_setLabelKey]
            by_cases hm : m = n
            · rw [if_pos hm, if_pos hm, hlk]
            · rw [if_neg hm, if_neg hm, hlk]

theorem ext_two_run (n : String) :
    ∀ (B : List String) (st1 st2 : ExtSt),
      (∀ l ∈ B, ¬(isLabelLine l = true ∧ labelName l = n)) →
      st1.cur = st2.cur →
      lookupKey st1.labels n = lookupKey st2.labels n →
      lookupKey (B.foldl parseExtLine st1).labels n =
        lookupKey (B.foldl parseExtLine st2).labels n := by
  intro B
  induction B with
  | nil => intro st1 st2 _ _ hlk; exact hlk
  | cons l rest ih =>
    intro st1 st2 hB hcur hlk
    obtain ⟨hc, hl⟩ := parseExtLine_congr n l st1 st2 (hB l (by simp)) hcur hlk
    exact ih (parseExtLine st1 l) (parseExtLine st2 l)
      (fun l' hl' => hB l' (by simp [hl'])) hc hl

/-- C10: every `LABEL` line rebinds that name to an empty directive
mapping, discarding directives attached to earlier occurrences; hence
when a label name occurs on several `LABEL` lines, the returned mapping
binds it to only the directives following its last occurrence — the
parse result for that name coincides with the parse of the suffix that
starts at the last occurrence. -/
theorem c10_duplicate_label_reset :
    (∀ (st : ExtSt) (rawLine : String), isLabelLine rawLine = true →
       (parseExtLine st rawLine).labels =
         updIn st.labels (labelName rawLine) [] ∧
       (parseExtLine st rawLine).cur = some (labelName rawLine) ∧
       lookupKey (parseExtLine st rawLine).labels (labelName rawLine) =
         some []) ∧
    (∀ (t t' : String) (A B : List String) (L n : String),
       pySplitlines t = A ++ L :: B → pySplitlines t' = L :: B →
       isLabelLine L = true → labelName L = n →
       (∀ l ∈ B, ¬(isLabelLine l = true ∧ labelName l = n)) →
       lookupKey (parse_extlinux_conf t).labels n =
         lookupKey (parse_extlinux_conf t').labels n) := by
  constructor
  · intro st rawLine h
    rw [parseExtLine_label h]
    exact ⟨rfl, rfl, by simp [lookupKey_updIn]⟩
  · intro t t' A B L n ht ht' hL hname hB
    show lookupKey ((pySplitlines t).foldl parseExtLine ⟨[], [], none⟩).labels n = _
    rw [ht, List.foldl_append, List.foldl_cons]
    show _ = lookupKey ((pySplitlines t').foldl parseExtLine ⟨[], [], none⟩).labels n
    rw [ht', List.foldl_cons]
    apply ext_two_run n B _ _ hB
    · rw [parseExtLine_label hL, parseExtLine_label hL]
    · rw [parseExtLine_label hL, parseExtLine_label hL]
      simp only [hname]
      rw [lookupKey_updIn, lookupKey_updIn, if_pos rfl, if_pos rfl]

/-- C10 witness: with the label `a` defined twice, the binding of `a`
equals the binding obtained from the suffix starting at the second
`LABEL a` line. -/
theorem c10_duplicate_label_reset_witness :
    lookupKey (parse_extlinux_conf "LABEL a\nKERNEL k1\nLABEL a\nKERNEL k2").labels
        "a" =
      lookupKey (parse_extlinux_conf "LABEL a\nKERNEL k2").labels "a" :=
  c10_duplicate_label_reset.2 "LABEL a\nKERNEL k1\nLABEL a\nKERNEL k2"
    "LABEL a\nKERNEL k2" ["LABEL a", "KERNEL k1"] ["KERNEL k2"] "LABEL a" "a"
    (by decide) (by decide) (by decide) (by decide) (by decide)

/-- C7: `hash_str` is a deterministic function of the text — equal texts
always hash to equal digests. -/
theorem c7_hash_str_deterministic (t t' : String) (h : t = t') :
    hash_str t = hash_str t' :=
  congrArg hash_str h

/-- C7 witness at a concrete text. -/
theorem c7_hash_str_deterministic_witness :
    hash_str "x\ny\n" = hash_str "x\ny\n" :=
  c7_hash_str_deterministic "x\ny\n" "x\ny\n" rfl

/-! ### ASCII case-mapping character lemmas -/

theorem char_eq_iff_toNat {c d : Char} : c = d ↔ c.toNat = d.toNat := by
  constructor
  · intro h; rw [h]
  · intro h
    have h1 := Char.ofNat_toNat c
    have h2 := Char.ofNat_toNat d
    rw [← h1, ← h2, h]

theorem toUpper_toNat_spec (c : Char) :
    (97 ≤ c.toNat ∧ c.toNat ≤ 122 ∧ (Char.toUpper c).toNat = c.toNat - 32) ∨
    (¬(97 ≤ c.toNat ∧ c.toNat ≤ 122) ∧ Char.toUpper c = c) := by
  by_cases h : 97 ≤ c.toNat ∧ c.toNat ≤ 122
  · refine Or.inl ⟨h.1, h.2, ?_⟩
    rw [Char.toUpper]
    simp only [ge_iff_le]
    rw [if_pos ⟨h.1, h.2⟩, Char.ofNat, dif_pos (Or.inl (by omega))]
    rfl
  · refine Or.inr ⟨h, ?_⟩
    rw [Char.toUpper]
    simp only [ge_iff_le]
    rw [if_neg h]

theorem toLower_toNat_spec (c : Char) :
    (65 ≤ c.toNat ∧ c.toNat ≤ 90 ∧ (Char.toLower c).toNat = c.toNat + 32) ∨
    (¬(65 ≤ c.toNat ∧ c.toNat ≤ 90) ∧ Char.toLower c = c) := by
  by_cases h : 65 ≤ c.toNat ∧ c.toNat ≤ 90
  · refine Or.inl ⟨h.1, h.2, ?_⟩
    rw [Char.toLower]
    simp only [ge_iff_le]
    rw [if_pos ⟨h.1, h.2⟩, Char.ofNat, dif_pos (Or.inl (by omega))]
    rfl
  · refine Or.inr ⟨h, ?_⟩
    rw [Char.toLower]
    simp only [ge_iff_le]
    rw [if_neg h]

theorem pyIsSpace_toNat (c : Char) :
    pyIsSpace c = true ↔ (c.toNat = 32 ∨ c.toNat = 9 ∨ c.toNat = 10 ∨
      c.toNat = 13 ∨ c.toNat = 11 ∨ c.toNat = 12) := by
  rw [pyIsSpace]
  simp only [Bool.or_eq_true, decide_eq_true_eq]
  rw [char_eq_iff_toNat, char_eq_iff_toNat, char_eq_iff_toNat,
    char_eq_iff_toNat, char_eq_iff_toNat, char_eq_iff_toNat]
  simp only [show (' ').toNat = 32 from rfl, show ('\t').toNat = 9 from rfl,
    show ('\n').toNat = 10 from rfl, show ('\x0d').toNat = 13 from rfl,
    show ('\x0b').toNat = 11 from rfl, show ('\x0c').toNat = 12 from rfl]
  tauto

theorem pyIsLineBreak_toNat (c : Char) :
    pyIsLineBreak c = true ↔ (c.toNat = 10 ∨ c.toNat = 13 ∨ c.toNat = 11 ∨
      c.toNat = 12 ∨ c.toNat = 28 ∨ c.toNat = 29 ∨ c.toNat = 30 ∨
      c.toNat = 133 ∨ c.toNat = 8232 ∨ c.toNat = 8233) := by
  rw [pyIsLineBreak]
  simp only [Bool.or_eq_true, decide_eq_true_eq]
  rw [char_eq_iff_toNat, char_eq_iff_toNat, char_eq_iff_toNat,
    char_eq_iff_toNat, char_eq_iff_toNat, char_eq_iff_toNat,
    char_eq_iff_toNat, char_eq_iff_toNat]
  simp only [show ('\n').toNat = 10 from rfl, show ('\x0d').toNat = 13 from rfl,
    show ('\x0b').toNat = 11 from rfl, show ('\x0c').toNat = 12 from rfl,
    show ('\x1c').toNat = 28 from rfl, show ('\x1d').toNat = 29 from rfl,
    show ('\x1e').toNat = 30 from rfl, show ('\x85').toNat = 133 from rfl]
  tauto

theorem pyIsSpace_toUpper (c : Char) : pyIsSpace (Char.toUpper c) = pyIsSpace c := by
  rcases toUpper_toNat_spec c with ⟨h1, h2, h3⟩ | ⟨-, h⟩
  · rw [Bool.eq_iff_iff, pyIsSpace_toNat, pyIsSpace_toNat, h3]
    omega
  · rw [h]

theorem pyIsLineBreak_toUpper (c : Char) :
    pyIsLineBreak (Char.toUpper c) = pyIsLineBreak c := by
  rcases toUpper_toNat_spec c with ⟨h1, h2, h3⟩ | ⟨-, h⟩
  · rw [Bool.eq_iff_iff, pyIsLineBreak_toNat, pyIsLineBreak_toNat, h3]
    omega
  · rw [h]

theorem pyIsSpace_toLower (c : Char) : pyIsSpace (Char.toLower c) = pyIsSpace c := by
  rcases toLower_toNat_spec c with ⟨h1, h2, h3⟩ | ⟨-, h⟩
  · rw [Bool.eq_iff_iff, pyIsSpace_toNat, pyIsSpace_toNat, h3]
    omega
  · rw [h]

theorem pyIsLineBreak_toLower (c : Char) :
    pyIsLineBreak (Char.toLower c) = pyIsLineBreak c := by
  rcases toLower_toNat_spec c with ⟨h1, h2, h3⟩ | ⟨-, h⟩
  · rw [Bool.eq_iff_iff, pyIsLineBreak_toNat, pyIsLineBreak_toNat, h3]
    omega
  · rw [h]

theorem toLower_toUpper {c : Char} (h : Char.toLower c = c) :
    Char.toLower (Char.toUpper c) = c := by
  rcases toUpper_toNat_spec c with ⟨h1, h2, h3⟩ | ⟨-, hu⟩
  · rcases toLower_toNat_spec (Char.toUpper c) with ⟨g1, g2, g3⟩ | ⟨g, -⟩
    · rw [char_eq_iff_toNat, g3, h3]
      omega
    · exact absurd ⟨by omega, by omega⟩ g
  · rw [hu, h]

theorem toLower_idemChar (c : Char) :
    Char.toLower (Char.toLower c) = Char.toLower c := by
  rcases toLower_toNat_spec c with ⟨h1, h2, h3⟩ | ⟨-, h⟩
  · rcases toLower_toNat_spec (Char.toLower c) with ⟨g1, g2, -⟩ | ⟨-, g⟩
    · omega
    · exact g
  · rw [h, h]

theorem toUpper_eq_hash {c : Char} : Char.toUpper c = '#' ↔ c = '#' := by
  rcases toUpper_toNat_spec c with ⟨h1, h2, h3⟩ | ⟨-, h⟩
  · rw [char_eq_iff_toNat, char_eq_iff_toNat, h3,
      show ('#').toNat = 35 from rfl]
    omega
  · rw [h]

theorem toLower_eq_hash {c : Char} : Char.toLower c = '#' ↔ c = '#' := by
  rcases toLower_toNat_spec c with ⟨h1, h2, h3⟩ | ⟨-, h⟩
  · rw [char_eq_iff_toNat, char_eq_iff_toNat, h3,
      show ('#').toNat = 35 from rfl]
    omega
  · rw [h]

theorem list_map_eq_self {α : Type} {f : α → α} :
    ∀ {l : List α}, l.map f = l → ∀ x ∈ l, f x = x := by
  intro l
  induction l with
  | nil => intro _ x hx; simp at hx
  | cons a rest ih =>
    intro h x hx
    rw [List.map_cons] at h
    injection h with h1 h2
    rcases List.mem_cons.mp hx with rfl | hm
    · exact h1
    · exact ih h2 x hm

/-! ### Right-strip / join interaction -/

theorem str_ext {a b : String} (h : a.data = b.data) : a = b := by
  cases a
  cases b
  congr 1

theorem mem_stripRightCh {p : Char → Bool} {cs : List Char} :
    ∀ c ∈ stripRightCh p cs, c ∈ cs := by
  intro c hc
  obtain ⟨w, hw, -⟩ := stripRightCh_decomp p cs
  rw [hw]
  exact List.mem_append.mpr (Or.inl hc)

theorem stripRightCh_all {p : Char → Bool} {cs : List Char}
    (h : ∀ c ∈ cs, p c = true) : stripRightCh p cs = [] := by
  rw [stripRightCh, List.dropWhile_eq_nil_iff.mpr
    (fun c hc => h c (List.mem_reverse.mp hc)), List.reverse_nil]

theorem getLast?_stripRightCh {p : Char → Bool} {cs : List Char} {c : Char}
    (h : (stripRightCh p cs).getLast? = some c) : p c = false := by
  rw [stripRightCh, ← List.head?_reverse, List.reverse_reverse] at h
  exact head?_dropWhile p cs.reverse c h

theorem stripRightCh_append_nil {p : Char → Bool} {a b : List Char}
    (h : stripRightCh p b = []) : stripRightCh p (a ++ b) = stripRightCh p a := by
  have hb : b.reverse.dropWhile p = [] := by
    have := congrArg List.reverse h
    rw [stripRightCh, List.reverse_reverse] at this
    simpa using this
  rw [stripRightCh, List.reverse_append, List.dropWhile_append, hb]
  simp [stripRightCh]

theorem stripRightCh_append_ne {p : Char → Bool} {a b : List Char}
    (h : ¬stripRightCh p b = []) : stripRightCh p (a ++ b) = a ++ stripRightCh p b := by
  have hb : ¬b.reverse.dropWhile p = [] := by
    intro hx
    exact h (by rw [stripRightCh, hx, List.reverse_nil])
  rw [stripRightCh, List.reverse_append, List.dropWhile_append,
    if_neg (by simpa using hb), List.reverse_append, List.reverse_reverse]
  rw [stripRightCh]

theorem pyRstrip_append_nil {a b : String} (h : pyRstrip b = "") :
    pyRstrip (a ++ b) = pyRstrip a := by
  apply str_ext
  have hd : stripRightCh pyIsSpace b.data = [] := congrArg String.data h
  show stripRightCh pyIsSpace (a ++ b).data = _
  rw [String.data_append, stripRightCh_append_nil hd]
  rfl

theorem pyRstrip_append_ne {a b : String} (h : ¬pyRstrip b = "") :
    pyRstrip (a ++ b) = a ++ pyRstrip b := by
  apply str_ext
  have hd : ¬stripRightCh pyIsSpace b.data = [] := by
    intro hx
    exact h (str_ext hx)
  show stripRightCh pyIsSpace (a ++ b).data = _
  rw [String.data_append, stripRightCh_append_ne hd, String.data_append]
  rfl

theorem stripCh_stripRightCh (p : Char → Bool) (cs : List Char) :
    stripCh p (stripRightCh p cs) = stripCh p cs := by
  obtain ⟨w, hw, hpw⟩ := stripRightCh_decomp p cs
  rcases ha : stripRightCh p cs with _ | ⟨a0, arest⟩
  · rw [ha, List.nil_append] at hw
    have hnil : List.dropWhile p cs = [] :=
      List.dropWhile_eq_nil_iff.mpr (fun c hc => hpw c (hw ▸ hc))
    simp only [stripCh, stripLeftCh]
    rw [hnil]
    rfl
  · rw [← ha]
    conv_rhs => rw [hw]
    rw [stripCh, stripCh, stripLeftCh, stripLeftCh, List.dropWhile_append]
    by_cases hda : (List.dropWhile p (stripRightCh p cs)).isEmpty = true
    · exfalso
      have hnil : List.dropWhile p (stripRightCh p cs) = [] := by
        simpa using hda
      have hlast : (stripRightCh p cs).getLast? = some ((a0 :: arest).getLast (by simp)) := by
        rw [ha]
        exact List.getLast?_eq_getLast _ _
      have hmem : (a0 :: arest).getLast (by simp) ∈ stripRightCh p cs := by
        rw [ha]
        exact List.getLast_mem _
      have := List.dropWhile_eq_nil_iff.mp hnil _ hmem
      rw [getLast?_stripRightCh hlast] at this
      simp at this
    · rw [if_neg hda, stripRightCh_append_nil (stripRightCh_all hpw)]

theorem pyStrip_pyRstrip (l : String) : pyStrip (pyRstrip l) = pyStrip l := by
  apply str_ext
  show stripCh pyIsSpace (stripRightCh pyIsSpace l.data) = stripCh pyIsSpace l.data
  exact stripCh_stripRightCh pyIsSpace l.data

theorem pyStrip_empty_of_pyRstrip {l : String} (h : pyRstrip l = "") :
    pyStrip l = "" := by
  rw [← pyStrip_pyRstrip, h]
  rfl

theorem parseExtLine_congr_strip {l1 l2 : String} (st : ExtSt)
    (h : pyStrip l1 = pyStrip l2) : parseExtLine st l1 = parseExtLine st l2 := by
  simp only [parseExtLine, h]

theorem parseExtLine_skip {l : String} (st : ExtSt) (h : pyStrip l = "") :
    parseExtLine st l = st := by
  simp [parseExtLine, h]

theorem trimTail_getLast :
    ∀ (L : List String) (x : String), (trimTail L).getLast? = some x → ¬x = "" := by
  intro L
  induction L with
  | nil => intro x hx; simp [trimTail] at hx
  | cons l rest ih =>
    intro x hx
    rw [trimTail] at hx
    rcases hr : trimTail rest with _ | ⟨r0, rs⟩
    · rw [hr] at hx
      by_cases he : pyRstrip l = ""
      · rw [if_pos he] at hx
        simp at hx
      · rw [if_neg he] at hx
        simp only [List.getLast?_singleton, Option.some.injEq] at hx
        rw [hx] at he
        exact he
    · rw [hr] at hx
      rw [List.getLast?_cons_cons] at hx
      exact ih x (hr ▸ hx)

theorem trimTail_breakFree {L : List String}
    (h : ∀ l ∈ L, ∀ c ∈ l.data, pyIsLineBreak c = false) :
    ∀ l ∈ trimTail L, ∀ c ∈ l.data, pyIsLineBreak c = false := by
  induction L with
  | nil => intro l hl; simp [trimTail] at hl
  | cons a rest ih =>
    intro l hl
    rw [trimTail] at hl
    have ha := h a (by simp)
    have hrest : ∀ l ∈ rest, ∀ c ∈ l.data, pyIsLineBreak c = false :=
      fun l hm => h l (by simp [hm])
    rcases hr : trimTail rest with _ | ⟨r0, rs⟩
    · rw [hr] at hl
      by_cases he : pyRstrip a = ""
      · rw [if_pos he] at hl
        simp at hl
      · rw [if_neg he] at hl
        simp only [List.mem_singleton] at hl
        subst hl
        intro c hc
        exact ha c (mem_stripRightCh c hc)
    · rw [hr] at hl
      rcases List.mem_cons.mp hl with rfl | hm
      · exact ha
      · exact ih hrest l (hr ▸ hm)

theorem join_trimTail_ne_nil {L : List String} (h : ¬trimTail L = []) :
    ¬pyJoin "\n" (trimTail L) = "" := by
  rcases hr : trimTail L with _ | ⟨r0, rs⟩
  · exact absurd hr h
  · rcases rs with _ | ⟨r1, rs2⟩
    · have hne : ¬r0 = "" := trimTail_getLast L r0 (by rw [hr]; rfl)
      show ¬pyJoin "\n" [r0] = ""
      simpa [pyJoin] using hne
    · show ¬pyJoin "\n" (r0 :: r1 :: rs2) = ""
      intro hx
      have : (pyJoin "\n" (r0 :: r1 :: rs2)).data = [] := by rw [hx]
      rw [show pyJoin "\n" (r0 :: r1 :: rs2) =
        r0 ++ "\n" ++ pyJoin "\n" (r1 :: rs2) from rfl] at this
      simp [String.data_append] at this

theorem trimTail_join :
    ∀ (L : List String), pyRstrip (pyJoin "\n" L) = pyJoin "\n" (trimTail L) := by
  intro L
  induction L with
  | nil => rfl
  | cons l rest ih =>
    rcases rest with _ | ⟨r0, rs⟩
    · show pyRstrip l = pyJoin "\n" (trimTail [l])
      rw [trimTail]
      by_cases he : pyRstrip l = ""
      · rw [if_pos he, he]
        rfl
      · rw [if_neg he]
        rfl
    · rw [show pyJoin "\n" (l :: r0 :: rs) =
        l ++ ("\n" ++ pyJoin "\n" (r0 :: rs)) from by
          rw [show pyJoin "\n" (l :: r0 :: rs) =
            l ++ "\n" ++ pyJoin "\n" (r0 :: rs) from rfl, String.append_assoc]]
      rcases hr : trimTail (r0 :: rs) with _ | ⟨t0, ts⟩
      · have hjoin : pyRstrip (pyJoin "\n" (r0 :: rs)) = "" := by
          rw [ih, hr]
          rfl
        have h1 : pyRstrip ("\n" ++ pyJoin "\n" (r0 :: rs)) = "" := by
          rw [pyRstrip_append_nil hjoin]
          decide
        rw [pyRstrip_append_nil h1, trimTail, hr]
        by_cases he : pyRstrip l = ""
        · rw [if_pos he, he]
          rfl
        · rw [if_neg he]
          rfl
      · have hjne : ¬pyRstrip (pyJoin "\n" (r0 :: rs)) = "" := by
          rw [ih, hr]
          have h2 := join_trimTail_ne_nil (L := r0 :: rs) (by rw [hr]; simp)
          rw [hr] at h2
          exact h2
        have hnl : pyRstrip ("\n" ++ pyJoin "\n" (r0 :: rs)) =
            "\n" ++ pyRstrip (pyJoin "\n" (r0 :: rs)) := pyRstrip_append_ne hjne
        have hnlne : ¬pyRstrip ("\n" ++ pyJoin "\n" (r0 :: rs)) = "" := by
          rw [hnl]
          intro hx
          have := congrArg String.data hx
          simp [String.data_append] at this
        rw [pyRstrip_append_ne hnlne, hnl, ih, hr]
        rw [trimTail, hr]
        show _ = pyJoin "\n" (l :: t0 :: ts)
        rw [show pyJoin "\n" (l :: t0 :: ts) =
          l ++ "\n" ++ pyJoin "\n" (t0 :: ts) from rfl, String.append_assoc]

theorem foldl_trimTail :
    ∀ (L : List String) (st : ExtSt),
      (trimTail L).foldl parseExtLine st = L.foldl parseExtLine st := by
  intro L
  induction L with
  | nil => intro st; rfl
  | cons l rest ih =>
    intro st
    rw [trimTail]
    rcases hr : trimTail rest with _ | ⟨r0, rs⟩
    · by_cases he : pyRstrip l = ""
      · rw [if_pos he]
        have hskip : parseExtLine st l = st :=
          parseExtLine_skip st (pyStrip_empty_of_pyRstrip he)
        rw [List.foldl_nil, List.foldl_cons, hskip, ← ih st, hr]
        rfl
      · rw [if_neg he]
        rw [List.foldl_cons, List.foldl_nil, List.foldl_cons,
          parseExtLine_congr_strip st (pyStrip_pyRstrip l), ← ih (parseExtLine st l), hr]
        rfl
    · rw [List.foldl_cons, ← hr, ih (parseExtLine st l), ← List.foldl_cons]

theorem pySplitlines_join_gen :
    ∀ (ls : List String), ¬ls = [] →
      (∀ l ∈ ls, ∀ c ∈ l.data, pyIsLineBreak c = false) →
      (∀ x, ls.getLast? = some x → ¬x = "") →
      pySplitlines (pyJoin "\n" ls) = ls := by
  intro ls
  induction ls with
  | nil => intro h _ _; exact absurd rfl h
  | cons l ls ih =>
    intro _ h hlast
    have hnb := h l (by simp)
    cases ls with
    | nil =>
      have hne : ¬l = "" := hlast l rfl
      have : pyJoin "\n" [l] = l := rfl
      rw [this]
      unfold pySplitlines
      rw [splitlinesCh_noBreak l.data [] hnb]
      have : l.data.isEmpty = false := by
        cases hl : l.data with
        | nil => exact absurd (by cases l; simp_all) hne
        | cons a b => simp
      simp only [List.nil_append, this]
      cases l
      simp
    | cons l2 ls2 =>
      have hdata : (pyJoin "\n" (l :: l2 :: ls2)).data =
          l.data ++ '\n' :: (pyJoin "\n" (l2 :: ls2)).data := by
        show (l ++ "\n" ++ pyJoin "\n" (l2 :: ls2)).data = _
        simp [String.data_append]
      unfold pySplitlines
      rw [hdata, splitlinesCh_newline l.data _ [] hnb]
      have ih2 := ih (by simp) (fun x hm => h x (by simp [hm]))
        (fun x hx => hlast x (by rw [List.getLast?_cons_cons]; exact hx))
      unfold pySplitlines at ih2
      rw [ih2]
      cases l
      simp

/-- Parsing the rstripped join of a break-free line list is the same as
folding the parser over the lines themselves. -/
theorem extParse_join_lines (L : List String) (st : ExtSt)
    (h : ∀ l ∈ L, ∀ c ∈ l.data, pyIsLineBreak c = false) :
    (pySplitlines (pyRstrip (pyJoin "\n" L))).foldl parseExtLine st =
      L.foldl parseExtLine st := by
  rw [trimTail_join]
  rcases hr : trimTail L with _ | ⟨t0, ts⟩
  · rw [show pyJoin "\n" ([] : List String) = "" from rfl,
      show pySplitlines "" = [] from rfl, List.foldl_nil, ← foldl_trimTail L st, hr,
      List.foldl_nil]
  · rw [← hr, pySplitlines_join_gen (trimTail L) (by rw [hr]; simp)
      (trimTail_breakFree h) (trimTail_getLast L), foldl_trimTail]

/-! ### Token splitting lemmas (`str.split(None, 1)` and `str.split()`) -/

theorem takeWhile_all {p : Char → Bool} :
    ∀ {a : List Char}, (∀ c ∈ a, p c = true) → a.takeWhile p = a := by
  intro a
  induction a with
  | nil => intro _; rfl
  | cons c rest ih =>
    intro h
    rw [List.takeWhile_cons, if_pos (h c (by simp)), ih (fun x hx => h x (by simp [hx]))]

theorem takeWhile_all_append {p : Char → Bool} :
    ∀ (a : List Char) (c0 : Char) (b : List Char),
      (∀ c ∈ a, p c = true) → p c0 = false →
      ((a ++ c0 :: b).takeWhile p) = a := by
  intro a
  induction a with
  | nil =>
    intro c0 b _ hc0
    rw [List.nil_append, List.takeWhile_cons, if_neg (by simp [hc0])]
  | cons c rest ih =>
    intro c0 b h hc0
    rw [List.cons_append, List.takeWhile_cons, if_pos (h c (by simp)),
      ih c0 b (fun x hx => h x (by simp [hx])) hc0]

theorem dropWhile_all_append {p : Char → Bool} :
    ∀ (a : List Char) (c0 : Char) (b : List Char),
      (∀ c ∈ a, p c = true) → p c0 = false →
      ((a ++ c0 :: b).dropWhile p) = c0 :: b := by
  intro a
  induction a with
  | nil =>
    intro c0 b _ hc0
    rw [List.nil_append, List.dropWhile_cons, if_neg (by simp [hc0])]
  | cons c rest ih =>
    intro c0 b h hc0
    rw [List.cons_append, List.dropWhile_cons, if_pos (h c (by simp)),
      ih c0 b (fun x hx => h x (by simp [hx])) hc0]

theorem dropWhile_cons_of_neg {p : Char → Bool} {c : Char} {rest : List Char}
    (h : p c = false) : (c :: rest).dropWhile p = c :: rest := by
  rw [List.dropWhile_cons, if_neg (by simp [h])]

/-- Unfolding `s.split(None, 1)` on a string whose first character is not
whitespace. -/
theorem pySplitNone1_cons (c : Char) (cs : List Char) (h : pyIsSpace c = false) :
    pySplitNone1 ⟨c :: cs⟩ =
      some (⟨(c :: cs).takeWhile (fun x => !pyIsSpace x)⟩,
        if (((c :: cs).dropWhile (fun x => !pyIsSpace x)).dropWhile
            pyIsSpace).isEmpty then none
        else some ⟨((c :: cs).dropWhile (fun x => !pyIsSpace x)).dropWhile
            pyIsSpace⟩) := by
  rw [pySplitNone1, show (⟨c :: cs⟩ : String).data = c :: cs from rfl,
    dropWhile_cons_of_neg h]

/-- `s.split(None, 1)` on a single whitespace-free token. -/
theorem pySplitNone1_tok (k : String) (hk : ¬k.data = [])
    (hks : ∀ c ∈ k.data, pyIsSpace c = false) :
    pySplitNone1 k = some (k, none) := by
  obtain ⟨c, rest, hd⟩ : ∃ c rest, k.data = c :: rest := by
    rcases hx : k.data with _ | ⟨c, rest⟩
    · exact absurd hx hk
    · exact ⟨c, rest, rfl⟩
  have hkmk : k = ⟨c :: rest⟩ := str_ext hd
  have htake : (c :: rest).takeWhile (fun x => !pyIsSpace x) = c :: rest :=
    takeWhile_all (fun x hx => by simp [hks x (by rw [hd]; exact hx)])
  have hdrop2 : (c :: rest).dropWhile (fun x => !pyIsSpace x) = [] :=
    List.dropWhile_eq_nil_iff.mpr
      (fun x hx => by simp [hks x (by rw [hd]; exact hx)])
  rw [hkmk, pySplitNone1_cons c rest (hks c (by rw [hd]; simp)), htake, hdrop2]
  rfl

/-- `s.split(None, 1)` on `token ++ " " ++ remainder` where the remainder
starts with a non-whitespace character. -/
theorem pySplitNone1_tok_rest (k v : String) (hk : ¬k.data = [])
    (hks : ∀ c ∈ k.data, pyIsSpace c = false) (hv : ¬v.data = [])
    (hvh : ∀ c, v.data.head? = some c → pyIsSpace c = false) :
    pySplitNone1 ⟨k.data ++ ' ' :: v.data⟩ = some (k, some v) := by
  obtain ⟨c, rest, hd⟩ : ∃ c rest, k.data = c :: rest := by
    rcases hx : k.data with _ | ⟨c, rest⟩
    · exact absurd hx hk
    · exact ⟨c, rest, rfl⟩
  have hsp : pyIsSpace ' ' = true := by decide
  have htake : ((c :: rest) ++ ' ' :: v.data).takeWhile (fun x => !pyIsSpace x) =
      c :: rest :=
    takeWhile_all_append (c :: rest) ' ' v.data
      (fun x hx => by simp [hks x (by rw [hd]; exact hx)]) (by simp [hsp])
  have hdrop2 : ((c :: rest) ++ ' ' :: v.data).dropWhile (fun x => !pyIsSpace x) =
      ' ' :: v.data :=
    dropWhile_all_append (c :: rest) ' ' v.data
      (fun x hx => by simp [hks x (by rw [hd]; exact hx)]) (by simp [hsp])
  have hdrop3 : (' ' :: v.data).dropWhile pyIsSpace = v.data := by
    rw [List.dropWhile_cons, if_pos (by simp [hsp])]
    rcases hvd : v.data with _ | ⟨c0, r0⟩
    · rfl
    · exact dropWhile_cons_of_neg (hvh c0 (by rw [hvd]; rfl))
  have hmk : (⟨k.data ++ ' ' :: v.data⟩ : String) = ⟨c :: (rest ++ ' ' :: v.data)⟩ := by
    rw [hd]
    rfl
  have hvne : v.data.isEmpty = false := by
    rcases hvd : v.data with _ | _
    · exact absurd hvd hv
    · rfl
  rw [hmk, pySplitNone1_cons c (rest ++ ' ' :: v.data) (hks c (by rw [hd]; simp)),
    show (c :: (rest ++ ' ' :: v.data)) = (c :: rest) ++ ' ' :: v.data from rfl,
    htake, hdrop2, hdrop3, hvne]
  simp only [Bool.false_eq_true, if_false]
  have h1 : (⟨c :: rest⟩ : String) = k := (str_ext hd).symm
  have h2 : (⟨v.data⟩ : String) = v := str_ext rfl
  rw [h1, h2]

/-- Accumulating a whitespace-free run in `str.split()`. -/
theorem splitWsCh_run :
    ∀ (t rest acc : List Char), (∀ c ∈ t, pyIsSpace c = false) →
      splitWsCh (t ++ rest) acc = splitWsCh rest (acc ++ t) := by
  intro t
  induction t with
  | nil => intro rest acc _; rw [List.nil_append, List.append_nil]
  | cons c t ih =>
    intro rest acc h
    rw [List.cons_append, splitWsCh, if_neg (by simp [h c (by simp)]),
      ih rest (acc ++ [c]) (fun x hx => h x (by simp [hx])), List.append_assoc]
    rfl

theorem splitWsCh_space (rest acc : List Char) (hacc : ¬acc = []) :
    splitWsCh (' ' :: rest) acc = (⟨acc⟩ : String) :: splitWsCh rest [] := by
  rw [splitWsCh, if_pos (by decide)]
  have : acc.isEmpty = false := by
    rcases acc with _ | _
    · exact absurd rfl hacc
    · rfl
  rw [this]
  simp

theorem splitWsCh_join :
    ∀ (rest : List String) (x : String) (acc : List Char),
      (∀ y ∈ x :: rest, ¬y.data = [] ∧ ∀ c ∈ y.data, pyIsSpace c = false) →
      (∀ c ∈ acc, pyIsSpace c = false) →
      splitWsCh ((pyJoin " " (x :: rest)).data) acc =
        (⟨acc ++ x.data⟩ : String) :: rest := by
  intro rest
  induction rest with
  | nil =>
    intro x acc hx hacc
    obtain ⟨hxe, hxs⟩ := hx x (by simp)
    show splitWsCh x.data acc = _
    rw [← List.append_nil x.data, splitWsCh_run x.data [] acc hxs, splitWsCh]
    have : (acc ++ x.data).isEmpty = false := by
      rcases hxd : x.data with _ | _
      · exact absurd hxd hxe
      · simp
    rw [this]
    simp

  | cons r0 rs ih =>
    intro x acc hx hacc
    obtain ⟨hxe, hxs⟩ := hx x (by simp)
    have hjd : (pyJoin " " (x :: r0 :: rs)).data =
        x.data ++ ' ' :: (pyJoin " " (r0 :: rs)).data := by
      show (x ++ " " ++ pyJoin " " (r0 :: rs)).data = _
      simp [String.data_append]
    have haxne : ¬acc ++ x.data = [] := by
      intro hz
      exact hxe (by rcases List.append_eq_nil.mp hz with ⟨-, h2⟩; exact h2)
    rw [hjd, splitWsCh_run x.data _ acc hxs, splitWsCh_space _ _ haxne,
      ih r0 [] (fun y hy => hx y (by simp at hy ⊢; tauto)) (by simp)]
    rw [List.nil_append]

/-- `str.split()` is a left inverse of `" ".join` on nonempty lists of
whitespace-free tokens. -/
theorem splitWs_join (xs : List String) (hne : ¬xs = [])
    (htok : ∀ x ∈ xs, ¬x.data = [] ∧ ∀ c ∈ x.data, pyIsSpace c = false) :
    pySplitWs (pyJoin " " xs) = xs := by
  rcases xs with _ | ⟨x, rest⟩
  · exact absurd rfl hne
  · rw [pySplitWs, splitWsCh_join rest x [] htok (by simp), List.nil_append]

/-- Every token produced by `str.split()` is nonempty, whitespace-free and
drawn from the source characters. -/
theorem splitWsCh_toks :
    ∀ (cs acc : List Char) (P : Char → Prop), (∀ c ∈ cs, P c) →
      (∀ c ∈ acc, P c ∧ pyIsSpace c = false) →
      ∀ x ∈ splitWsCh cs acc, ¬x.data = [] ∧
        ∀ c ∈ x.data, P c ∧ pyIsSpace c = false := by
  intro cs
  induction cs with
  | nil =>
    intro acc P _ hacc x hx
    rw [splitWsCh] at hx
    by_cases he : acc.isEmpty
    · rw [if_pos he] at hx
      simp at hx
    · rw [if_neg he] at hx
      simp only [List.mem_singleton] at hx
      subst hx
      exact ⟨by simpa using he, hacc⟩
  | cons c rest ih =>
    intro acc P hcs hacc x hx
    have hrest : ∀ c ∈ rest, P c := fun y hy => hcs y (by simp [hy])
    rw [splitWsCh] at hx
    by_cases hws : pyIsSpace c = true
    · rw [if_pos hws] at hx
      by_cases he : acc.isEmpty
      · rw [if_pos he] at hx
        exact ih [] P hrest (by simp) x hx
      · rw [if_neg he] at hx
        rcases List.mem_cons.mp hx with rfl | hm
        · exact ⟨by simpa using he, hacc⟩
        · exact ih [] P hrest (by simp) x hm
    · rw [if_neg hws] at hx
      refine ih (acc ++ [c]) P hrest ?_ x hx
      intro y hy
      rcases List.mem_append.mp hy with hy' | hy'
      · exact hacc y hy'
      · simp only [List.mem_singleton] at hy'
        subst hy'
        exact ⟨hcs y (by simp), by simpa using hws⟩

theorem splitWsCh_ne_nil_of_acc :
    ∀ (cs acc : List Char), ¬acc = [] → ¬splitWsCh cs acc = [] := by
  intro cs
  induction cs with
  | nil =>
    intro acc hacc
    rw [splitWsCh]
    have : acc.isEmpty = false := by
      rcases acc with _ | _
      · exact absurd rfl hacc
      · rfl
    rw [this]
    simp
  | cons c rest ih =>
    intro acc hacc
    rw [splitWsCh]
    have : acc.isEmpty = false := by
      rcases acc with _ | _
      · exact absurd rfl hacc
      · rfl
    by_cases hws : pyIsSpace c = true
    · rw [if_pos hws, this]
      simp
    · rw [if_neg hws]
      exact ih (acc ++ [c]) (by simp)

theorem splitWs_ne_nil {s : String} {c0 : Char} {rest : List Char}
    (hd : s.data = c0 :: rest) (h : pyIsSpace c0 = false) :
    ¬pySplitWs s = [] := by
  rw [pySplitWs, hd, splitWsCh, if_neg (by simp [h])]
  exact splitWsCh_ne_nil_of_acc rest [c0] (by simp)

/-- Head and last character of `" ".join` of a nonempty token list. -/
theorem pyJoin_toks_head (x : String) (rest : List String) (hx : ¬x.data = []) :
    ((pyJoin " " (x :: rest)).data).head? = x.data.head? := by
  rcases rest with _ | ⟨r0, rs⟩
  · rfl
  · have hjd : (pyJoin " " (x :: r0 :: rs)).data =
        x.data ++ ' ' :: (pyJoin " " (r0 :: rs)).data := by
      show (x ++ " " ++ pyJoin " " (r0 :: rs)).data = _
      simp [String.data_append]
    rw [hjd]
    rcases hxd : x.data with _ | _
    · exact absurd hxd hx
    · rfl

theorem pyJoin_toks_last :
    ∀ (rest : List String) (x : String), (¬(x :: rest).getLast (by simp) = "") →
      ((pyJoin " " (x :: rest)).data).getLast? =
        ((x :: rest).getLast (by simp)).data.getLast? := by
  intro rest
  induction rest with
  | nil =>
    intro x _
    rfl
  | cons r0 rs ih =>
    intro x hlast
    have hjd : (pyJoin " " (x :: r0 :: rs)).data =
        x.data ++ ' ' :: (pyJoin " " (r0 :: rs)).data := by
      show (x ++ " " ++ pyJoin " " (r0 :: rs)).data = _
      simp [String.data_append]
    have hlast' : (x :: r0 :: rs).getLast (by simp) = (r0 :: rs).getLast (by simp) :=
      List.getLast_cons (by simp)
    rw [hjd, List.getLast?_append_of_ne_nil _ (by simp), hlast']
    have hne : ¬(pyJoin " " (r0 :: rs)).data = [] := by
      intro hx
      have h2 := ih r0 (by rw [← hlast']; exact hlast)
      rw [hx] at h2
      have h3 : ((r0 :: rs).getLast (by simp)).data.getLast? = none := h2.symm
      rw [List.getLast?_eq_none_iff] at h3
      have := hlast
      rw [hlast'] at this
      exact this (str_ext (by simpa using h3))
    rw [show (' ' :: (pyJoin " " (r0 :: rs)).data).getLast? =
        ((pyJoin " " (r0 :: rs)).data).getLast? from
      List.getLast?_append_of_ne_nil [' '] hne]
    exact ih r0 (by rw [← hlast']; exact hlast)

/-- Characters of `" ".join` of a token list are token characters or blanks. -/
theorem pyJoin_toks_mem :
    ∀ (xs : List String) (c : Char), c ∈ (pyJoin " " xs).data →
      (∃ x ∈ xs, c ∈ x.data) ∨ c = ' ' := by
  intro xs
  induction xs with
  | nil => intro c hc; simp [pyJoin] at hc
  | cons x rest ih =>
    intro c hc
    rcases rest with _ | ⟨r0, rs⟩
    · exact Or.inl ⟨x, by simp, hc⟩
    · have hjd : (pyJoin " " (x :: r0 :: rs)).data =
          x.data ++ ' ' :: (pyJoin " " (r0 :: rs)).data := by
        show (x ++ " " ++ pyJoin " " (r0 :: rs)).data = _
        simp [String.data_append]
      rw [hjd] at hc
      rcases List.mem_append.mp hc with hm | hm
      · exact Or.inl ⟨x, by simp, hm⟩
      · rcases List.mem_cons.mp hm with rfl | hm'
        · exact Or.inr rfl
        · rcases ih c hm' with ⟨y, hy, hcy⟩ | hsp
          · exact Or.inl ⟨y, by simp [hy], hcy⟩
          · exact Or.inr hsp

/-! ### Case-mapped strings and serialized line shapes -/

theorem pyToLower_fixed_chars {k : String} (h : pyToLower k = k) :
    ∀ c ∈ k.data, Char.toLower c = c :=
  list_map_eq_self (congrArg String.data h)

theorem pyToLower_pyToUpper {k : String} (h : pyToLower k = k) :
    pyToLower (pyToUpper k) = k := by
  apply str_ext
  show (k.data.map Char.toUpper).map Char.toLower = k.data
  rw [List.map_map]
  have hfix := pyToLower_fixed_chars h
  have : k.data.map (Char.toLower ∘ Char.toUpper) = k.data.map id :=
    List.map_congr_left (fun c hc => toLower_toUpper (hfix c hc))
  rw [this, List.map_id]

theorem pyToLower_idem (s : String) : pyToLower (pyToLower s) = pyToLower s := by
  apply str_ext
  show (s.data.map Char.toLower).map Char.toLower = s.data.map Char.toLower
  rw [List.map_map]
  exact List.map_congr_left (fun c _ => toLower_idemChar c)

theorem pyToUpper_noWs {k : String} (h : ∀ c ∈ k.data, pyIsSpace c = false) :
    ∀ c ∈ (pyToUpper k).data, pyIsSpace c = false := by
  intro c hc
  obtain ⟨c0, hc0, rfl⟩ := List.mem_map.mp hc
  rw [pyIsSpace_toUpper]
  exact h c0 hc0

theorem pyToUpper_noBreak {k : String} (h : ∀ c ∈ k.data, pyIsLineBreak c = false) :
    ∀ c ∈ (pyToUpper k).data, pyIsLineBreak c = false := by
  intro c hc
  obtain ⟨c0, hc0, rfl⟩ := List.mem_map.mp hc
  rw [pyIsLineBreak_toUpper]
  exact h c0 hc0

theorem pyToUpper_ne_empty {k : String} (h : ¬k.data = []) :
    ¬(pyToUpper k).data = [] := by
  intro hx
  apply h
  have hm : k.data.map Char.toUpper = [] := hx
  simpa using hm

theorem pyStrip_of_noWs {s : String} (h : ∀ c ∈ s.data, pyIsSpace c = false) :
    pyStrip s = s :=
  str_ext (stripCh_eq_self
    (fun c hc => h c (List.mem_of_mem_head? hc))
    (fun c hc => h c (List.mem_of_mem_getLast? hc)))

theorem head_noWs_of_strip_fixed {v : String} (h : pyStrip v = v) :
    ∀ c, v.data.head? = some c → pyIsSpace c = false := by
  intro c hc
  rcases hd : v.data with _ | ⟨c0, rest⟩
  · rw [hd] at hc
    simp at hc
  · rw [hd] at hc
    have hcc : c = c0 := by
      simp only [List.head?_cons, Option.some.injEq] at hc
      exact hc.symm
    subst hcc
    apply @stripCh_fixed_head pyIsSpace c rest
    have hdat := congrArg String.data h
    rw [show (pyStrip v).data = stripCh pyIsSpace v.data from rfl, hd] at hdat
    exact hdat

theorem last_noWs_of_strip_fixed {v : String} (h : pyStrip v = v) :
    ∀ c, v.data.getLast? = some c → pyIsSpace c = false := by
  intro c hc
  apply @getLast?_stripCh pyIsSpace v.data c
  have hdat := congrArg String.data h
  rw [show (pyStrip v).data = stripCh pyIsSpace v.data from rfl] at hdat
  rw [hdat]
  exact hc

theorem head?_append_ne {a b : List Char} (h : ¬a = []) :
    (a ++ b).head? = a.head? := by
  rcases a with _ | _
  · exact absurd rfl h
  · rfl

theorem data_key_sp_val (k v : String) :
    (pyToUpper k ++ " " ++ v).data = (pyToUpper k).data ++ ' ' :: v.data := by
  simp [String.data_append]

theorem lower_line_data (k v : String) (h : pyToLower k = k) :
    (pyToLower (pyToUpper k ++ " " ++ v)).data =
      k.data ++ ' ' :: (v.data.map Char.toLower) := by
  show ((pyToUpper k ++ " " ++ v).data).map Char.toLower = _
  rw [data_key_sp_val, List.map_append, List.map_cons]
  have h1 : ((pyToUpper k).data).map Char.toLower = k.data :=
    congrArg String.data (pyToLower_pyToUpper h)
  rw [h1, show Char.toLower ' ' = ' ' from rfl]

theorem prefix_self_append :
    ∀ (a b : List Char), a.isPrefixOf (a ++ b) = true := by
  intro a
  induction a with
  | nil =>
    intro b
    rcases b with _ | ⟨c, bs⟩
    · rfl
    · rfl
  | cons c rest ih =>
    intro b
    rw [List.cons_append]
    show (c == c && rest.isPrefixOf (rest ++ b)) = true
    rw [ih b, beq_self_eq_true]
    rfl

theorem startsWith_hash_false {s : String} {c : Char} {rest : List Char}
    (hd : s.data = c :: rest) (hc : ¬c = '#') : pyStartsWith s "#" = false := by
  rw [pyStartsWith, hd]
  show (('#' == c) && List.isPrefixOf [] rest) = false
  have : ('#' == c) = false := by
    rw [beq_eq_false_iff_ne]
    exact fun he => hc he.symm
  rw [this]
  rfl

theorem str_ne_empty_of_data {s : String} {c : Char} {rest : List Char}
    (hd : s.data = c :: rest) : ¬s = "" := by
  intro hx
  rw [hx] at hd
  exact absurd hd (by simp)

/-! ### The `label ` prefix test on serialized directive lines -/

theorem label_prefix_false {k : String} (hks : ∀ c ∈ k.data, pyIsSpace c = false)
    (hk : ¬k = "label") (tail : List Char) :
    "label ".data.isPrefixOf (k.data ++ ' ' :: tail) = false := by
  have hpre : "label ".data = ['l', 'a', 'b', 'e', 'l', ' '] := rfl
  rcases hd : k.data with _ | ⟨c1, l1⟩
  · rw [hpre]
    simp [List.isPrefixOf]
  rcases l1 with _ | ⟨c2, l2⟩
  · rw [hpre]
    simp [List.isPrefixOf]
  rcases l2 with _ | ⟨c3, l3⟩
  · rw [hpre]
    simp [List.isPrefixOf]
  rcases l3 with _ | ⟨c4, l4⟩
  · rw [hpre]
    simp [List.isPrefixOf]
  rcases l4 with _ | ⟨c5, l5⟩
  · rw [hpre]
    simp [List.isPrefixOf]
  rcases l5 with _ | ⟨c6, l6⟩
  · rw [hpre]
    by_contra hx
    have hx' : List.isPrefixOf ['l', 'a', 'b', 'e', 'l', ' ']
        ([c1, c2, c3, c4, c5] ++ ' ' :: tail) = true := by
      revert hx
      cases List.isPrefixOf ['l', 'a', 'b', 'e', 'l', ' ']
        ([c1, c2, c3, c4, c5] ++ ' ' :: tail) <;> simp
    simp only [List.cons_append, List.nil_append, List.isPrefixOf,
      Bool.and_eq_true, beq_iff_eq] at hx'
    obtain ⟨e1, e2, e3, e4, e5, -⟩ := hx'
    apply hk
    apply str_ext
    rw [hd, ← e1, ← e2, ← e3, ← e4, ← e5]
  · rw [hpre]
    by_contra hx
    have hx' : List.isPrefixOf ['l', 'a', 'b', 'e', 'l', ' ']
        ((c1 :: c2 :: c3 :: c4 :: c5 :: c6 :: l6) ++ ' ' :: tail) = true := by
      revert hx
      cases List.isPrefixOf ['l', 'a', 'b', 'e', 'l', ' ']
        ((c1 :: c2 :: c3 :: c4 :: c5 :: c6 :: l6) ++ ' ' :: tail) <;> simp
    simp only [List.cons_append, List.isPrefixOf, Bool.and_eq_true,
      beq_iff_eq] at hx'
    obtain ⟨-, -, -, -, -, e6, -⟩ := hx'
    have hmem : c6 ∈ k.data := by
      rw [hd]
      simp
    have := hks c6 hmem
    rw [← e6] at this
    simp [pyIsSpace] at this

theorem label_prefix_false_bare {k : String}
    (hks : ∀ c ∈ k.data, pyIsSpace c = false) :
    "label ".data.isPrefixOf k.data = false := by
  have hpre : "label ".data = ['l', 'a', 'b', 'e', 'l', ' '] := rfl
  rcases hd : k.data with _ | ⟨c1, l1⟩
  · rw [hpre]
    simp [List.isPrefixOf]
  rcases l1 with _ | ⟨c2, l2⟩
  · rw [hpre]
    simp [List.isPrefixOf]
  rcases l2 with _ | ⟨c3, l3⟩
  · rw [hpre]
    simp [List.isPrefixOf]
  rcases l3 with _ | ⟨c4, l4⟩
  · rw [hpre]
    simp [List.isPrefixOf]
  rcases l4 with _ | ⟨c5, l5⟩
  · rw [hpre]
    simp [List.isPrefixOf]
  rcases l5 with _ | ⟨c6, l6⟩
  · rw [hpre]
    simp [List.isPrefixOf]
  · rw [hpre]
    by_contra hx
    have hx' : List.isPrefixOf ['l', 'a', 'b', 'e', 'l', ' ']
        (c1 :: c2 :: c3 :: c4 :: c5 :: c6 :: l6) = true := by
      revert hx
      cases List.isPrefixOf ['l', 'a', 'b', 'e', 'l', ' ']
        (c1 :: c2 :: c3 :: c4 :: c5 :: c6 :: l6) <;> simp
    simp only [List.isPrefixOf, Bool.and_eq_true, beq_iff_eq] at hx'
    obtain ⟨-, -, -, -, -, e6, -⟩ := hx'
    have hmem : c6 ∈ k.data := by
      rw [hd]
      simp
    have := hks c6 hmem
    rw [← e6] at this
    simp [pyIsSpace] at this

/-! ### Reparsing the serialized extlinux lines -/

theorem data_ne_of_ne {k : String} (h : ¬k = "") : ¬k.data = [] :=
  fun hx => h (str_ext (by rw [hx]))

theorem exists_cons_of_ne {k : String} (h : ¬k.data = []) :
    ∃ c rest, k.data = c :: rest := by
  rcases hx : k.data with _ | ⟨c, rest⟩
  · exact absurd hx h
  · exact ⟨c, rest, rfl⟩

/-- The shared line-shape facts for a serialized `KEY value` directive
line. -/
theorem kv_line_facts (k v : String) (hkOK : ExtKeyOK k) (hk_lab : ¬k = "label")
    (hvstrip : pyStrip v = v) (hvne : ¬v.data = []) :
    pyStrip (pyToUpper k ++ " " ++ v) = (pyToUpper k ++ " " ++ v) ∧
    (decide ((pyToUpper k ++ " " ++ v) = "") ||
      pyStartsWith (pyToUpper k ++ " " ++ v) "#") = false ∧
    pyStartsWith (pyToLower (pyToUpper k ++ " " ++ v)) "label " = false ∧
    pySplitNone1 (pyToUpper k ++ " " ++ v) = some (pyToUpper k, some v) := by
  obtain ⟨⟨hkne, hkchars⟩, hklow, hkhash⟩ := hkOK
  have hkd : ¬k.data = [] := data_ne_of_ne hkne
  obtain ⟨c1, krest, hkdd⟩ := exists_cons_of_ne hkd
  have hud : (pyToUpper k).data = Char.toUpper c1 :: krest.map Char.toUpper := by
    rw [show (pyToUpper k).data = k.data.map Char.toUpper from rfl, hkdd,
      List.map_cons]
  have hldata : (pyToUpper k ++ " " ++ v).data =
      (pyToUpper k).data ++ ' ' :: v.data := data_key_sp_val k v
  have hlcons : (pyToUpper k ++ " " ++ v).data =
      Char.toUpper c1 :: (krest.map Char.toUpper ++ ' ' :: v.data) := by
    rw [hldata, hud]
    rfl
  have hstrip : pyStrip (pyToUpper k ++ " " ++ v) = (pyToUpper k ++ " " ++ v) := by
    apply str_ext
    apply stripCh_eq_self
    · intro c hc
      rw [hlcons] at hc
      simp only [List.head?_cons, Option.some.injEq] at hc
      rw [← hc, pyIsSpace_toUpper]
      exact (hkchars c1 (by rw [hkdd]; simp)).1
    · intro c hc
      rw [hldata, List.getLast?_append_of_ne_nil _ (by simp),
        show (' ' :: v.data) = [' '] ++ v.data from rfl,
        List.getLast?_append_of_ne_nil _ hvne] at hc
      exact last_noWs_of_strip_fixed hvstrip c hc
  have hne : ¬(pyToUpper k ++ " " ++ v) = "" := str_ne_empty_of_data hlcons
  have hhash : pyStartsWith (pyToUpper k ++ " " ++ v) "#" = false := by
    apply startsWith_hash_false hlcons
    intro he
    exact (hkhash c1 krest hkdd) (toUpper_eq_hash.mp he)
  have hlab : pyStartsWith (pyToLower (pyToUpper k ++ " " ++ v)) "label " = false := by
    rw [pyStartsWith, lower_line_data k v hklow]
    exact label_prefix_false (fun c hc => (hkchars c hc).1) hk_lab _
  have hsplit : pySplitNone1 (pyToUpper k ++ " " ++ v) =
      some (pyToUpper k, some v) := by
    rw [str_ext hldata]
    exact pySplitNone1_tok_rest (pyToUpper k) v (pyToUpper_ne_empty hkd)
      (pyToUpper_noWs (fun c hc => (hkchars c hc).1)) hvne
      (head_noWs_of_strip_fixed hvstrip)
  refine ⟨hstrip, ?_, hlab, hsplit⟩
  rw [decide_eq_false hne, hhash]
  rfl

/-- The shared line-shape facts for a serialized bare `KEY` directive
line. -/
theorem bare_line_facts (k : String) (hkOK : ExtKeyOK k) :
    pyStrip (pyToUpper k) = pyToUpper k ∧
    (decide (pyToUpper k = "") || pyStartsWith (pyToUpper k) "#") = false ∧
    pyStartsWith (pyToLower (pyToUpper k)) "label " = false ∧
    pySplitNone1 (pyToUpper k) = some (pyToUpper k, none) := by
  obtain ⟨⟨hkne, hkchars⟩, hklow, hkhash⟩ := hkOK
  have hkd : ¬k.data = [] := data_ne_of_ne hkne
  obtain ⟨c1, krest, hkdd⟩ := exists_cons_of_ne hkd
  have hud : (pyToUpper k).data = Char.toUpper c1 :: krest.map Char.toUpper := by
    rw [show (pyToUpper k).data = k.data.map Char.toUpper from rfl, hkdd,
      List.map_cons]
  have hnows : ∀ c ∈ (pyToUpper k).data, pyIsSpace c = false :=
    pyToUpper_noWs (fun c hc => (hkchars c hc).1)
  have hstrip : pyStrip (pyToUpper k) = pyToUpper k := pyStrip_of_noWs hnows
  have hne : ¬pyToUpper k = "" := str_ne_empty_of_data hud
  have hhash : pyStartsWith (pyToUpper k) "#" = false := by
    apply startsWith_hash_false hud
    intro he
    exact (hkhash c1 krest hkdd) (toUpper_eq_hash.mp he)
  have hlab : pyStartsWith (pyToLower (pyToUpper k)) "label " = false := by
    rw [pyStartsWith, pyToLower_pyToUpper hklow]
    exact label_prefix_false_bare (fun c hc => (hkchars c hc).1)
  have hsplit : pySplitNone1 (pyToUpper k) = some (pyToUpper k, none) :=
    pySplitNone1_tok (pyToUpper k) (pyToUpper_ne_empty hkd) hnows
  refine ⟨hstrip, ?_, hlab, hsplit⟩
  rw [decide_eq_false hne, hhash]
  rfl

theorem parseExtLine_kv_global (g : List (String × Option ExtVal))
    (lbs : List (String × List (String × Option ExtVal))) (k v : String)
    (hkOK : ExtKeyOK k) (hk_lab : ¬k = "label") (hvstrip : pyStrip v = v)
    (hvne : ¬v.data = []) :
    parseExtLine ⟨g, lbs, none⟩ (pyToUpper k ++ " " ++ v) =
      ⟨updIn g k (if k = "fdtoverlays" then some (.l (pySplitWs v))
        else some (.s v)), lbs, none⟩ := by
  obtain ⟨hstrip, hc, hl, hsplit⟩ := kv_line_facts k v hkOK hk_lab hvstrip hvne
  rw [parseExtLine]
  simp only [hstrip, hc, hl, hsplit, Bool.false_eq_true, if_false,
    pyToLower_pyToUpper (hkOK.2.1), hvstrip]

theorem parseExtLine_kv_cur (g : List (String × Option ExtVal))
    (lbs : List (String × List (String × Option ExtVal))) (m : String)
    (k v : String) (hkOK : ExtKeyOK k) (hk_lab : ¬k = "label")
    (hvstrip : pyStrip v = v) (hvne : ¬v.data = []) :
    parseExtLine ⟨g, lbs, some m⟩ (pyToUpper k ++ " " ++ v) =
      ⟨g, setLabelKey lbs m k (if k = "fdtoverlays" then some (.l (pySplitWs v))
        else some (.s v)), some m⟩ := by
  obtain ⟨hstrip, hc, hl, hsplit⟩ := kv_line_facts k v hkOK hk_lab hvstrip hvne
  rw [parseExtLine]
  simp only [hstrip, hc, hl, hsplit, Bool.false_eq_true, if_false,
    pyToLower_pyToUpper (hkOK.2.1), hvstrip]

theorem parseExtLine_bare_global (g : List (String × Option ExtVal))
    (lbs : List (String × List (String × Option ExtVal))) (k : String)
    (hkOK : ExtKeyOK k) :
    parseExtLine ⟨g, lbs, none⟩ (pyToUpper k) =
      ⟨updIn g k none, lbs, none⟩ := by
  obtain ⟨hstrip, hc, hl, hsplit⟩ := bare_line_facts k hkOK
  have hl2 : pyStartsWith k "label " = false := by
    rw [← pyToLower_pyToUpper (hkOK.2.1)]
    exact hl
  rw [parseExtLine]
  simp only [hstrip, hc, hl, hl2, hsplit, Bool.false_eq_true, if_false,
    pyToLower_pyToUpper (hkOK.2.1)]

theorem parseExtLine_bare_cur (g : List (String × Option ExtVal))
    (lbs : List (String × List (String × Option ExtVal))) (m : String)
    (k : String) (hkOK : ExtKeyOK k) :
    parseExtLine ⟨g, lbs, some m⟩ (pyToUpper k) =
      ⟨g, setLabelKey lbs m k none, some m⟩ := by
  obtain ⟨hstrip, hc, hl, hsplit⟩ := bare_line_facts k hkOK
  have hl2 : pyStartsWith k "label " = false := by
    rw [← pyToLower_pyToUpper (hkOK.2.1)]
    exact hl
  rw [parseExtLine]
  simp only [hstrip, hc, hl, hl2, hsplit, Bool.false_eq_true, if_false,
    pyToLower_pyToUpper (hkOK.2.1)]

theorem parseExtLine_labelHdr (st : ExtSt) (n : String) (hn : LabelNameOK n) :
    parseExtLine st ("LABEL " ++ n) = ⟨st.global, updIn st.labels n [], some n⟩ := by
  obtain ⟨hnstrip, hnne, -⟩ := hn
  have hnd : ¬n.data = [] := data_ne_of_ne hnne
  have hldata : ("LABEL " ++ n).data = "LABEL ".data ++ n.data :=
    String.data_append _ _
  have hlcons : ("LABEL " ++ n).data =
      'L' :: ('A' :: 'B' :: 'E' :: 'L' :: ' ' :: n.data) := hldata
  have hstrip : pyStrip ("LABEL " ++ n) = "LABEL " ++ n := by
    apply str_ext
    apply stripCh_eq_self
    · intro c hc
      rw [hlcons] at hc
      simp only [List.head?_cons, Option.some.injEq] at hc
      rw [← hc]
      decide
    · intro c hc
      rw [hldata, List.getLast?_append_of_ne_nil _ hnd] at hc
      exact last_noWs_of_strip_fixed hnstrip c hc
  have hne : ¬("LABEL " ++ n) = "" := str_ne_empty_of_data hlcons
  have hhash : pyStartsWith ("LABEL " ++ n) "#" = false :=
    startsWith_hash_false hlcons (by decide)
  have hlab : pyStartsWith (pyToLower ("LABEL " ++ n)) "label " = true := by
    rw [pyStartsWith]
    have hld : (pyToLower ("LABEL " ++ n)).data =
        "label ".data ++ n.data.map Char.toLower := by
      show (("LABEL " ++ n).data).map Char.toLower = _
      rw [hldata, List.map_append]
      rfl
    rw [hld]
    exact prefix_self_append _ _
  have hname : pyStrip ⟨(("LABEL " ++ n).data).drop 6⟩ = n := by
    have hdrop : (("LABEL " ++ n).data).drop 6 = n.data := by
      rw [hldata, show (6 : Nat) = ("LABEL ".data).length from rfl]
      exact List.drop_left _ _
    rw [hdrop, str_ext (show (⟨n.data⟩ : String).data = n.data from rfl), hnstrip]
  rw [parseExtLine]
  simp only [hstrip, decide_eq_false hne, hhash, hlab, Bool.false_eq_true,
    if_false, Bool.false_or, if_true, hname]

theorem parseExtLine_blank (st : ExtSt) : parseExtLine st "" = st :=
  parseExtLine_skip st (by decide)

theorem pyStrip_indent (body : String) :
    pyStrip ("    " ++ body) = pyStrip body := by
  apply str_ext
  show stripCh pyIsSpace ("    " ++ body).data = stripCh pyIsSpace body.data
  rw [String.data_append, stripCh, stripCh, stripLeftCh, stripLeftCh]
  congr 1

theorem parseExtLine_indent (st : ExtSt) (body : String) :
    parseExtLine st ("    " ++ body) = parseExtLine st body :=
  parseExtLine_congr_strip st (pyStrip_indent body)

/-! ### Helpers for the extlinux parse invariant -/

theorem all_of_stripRightCh_nil {p : Char → Bool} {cs : List Char}
    (h : stripRightCh p cs = []) : ∀ c ∈ cs, p c = true := by
  obtain ⟨w, hw, hpw⟩ := stripRightCh_decomp p cs
  rw [h, List.nil_append] at hw
  intro c hc
  exact hpw c (hw ▸ hc)

theorem strip_ne_empty_of_head {v : String} {c0 : Char} {r0 : List Char}
    (hd : v.data = c0 :: r0) (h : pyIsSpace c0 = false) :
    ¬(pyStrip v).data = [] := by
  intro hx
  have hx' : stripCh pyIsSpace v.data = [] := hx
  rw [hd, stripCh, stripLeftCh, dropWhile_cons_of_neg h] at hx'
  have := all_of_stripRightCh_nil hx' c0 (by simp)
  rw [h] at this
  simp at this

theorem toLower_eq_space {c : Char} (h : Char.toLower c = ' ') : c = ' ' := by
  rcases toLower_toNat_spec c with ⟨h1, h2, h3⟩ | ⟨-, he⟩
  · rw [char_eq_iff_toNat] at h
    rw [h3, show (' ').toNat = 32 from rfl] at h
    omega
  · rw [← he, h]

theorem map_fst_setLabelKey (labels : List (String × List (String × Option ExtVal)))
    (m k : String) (v : Option ExtVal) :
    (setLabelKey labels m k v).map Prod.fst = labels.map Prod.fst := by
  induction labels with
  | nil => rfl
  | cons e rest ih =>
    obtain ⟨n, d⟩ := e
    rw [setLabelKey]
    by_cases h : n = m
    · rw [if_pos h]
      simp
    · rw [if_neg h, List.map_cons, List.map_cons, ih]

theorem mem_setLabelKey :
    ∀ {labels : List (String × List (String × Option ExtVal))} {m k : String}
      {v : Option ExtVal} {e}, e ∈ setLabelKey labels m k v →
      e ∈ labels ∨ ∃ d, (e.1, d) ∈ labels ∧ e.2 = updIn d k v := by
  intro labels
  induction labels with
  | nil => intro m k v e h; rw [setLabelKey] at h; simp at h
  | cons hd rest ih =>
    intro m k v e h
    obtain ⟨n, d⟩ := hd
    rw [setLabelKey] at h
    by_cases hn : n = m
    · rw [if_pos hn] at h
      rcases List.mem_cons.mp h with rfl | hm
      · exact Or.inr ⟨d, by simp⟩
      · exact Or.inl (by simp [hm])
    · rw [if_neg hn] at h
      rcases List.mem_cons.mp h with rfl | hm
      · exact Or.inl (by simp)
      · rcases ih hm with h1 | ⟨d2, hd2, he2⟩
        · exact Or.inl (by simp [h1])
        · exact Or.inr ⟨d2, by simp [hd2], he2⟩

theorem setLabelKey_append_fresh
    (lbs : List (String × List (String × Option ExtVal))) (name : String)
    (d : List (String × Option ExtVal)) (k : String) (v : Option ExtVal)
    (h : name ∉ lbs.map Prod.fst) :
    setLabelKey (lbs ++ [(name, d)]) name k v = lbs ++ [(name, updIn d k v)] := by
  induction lbs with
  | nil =>
    rw [List.nil_append, setLabelKey, if_pos rfl, List.nil_append]
  | cons e rest ih =>
    obtain ⟨n, d'⟩ := e
    have hn : ¬n = name := fun he => h (by simp [he])
    rw [List.cons_append, setLabelKey, if_neg hn,
      ih (fun hm => h (by simp at hm ⊢; exact Or.inr hm)), List.cons_append]

/-- Line-shape facts for a serialized `fdtoverlays` value. -/
theorem fdt_join_facts (xs : List String) (hne : ¬xs = [])
    (htok : ∀ x ∈ xs, TokOK x) :
    pyStrip (pyJoin " " xs) = pyJoin " " xs ∧ ¬(pyJoin " " xs).data = [] ∧
    pySplitWs (pyJoin " " xs) = xs := by
  have htok' : ∀ x ∈ xs, ¬x.data = [] ∧ ∀ c ∈ x.data, pyIsSpace c = false :=
    fun x hx => ⟨data_ne_of_ne (htok x hx).1, fun c hc => ((htok x hx).2 c hc).1⟩
  rcases xs with _ | ⟨x, rest⟩
  · exact absurd rfl hne
  have hx0 := htok' x (by simp)
  obtain ⟨c1, r1, hxd⟩ := exists_cons_of_ne hx0.1
  have hhead : ((pyJoin " " (x :: rest)).data).head? = some c1 := by
    rw [pyJoin_toks_head x rest hx0.1, hxd]
    rfl
  have hje : ¬(pyJoin " " (x :: rest)).data = [] := by
    intro hz
    rw [hz] at hhead
    simp at hhead
  have hlastOK : ¬(x :: rest).getLast (by simp) = "" := by
    have := htok' ((x :: rest).getLast (by simp)) (List.getLast_mem _)
    intro he
    apply this.1
    rw [he]
  have hstrip : pyStrip (pyJoin " " (x :: rest)) = pyJoin " " (x :: rest) := by
    apply str_ext
    apply stripCh_eq_self
    · intro c hc
      rw [hhead] at hc
      have hcc : c = c1 := by
        simp only [Option.some.injEq] at hc
        exact hc.symm
      rw [hcc]
      exact (hx0.2 c1 (by rw [hxd]; simp))
    · intro c hc
      rw [pyJoin_toks_last rest x hlastOK] at hc
      exact (htok' _ (List.getLast_mem _)).2 c (List.mem_of_mem_getLast? hc)
  exact ⟨hstrip, hje, splitWs_join (x :: rest) (by simp) htok'⟩

/-- Structure of a successful `split(None, 1)`. -/
theorem pySplitNone1_some_facts {s : String} {k : String} {orest : Option String}
    (h : pySplitNone1 s = some (k, orest)) :
    (¬k.data = [] ∧ (∀ c ∈ k.data, pyIsSpace c = false) ∧
      (∀ c ∈ k.data, c ∈ s.data)) ∧
    (∀ v, orest = some v → (∀ c ∈ v.data, c ∈ s.data) ∧
      ∃ c0 r0, v.data = c0 :: r0 ∧ pyIsSpace c0 = false) := by
  rcases hdrop : s.data.dropWhile pyIsSpace with _ | ⟨c, rest⟩
  · rw [pySplitNone1, hdrop] at h
    simp at h
  · rw [pySplitNone1, hdrop] at h
    simp only [Option.some.injEq, Prod.mk.injEq] at h
    obtain ⟨hk, hrest⟩ := h
    have hsub : ∀ c2 ∈ (c :: rest), c2 ∈ s.data :=
      fun c2 hc2 => (List.dropWhile_sublist pyIsSpace).mem (hdrop ▸ hc2)
    have hchd : pyIsSpace c = false := head?_dropWhile pyIsSpace s.data c
      (by rw [hdrop]; rfl)
    have hkd : k.data = (c :: rest).takeWhile (fun x => !pyIsSpace x) := by
      rw [← hk]
    constructor
    · refine ⟨?_, ?_, ?_⟩
      · rw [hkd, List.takeWhile_cons, if_pos (by simp [hchd])]
        simp
      · intro c2 hc2
        rw [hkd] at hc2
        have := List.mem_takeWhile_imp hc2
        simpa using this
      · intro c2 hc2
        rw [hkd] at hc2
        exact hsub c2 ((List.takeWhile_sublist _).mem hc2)
    · intro v hv
      rw [← hrest] at hv
      by_cases he : (((c :: rest).dropWhile (fun x => !pyIsSpace x)).dropWhile
          pyIsSpace).isEmpty = true
      · rw [if_pos he] at hv
        simp at hv
      · rw [if_neg he] at hv
        simp only [Option.some.injEq] at hv
        have hvd : v.data =
            ((c :: rest).dropWhile (fun x => !pyIsSpace x)).dropWhile pyIsSpace := by
          rw [← hv]
        constructor
        · intro c2 hc2
          rw [hvd] at hc2
          exact hsub c2 ((List.dropWhile_sublist _).mem
            ((List.dropWhile_sublist _).mem hc2))
        · rcases hv2 : v.data with _ | ⟨c0, r0⟩
          · rw [hvd] at hv2
            rw [List.isEmpty_iff] at he
            exact absurd hv2 he
          · refine ⟨c0, r0, rfl, ?_⟩
            apply head?_dropWhile pyIsSpace
              ((c :: rest).dropWhile (fun x => !pyIsSpace x))
            rw [← hvd, hv2]
            rfl

/-! ### Folding the parser over the serialized lines -/

theorem foldl_globalLines :
    ∀ (entries : List (String × Option ExtVal)) (g : List (String × Option ExtVal))
      (lbs : List (String × List (String × Option ExtVal))),
      (∀ e ∈ entries, ExtDirOK e) →
      (∀ e ∈ entries, e.1 = "fdtoverlays" → e.2 = none) →
      (∀ e ∈ entries, e.1 = "label" → e.2 = none) →
      (entries.map extGlobalLine).foldl parseExtLine ⟨g, lbs, none⟩ =
        ⟨entries.foldl (fun a e => updIn a e.1 e.2) g, lbs, none⟩ := by
  intro entries
  induction entries with
  | nil => intro g lbs _ _ _; rfl
  | cons e rest ih =>
    intro g lbs hOK h1 h2
    obtain ⟨k, val⟩ := e
    have heOK := hOK (k, val) (by simp)
    rw [List.map_cons, List.foldl_cons, List.foldl_cons]
    rcases val with _ | v
    · rw [show extGlobalLine (k, none) = pyToUpper k from rfl,
        parseExtLine_bare_global g lbs k heOK.1]
      exact ih (updIn g k none) lbs (fun x hx => hOK x (by simp [hx]))
        (fun x hx => h1 x (by simp [hx])) (fun x hx => h2 x (by simp [hx]))
    · cases v with
      | s sv =>
        have hk_lab : ¬k = "label" := by
          intro he
          have := h2 (k, some (.s sv)) (by simp) he
          simp at this
        rw [show extGlobalLine (k, some (.s sv)) = pyToUpper k ++ " " ++ sv from rfl,
          parseExtLine_kv_global g lbs k sv heOK.1 hk_lab heOK.2.1.1
            (data_ne_of_ne heOK.2.1.2.1), if_neg heOK.2.2]
        exact ih (updIn g k (some (.s sv))) lbs (fun x hx => hOK x (by simp [hx]))
          (fun x hx => h1 x (by simp [hx])) (fun x hx => h2 x (by simp [hx]))
      | l xs =>
        exfalso
        have := h1 (k, some (.l xs)) (by simp) heOK.2.1
        simp at this

theorem foldl_dirLines :
    ∀ (ds : List (String × Option ExtVal)) (g : List (String × Option ExtVal))
      (lbs : List (String × List (String × Option ExtVal))) (name : String)
      (dcur : List (String × Option ExtVal)),
      name ∉ lbs.map Prod.fst →
      (∀ d ∈ ds, ExtDirOK d) →
      (∀ d ∈ ds, d.1 = "label" → d.2 = none) →
      ((ds.map extDirLine) ++ [""]).foldl parseExtLine
          ⟨g, lbs ++ [(name, dcur)], some name⟩ =
        ⟨g, lbs ++ [(name, ds.foldl (fun a e => updIn a e.1 e.2) dcur)],
          some name⟩ := by
  intro ds
  induction ds with
  | nil =>
    intro g lbs name dcur _ _ _
    rw [List.map_nil, List.nil_append, List.foldl_cons, parseExtLine_blank,
      List.foldl_nil, List.foldl_nil]
  | cons d rest ih =>
    intro g lbs name dcur hfresh hOK hlab
    obtain ⟨k, val⟩ := d
    have heOK := hOK (k, val) (by simp)
    rw [List.map_cons, List.cons_append, List.foldl_cons]
    rcases val with _ | v
    · rw [show extDirLine (k, none) = "    " ++ pyToUpper k from rfl,
        parseExtLine_indent, parseExtLine_bare_cur g _ name k heOK.1,
        setLabelKey_append_fresh lbs name dcur k none hfresh]
      exact ih g lbs name (updIn dcur k none) hfresh
        (fun x hx => hOK x (by simp [hx])) (fun x hx => hlab x (by simp [hx]))
    · cases v with
      | s sv =>
        have hk_lab : ¬k = "label" := by
          intro he
          have := hlab (k, some (.s sv)) (by simp) he
          simp at this
        have hdir : extDirLine (k, some (.s sv)) =
            "    " ++ (pyToUpper k ++ " " ++ sv) := by
          show "    " ++ pyToUpper k ++ " " ++ sv = _
          apply str_ext
          simp [String.data_append]
        rw [hdir, parseExtLine_indent,
          parseExtLine_kv_cur g _ name k sv heOK.1 hk_lab heOK.2.1.1
            (data_ne_of_ne heOK.2.1.2.1), if_neg heOK.2.2,
          setLabelKey_append_fresh lbs name dcur k _ hfresh]
        exact ih g lbs name (updIn dcur k (some (.s sv))) hfresh
          (fun x hx => hOK x (by simp [hx])) (fun x hx => hlab x (by simp [hx]))
      | l xs =>
        have hfdt : k = "fdtoverlays" := heOK.2.1
        obtain ⟨hjstrip, hjne, hjsplit⟩ := fdt_join_facts xs heOK.2.2.1 heOK.2.2.2
        have hk_lab : ¬k = "label" := by
          rw [hfdt]
          decide
        have hdir : extDirLine (k, some (.l xs)) =
            "    " ++ (pyToUpper k ++ " " ++ pyJoin " " xs) := by
          show (if k = "fdtoverlays" then "    " ++ pyToUpper k ++ " " ++ pyJoin " " xs
            else "    " ++ pyToUpper k ++ " " ++ pyListRepr xs) = _
          rw [if_pos hfdt]
          apply str_ext
          simp [String.data_append]
        rw [hdir, parseExtLine_indent,
          parseExtLine_kv_cur g _ name k (pyJoin " " xs) heOK.1 hk_lab hjstrip hjne,
          if_pos hfdt, hjsplit,
          setLabelKey_append_fresh lbs name dcur k _ hfresh]
        exact ih g lbs name (updIn dcur k (some (.l xs))) hfresh
          (fun x hx => hOK x (by simp [hx])) (fun x hx => hlab x (by simp [hx]))

theorem foldl_labelBlock (name : String) (dirs : List (String × Option ExtVal))
    (g : List (String × Option ExtVal))
    (lbs : List (String × List (String × Option ExtVal))) (cur : Option String)
    (hn : LabelNameOK name) (hfresh : name ∉ lbs.map Prod.fst)
    (hnd : (dirs.map Prod.fst).Nodup)
    (hds : ∀ d ∈ dirs, ExtDirOK d)
    (hlab : ∀ d ∈ dirs, d.1 = "label" → d.2 = none) :
    (extLabelBlock (name, dirs)).foldl parseExtLine ⟨g, lbs, cur⟩ =
      ⟨g, lbs ++ [(name, dirs)], some name⟩ := by
  rw [extLabelBlock, List.cons_append, List.foldl_cons,
    parseExtLine_labelHdr ⟨g, lbs, cur⟩ name hn]
  show (dirs.map extDirLine ++ [""]).foldl parseExtLine
    ⟨g, updIn lbs name [], some name⟩ = _
  rw [updIn_fresh ([] : List (String × Option ExtVal)) hfresh,
    foldl_dirLines dirs g lbs name [] hfresh hds hlab,
    foldl_updIn_fresh dirs [] hnd (by simp), List.nil_append]

theorem foldl_labelBlocks :
    ∀ (lblist : List (String × List (String × Option ExtVal)))
      (g : List (String × Option ExtVal))
      (lbs : List (String × List (String × Option ExtVal))) (cur : Option String),
      (lblist.map Prod.fst).Nodup →
      (∀ n ∈ lblist.map Prod.fst, n ∉ lbs.map Prod.fst) →
      (∀ lb ∈ lblist, LabelNameOK lb.1 ∧ (lb.2.map Prod.fst).Nodup ∧
        ∀ d ∈ lb.2, ExtDirOK d) →
      (∀ lb ∈ lblist, ∀ d ∈ lb.2, d.1 = "label" → d.2 = none) →
      ∃ cur2, ((lblist.map extLabelBlock).flatten).foldl parseExtLine ⟨g, lbs, cur⟩ =
        ⟨g, lbs ++ lblist, cur2⟩ := by
  intro lblist
  induction lblist with
  | nil => intro g lbs cur _ _ _ _; exact ⟨cur, by simp⟩
  | cons lb rest ih =>
    intro g lbs cur hnd hdisj hOK hlab
    obtain ⟨name, dirs⟩ := lb
    obtain ⟨hnmem, hndrest⟩ := List.nodup_cons.mp
      (show (name :: rest.map Prod.fst).Nodup from hnd)
    rw [List.map_cons, List.flatten_cons, List.foldl_append,
      foldl_labelBlock name dirs g lbs cur (hOK (name, dirs) (by simp)).1
        (hdisj name (by simp)) (hOK (name, dirs) (by simp)).2.1
        (hOK (name, dirs) (by simp)).2.2 (hlab (name, dirs) (by simp))]
    obtain ⟨cur2, hc2⟩ := ih g (lbs ++ [(name, dirs)]) (some name) hndrest
      (by
        intro n hn hmem
        rw [List.map_append, List.mem_append] at hmem
        rcases hmem with hm | hm
        · exact hdisj n (by simp [hn]) hm
        · simp only [List.map_cons, List.map_nil, List.mem_singleton] at hm
          subst hm
          exact hnmem hn)
      (fun x hx => hOK x (by simp [hx])) (fun x hx => hlab x (by simp [hx]))
    refine ⟨cur2, ?_⟩
    rw [hc2, List.append_assoc]
    rfl

/-! ### Break-freeness of the serialized lines -/

theorem extGlobalLine_breakFree (e : String × Option ExtVal) (hOK : ExtDirOK e)
    (h1 : e.1 = "fdtoverlays" → e.2 = none) :
    ∀ c ∈ (extGlobalLine e).data, pyIsLineBreak c = false := by
  obtain ⟨k, val⟩ := e
  have hkbr : ∀ c ∈ (pyToUpper k).data, pyIsLineBreak c = false :=
    pyToUpper_noBreak (fun c hc => (hOK.1.1.2 c hc).2)
  rcases val with _ | v
  · intro c hc
    exact hkbr c hc
  · cases v with
    | s sv =>
      intro c hc
      rw [show extGlobalLine (k, some (.s sv)) = pyToUpper k ++ " " ++ sv from rfl,
        data_key_sp_val] at hc
      rcases List.mem_append.mp hc with hm | hm
      · exact hkbr c hm
      · rcases List.mem_cons.mp hm with rfl | hm2
        · decide
        · exact hOK.2.1.2.2 c hm2
    | l xs =>
      exfalso
      have := h1 hOK.2.1
      simp at this

theorem extDirLine_breakFree (d : String × Option ExtVal) (hOK : ExtDirOK d) :
    ∀ c ∈ (extDirLine d).data, pyIsLineBreak c = false := by
  obtain ⟨k, val⟩ := d
  have hkbr : ∀ c ∈ (pyToUpper k).data, pyIsLineBreak c = false :=
    pyToUpper_noBreak (fun c hc => (hOK.1.1.2 c hc).2)
  have hsp : ∀ c ∈ ("    " : String).data, pyIsLineBreak c = false := by decide
  rcases val with _ | v
  · intro c hc
    rw [show extDirLine (k, none) = "    " ++ pyToUpper k from rfl,
      String.data_append] at hc
    rcases List.mem_append.mp hc with hm | hm
    · exact hsp c hm
    · exact hkbr c hm
  · cases v with
    | s sv =>
      intro c hc
      rw [show extDirLine (k, some (.s sv)) =
        "    " ++ pyToUpper k ++ " " ++ sv from rfl] at hc
      simp only [String.data_append] at hc
      rcases List.mem_append.mp hc with hm | hm
      · rcases List.mem_append.mp hm with hm2 | hm2
        · rcases List.mem_append.mp hm2 with hm3 | hm3
          · exact hsp c hm3
          · exact hkbr c hm3
        · have hce : c = ' ' := by simpa using hm2
          rw [hce]
          decide
      · exact hOK.2.1.2.2 c hm
    | l xs =>
      intro c hc
      have hfdt : k = "fdtoverlays" := hOK.2.1
      rw [show extDirLine (k, some (.l xs)) =
          (if k = "fdtoverlays" then "    " ++ pyToUpper k ++ " " ++ pyJoin " " xs
           else "    " ++ pyToUpper k ++ " " ++ pyListRepr xs) from rfl,
        if_pos hfdt] at hc
      simp only [String.data_append] at hc
      rcases List.mem_append.mp hc with hm | hm
      · rcases List.mem_append.mp hm with hm2 | hm2
        · rcases List.mem_append.mp hm2 with hm3 | hm3
          · exact hsp c hm3
          · exact hkbr c hm3
        · have hce : c = ' ' := by simpa using hm2
          rw [hce]
          decide
      · rcases pyJoin_toks_mem xs c hm with ⟨x, hx, hcx⟩ | hce
        · exact ((hOK.2.2.2 x hx).2 c hcx).2
        · rw [hce]
          decide

theorem extLabelBlock_breakFree (lb : String × List (String × Option ExtVal))
    (hn : LabelNameOK lb.1) (hds : ∀ d ∈ lb.2, ExtDirOK d) :
    ∀ l ∈ extLabelBlock lb, ∀ c ∈ l.data, pyIsLineBreak c = false := by
  obtain ⟨name, dirs⟩ := lb
  intro l hl
  rw [extLabelBlock] at hl
  rcases List.mem_cons.mp hl with rfl | hm
  · intro c hc
    rw [String.data_append] at hc
    rcases List.mem_append.mp hc with hm2 | hm2
    · have hall : ∀ x ∈ ("LABEL " : String).data, pyIsLineBreak x = false := by
        decide
      exact hall c hm2
    · exact hn.2.2 c hm2
  · rcases List.mem_append.mp hm with hm2 | hm2
    · obtain ⟨d, hd, rfl⟩ := List.mem_map.mp hm2
      exact extDirLine_breakFree d (hds d hd)
    · have hle : l = "" := by simpa using hm2
      rw [hle]
      intro c hc
      simp at hc

/-- Re-parsing the serialization of a well-formed extlinux configuration
that has no global `fdtoverlays` value and no valued `label` key recovers
the configuration. -/
theorem ext_serialize_reparse (cg : List (String × Option ExtVal))
    (cl : List (String × List (String × Option ExtVal)))
    (hwf : ExtWF ⟨cg, cl⟩)
    (H1 : ∀ e ∈ cg, e.1 = "fdtoverlays" → e.2 = none)
    (H2 : ∀ e ∈ cg, e.1 = "label" → e.2 = none)
    (H3 : ∀ lb ∈ cl, ∀ d ∈ lb.2, d.1 = "label" → d.2 = none) :
    parse_extlinux_conf (serialize_extlinux_conf ⟨cg, cl⟩) = ⟨cg, cl⟩ := by
  obtain ⟨hgn, hge, hln, hle⟩ := hwf
  have hbf : ∀ l ∈ ((if (cg.map extGlobalLine).isEmpty then cg.map extGlobalLine
      else cg.map extGlobalLine ++ [""]) ++ (cl.map extLabelBlock).flatten),
      ∀ c ∈ l.data, pyIsLineBreak c = false := by
    intro l hl
    rcases List.mem_append.mp hl with hm | hm
    · have hm2 : l ∈ cg.map extGlobalLine ++ [""] := by
        by_cases he : (cg.map extGlobalLine).isEmpty = true
        · rw [if_pos he] at hm
          exact List.mem_append.mpr (Or.inl hm)
        · rw [if_neg he] at hm
          exact hm
      rcases List.mem_append.mp hm2 with hm3 | hm3
      · obtain ⟨e, he, rfl⟩ := List.mem_map.mp hm3
        exact extGlobalLine_breakFree e (hge e he) (H1 e he)
      · have hle2 : l = "" := by simpa using hm3
        rw [hle2]
        intro c hc
        simp at hc
    · obtain ⟨blk, hblk, hlblk⟩ := List.mem_flatten.mp hm
      obtain ⟨lb, hlb, rfl⟩ := List.mem_map.mp hblk
      exact extLabelBlock_breakFree lb (hle lb hlb).1 (hle lb hlb).2.2 l hlblk
  have hser : serialize_extlinux_conf ⟨cg, cl⟩ =
      pyRstrip (pyJoin "\n" ((if (cg.map extGlobalLine).isEmpty
        then cg.map extGlobalLine else cg.map extGlobalLine ++ [""]) ++
        (cl.map extLabelBlock).flatten)) := rfl
  show (⟨((pySplitlines (serialize_extlinux_conf ⟨cg, cl⟩)).foldl parseExtLine
      ⟨[], [], none⟩).global,
    ((pySplitlines (serialize_extlinux_conf ⟨cg, cl⟩)).foldl parseExtLine
      ⟨[], [], none⟩).labels⟩ : ExtConfig) = ⟨cg, cl⟩
  rw [hser, extParse_join_lines _ ⟨[], [], none⟩ hbf, List.foldl_append]
  have hgfold : (if (cg.map extGlobalLine).isEmpty then cg.map extGlobalLine
      else cg.map extGlobalLine ++ [""]).foldl parseExtLine
      (⟨[], [], none⟩ : ExtSt) = ⟨cg, [], none⟩ := by
    by_cases he : (cg.map extGlobalLine).isEmpty = true
    · have h0 : cg.map extGlobalLine = [] := List.isEmpty_iff.mp he
      have h1 : cg.length = 0 := by
        have := congrArg List.length h0
        simpa using this
      rw [if_pos he, List.length_eq_zero.mp h1]
      rfl
    · rw [if_neg he, List.foldl_append,
        foldl_globalLines cg [] [] hge H1 H2,
        foldl_updIn_fresh cg [] hgn (by simp), List.nil_append,
        List.foldl_cons, parseExtLine_blank, List.foldl_nil]
  rw [hgfold]
  obtain ⟨cur2, hblocks⟩ := foldl_labelBlocks cl cg [] none hln (by simp) hle H3
  rw [hblocks]
  rfl

/-! ### The parse invariant of `parse_extlinux_conf` -/

theorem all_of_stripCh_nil {p : Char → Bool} {cs : List Char}
    (h : stripCh p cs = []) : ∀ c ∈ cs, p c = true := by
  intro c hc
  rw [stripCh, stripLeftCh] at h
  have hdw := all_of_stripRightCh_nil h
  have hc2 : c ∈ cs.takeWhile p ++ cs.dropWhile p := by
    rw [List.takeWhile_append_dropWhile]
    exact hc
  rcases List.mem_append.mp hc2 with hm | hm
  · exact List.mem_takeWhile_imp hm
  · exact hdw c hm

theorem pySplitNone1_head {s : String} {k : String} {orest : Option String}
    {c : Char} {rest2 : List Char} (h : pySplitNone1 s = some (k, orest))
    (hdrop : s.data.dropWhile pyIsSpace = c :: rest2) :
    ∃ kr, k.data = c :: kr := by
  rw [pySplitNone1, hdrop] at h
  simp only [Option.some.injEq, Prod.mk.injEq] at h
  obtain ⟨hk, -⟩ := h
  have hchd : pyIsSpace c = false :=
    head?_dropWhile pyIsSpace s.data c (by rw [hdrop]; rfl)
  have hkd : k.data = (c :: rest2).takeWhile (fun x => !pyIsSpace x) := by
    rw [← hk]
  rw [List.takeWhile_cons, if_pos (by simp [hchd])] at hkd
  exact ⟨_, hkd⟩

/-- A stripped line recognized as a `LABEL` line has a nonempty name after
the keyword. -/
theorem labelName_ne_empty {s : String} (hfix : pyStrip s = s)
    (hc2 : pyStartsWith (pyToLower s) "label " = true) :
    ¬pyStrip ⟨s.data.drop 6⟩ = "" := by
  intro hx
  have hpre : "label ".data <+: (pyToLower s).data :=
    List.isPrefixOf_iff_prefix.mp hc2
  obtain ⟨t, ht⟩ := hpre
  have hmap : s.data.map Char.toLower = "label ".data ++ t := by
    have hdl : (pyToLower s).data = s.data.map Char.toLower := rfl
    rw [hdl] at ht
    exact ht.symm
  obtain ⟨ld1, ld2, hsplit, hm1, hm2⟩ := List.map_eq_append_iff.mp hmap
  have hlen1 : ld1.length = 6 := by
    have := congrArg List.length hm1
    simpa using this
  have hdrop : s.data.drop 6 = ld2 := by
    rw [hsplit, ← hlen1]
    exact List.drop_left _ _
  have hld2ws : ∀ c ∈ ld2, pyIsSpace c = true := by
    apply all_of_stripCh_nil
    have hxd := congrArg String.data hx
    rw [show (pyStrip ⟨s.data.drop 6⟩).data =
      stripCh pyIsSpace (s.data.drop 6) from rfl, hdrop] at hxd
    exact hxd
  rcases hld2 : ld2 with _ | ⟨d0, dr⟩
  · have hld1ne : ¬ld1 = [] := by
      intro hz
      rw [hz] at hlen1
      simp at hlen1
    obtain ⟨y, hy⟩ : ∃ y, ld1.getLast? = some y := by
      rcases hg : ld1.getLast? with _ | y
      · rw [List.getLast?_eq_none_iff] at hg
        exact absurd hg hld1ne
      · exact ⟨y, rfl⟩
    have hylow : Char.toLower y = ' ' := by
      have hgl : ("label ".data).getLast? = Option.map Char.toLower ld1.getLast? := by
        rw [← hm1]
        exact List.getLast?_map _ _
      rw [hy, show Option.map Char.toLower (some y) = some (Char.toLower y) from rfl,
        show ("label ".data).getLast? = some ' ' from rfl] at hgl
      injection hgl with h2
      exact h2.symm
    have hyws : pyIsSpace y = true := by
      rw [toLower_eq_space hylow]
      decide
    have hlast : s.data.getLast? = some y := by
      rw [hsplit, hld2, List.append_nil, hy]
    have hf := last_noWs_of_strip_fixed hfix y hlast
    rw [hyws] at hf
    simp at hf
  · have hlast : s.data.getLast? = (d0 :: dr).getLast? := by
      rw [hsplit, hld2, List.getLast?_append_of_ne_nil _ (by simp)]
    obtain ⟨y, hy⟩ : ∃ y, (d0 :: dr).getLast? = some y :=
      ⟨(d0 :: dr).getLast (by simp), List.getLast?_eq_getLast _ _⟩
    have hyin : y ∈ ld2 := by
      rw [hld2]
      exact List.mem_of_mem_getLast? hy
    have hf := last_noWs_of_strip_fixed hfix y (by rw [hlast, hy])
    rw [hld2ws y hyin] at hf
    simp at hf

/-- One parser step preserves the extlinux state invariant. -/
theorem extStWF_parseExtLine (st : ExtSt) (l : String)
    (hbf : ∀ c ∈ l.data, pyIsLineBreak c = false) (h : ExtStWF st) :
    ExtStWF (parseExtLine st l) := by
  obtain ⟨hgn, hge, hln, hle⟩ := h
  have hlinebf : ∀ c ∈ (pyStrip l).data, pyIsLineBreak c = false :=
    fun c hc => hbf c (stripCh_subset c hc)
  rw [parseExtLine]
  by_cases hc1 : (decide (pyStrip l = "") || pyStartsWith (pyStrip l) "#") = true
  · simp only [hc1, if_true]
    exact ⟨hgn, hge, hln, hle⟩
  · have hc1' : (decide (pyStrip l = "") || pyStartsWith (pyStrip l) "#") = false := by
      revert hc1
      cases (decide (pyStrip l = "") || pyStartsWith (pyStrip l) "#") <;> simp
    simp only [hc1', Bool.false_eq_true, if_false]
    have hor := Bool.or_eq_false_iff.mp hc1'
    have hlne : ¬pyStrip l = "" := of_decide_eq_false hor.1
    have hlned : ¬(pyStrip l).data = [] := data_ne_of_ne hlne
    obtain ⟨c0, r0, hld⟩ := exists_cons_of_ne hlned
    have hc0hash : ¬c0 = '#' := pyStartsWith_hash hld hor.2
    have hstripfix : pyStrip (pyStrip l) = pyStrip l := str_ext (stripCh_idem _ _)
    have hc0ws : pyIsSpace c0 = false :=
      head_noWs_of_strip_fixed hstripfix c0 (by rw [hld]; rfl)
    by_cases hc2 : pyStartsWith (pyToLower (pyStrip l)) "label " = true
    · simp only [hc2, if_true]
      refine ⟨hgn, hge, nodup_updIn hln, ?_⟩
      intro lb hlb
      rcases mem_updIn hlb with hold | heq
      · exact hle lb hold
      · rw [heq]
        refine ⟨⟨str_ext (stripCh_idem _ _),
          labelName_ne_empty hstripfix hc2, ?_⟩, by simp, ?_⟩
        · intro c hc
          exact hlinebf c (List.mem_of_mem_drop (stripCh_subset c hc))
        · intro d hd
          simp at hd
    · have hc2' : pyStartsWith (pyToLower (pyStrip l)) "label " = false := by
        revert hc2
        cases pyStartsWith (pyToLower (pyStrip l)) "label " <;> simp
      simp only [hc2', Bool.false_eq_true, if_false]
      rcases hsp : pySplitNone1 (pyStrip l) with _ | ⟨k, orest⟩
      · exact ⟨hgn, hge, hln, hle⟩
      · obtain ⟨⟨hkne, hknws, hksub⟩, hrestf⟩ := pySplitNone1_some_facts hsp
        have hdropfix : (pyStrip l).data.dropWhile pyIsSpace = c0 :: r0 := by
          rw [hld]
          exact dropWhile_cons_of_neg hc0ws
        obtain ⟨kr, hkdd⟩ := pySplitNone1_head hsp hdropfix
        have hkeyOK : ExtKeyOK (pyToLower k) := by
          refine ⟨⟨?_, ?_⟩, pyToLower_idem k, ?_⟩
          · intro hz
            apply hkne
            have hzd := congrArg String.data hz
            rw [show (pyToLower k).data = k.data.map Char.toLower from rfl] at hzd
            simpa using hzd
          · intro c hc
            obtain ⟨c1, hc1, rfl⟩ := List.mem_map.mp hc
            exact ⟨by rw [pyIsSpace_toLower]; exact hknws c1 hc1,
              by rw [pyIsLineBreak_toLower]; exact hlinebf c1 (hksub c1 hc1)⟩
          · intro c rest hd hch
            rw [show (pyToLower k).data = k.data.map Char.toLower from rfl,
              hkdd, List.map_cons] at hd
            injection hd with hd1 hd2
            rw [← hd1] at hch
            exact hc0hash (toLower_eq_hash.mp hch)
        rcases orest with _ | v
        · have hdirOK : ExtDirOK (pyToLower k, (none : Option ExtVal)) :=
            ⟨hkeyOK, trivial⟩
          rcases hcur : st.cur with _ | m
          · refine ⟨nodup_updIn hgn, ?_, hln, hle⟩
            intro e he
            rcases mem_updIn he with hold | heq
            · exact hge e hold
            · rw [heq]
              exact hdirOK
          · refine ⟨hgn, hge, ?_, ?_⟩
            · rw [map_fst_setLabelKey st.labels m (pyToLower k) none]
              exact hln
            · intro lb hlb
              rcases mem_setLabelKey hlb with hold | ⟨d, hdin, hdeq⟩
              · exact hle lb hold
              · obtain ⟨hn1, hn2, hn3⟩ := hle (lb.1, d) hdin
                refine ⟨hn1, ?_, ?_⟩
                · rw [hdeq]
                  exact nodup_updIn hn2
                · intro d2 hd2
                  rw [hdeq] at hd2
                  rcases mem_updIn hd2 with hold2 | heq2
                  · exact hn3 d2 hold2
                  · rw [heq2]
                    exact hdirOK
        · obtain ⟨hvsub, cv, rv, hvd, hcvws⟩ := hrestf v rfl
          have hvalne : ¬(pyStrip v).data = [] := strip_ne_empty_of_head hvd hcvws
          have hvalfix : pyStrip (pyStrip v) = pyStrip v := str_ext (stripCh_idem _ _)
          have hvalbf : ∀ c ∈ (pyStrip v).data, pyIsLineBreak c = false :=
            fun c hc => hlinebf c (hvsub c (stripCh_subset c hc))
          have hdirOK : ExtDirOK (pyToLower k,
              if pyToLower k = "fdtoverlays" then some (.l (pySplitWs (pyStrip v)))
              else some (.s (pyStrip v))) := by
            by_cases hfdt : pyToLower k = "fdtoverlays"
            · rw [if_pos hfdt]
              refine ⟨hkeyOK, hfdt, ?_, ?_⟩
              · obtain ⟨cv2, rv2, hvd2⟩ := exists_cons_of_ne hvalne
                exact splitWs_ne_nil hvd2
                  (head_noWs_of_strip_fixed hvalfix cv2 (by rw [hvd2]; rfl))
              · intro x hx
                have htk := splitWsCh_toks (pyStrip v).data []
                  (fun c => c ∈ (pyStrip v).data) (fun c hc => hc) (by simp) x hx
                exact ⟨fun hz => htk.1 (by rw [hz]), fun c hc =>
                  ⟨(htk.2 c hc).2, hvalbf c (htk.2 c hc).1⟩⟩
            · rw [if_neg hfdt]
              exact ⟨hkeyOK,
                ⟨hvalfix, fun hz => hvalne (by rw [hz]), hvalbf⟩, hfdt⟩
          rcases hcur : st.cur with _ | m
          · refine ⟨nodup_updIn hgn, ?_, hln, hle⟩
            intro e he
            rcases mem_updIn he with hold | heq
            · exact hge e hold
            · rw [heq]
              exact hdirOK
          · refine ⟨hgn, hge, ?_, ?_⟩
            · rw [map_fst_setLabelKey]
              exact hln
            · intro lb hlb
              rcases mem_setLabelKey hlb with hold | ⟨d, hdin, hdeq⟩
              · exact hle lb hold
              · obtain ⟨hn1, hn2, hn3⟩ := hle (lb.1, d) hdin
                refine ⟨hn1, ?_, ?_⟩
                · rw [hdeq]
                  exact nodup_updIn hn2
                · intro d2 hd2
                  rw [hdeq] at hd2
                  rcases mem_updIn hd2 with hold2 | heq2
                  · exact hn3 d2 hold2
                  · rw [heq2]
                    exact hdirOK

/-- The output of `parse_extlinux_conf` is well-formed. -/
theorem extWF_parse (t : String) : ExtWF (parse_extlinux_conf t) := by
  have main : ∀ (lines : List String) (st : ExtSt),
      (∀ l ∈ lines, ∀ c ∈ l.data, pyIsLineBreak c = false) →
      ExtStWF st → ExtStWF (lines.foldl parseExtLine st) := by
    intro lines
    induction lines with
    | nil => intro st _ hst; exact hst
    | cons l rest ih =>
      intro st hbf hst
      rw [List.foldl_cons]
      exact ih (parseExtLine st l) (fun x hx => hbf x (by simp [hx]))
        (extStWF_parseExtLine st l (hbf l (by simp)) hst)
  have hst := main (pySplitlines t) ⟨[], [], none⟩ (pySplitlines_mem_noBreak t)
    ⟨by simp, by simp, by simp, by simp⟩
  exact hst

/-- The extlinux round-trip, under the two hypotheses the counterexamples
force. -/
theorem extlinux_roundtrip (t : String)
    (H1 : ∀ e ∈ (parse_extlinux_conf t).global, e.1 = "fdtoverlays" → e.2 = none)
    (H2 : ∀ e ∈ (parse_extlinux_conf t).global, e.1 = "label" → e.2 = none)
    (H3 : ∀ lb ∈ (parse_extlinux_conf t).labels, ∀ d ∈ lb.2,
      d.1 = "label" → d.2 = none) :
    parse_extlinux_conf (serialize_extlinux_conf (parse_extlinux_conf t)) =
      parse_extlinux_conf t := by
  have hwf := extWF_parse t
  have hcfg : parse_extlinux_conf t =
      ⟨(parse_extlinux_conf t).global, (parse_extlinux_conf t).labels⟩ := rfl
  rw [hcfg] at hwf ⊢
  exact ext_serialize_reparse _ _ hwf H1 H2 H3

/-- C2 (amended): for each boot-config codec, parsing the serialization of a
parsed text recovers the parse — for the u-boot and grub environment codecs
provided every parsed value is a scalar (a multi-token value is stored as a
list, and its quoted re-encoding re-parses as a single joined scalar), and
for the extlinux codec provided the global section binds no value under
`fdtoverlays` (the serializer renders that list with Python list syntax)
and no `label` key is bound to a value (its serialized line re-parses as a
`LABEL` header). -/
theorem c2_codecs_roundtrip :
    (∀ t : String, (∀ e ∈ parse_uboot (some t), isScalVal e.2 = true) →
      ∃ out, encode_uboot (parse_uboot (some t)) = some out ∧
        parse_uboot (some out) = parse_uboot (some t)) ∧
    (∀ t : String, (∀ e ∈ parse_grub t, isScalVal e.2 = true) →
      ∃ out, encode_grub (parse_grub t) = some out ∧
        parse_grub out = parse_grub t) ∧
    (∀ t : String,
      (∀ e ∈ (parse_extlinux_conf t).global, e.1 = "fdtoverlays" → e.2 = none) →
      (∀ e ∈ (parse_extlinux_conf t).global, e.1 = "label" → e.2 = none) →
      (∀ lb ∈ (parse_extlinux_conf t).labels, ∀ d ∈ lb.2,
        d.1 = "label" → d.2 = none) →
      parse_extlinux_conf (serialize_extlinux_conf (parse_extlinux_conf t)) =
        parse_extlinux_conf t) :=
  ⟨uboot_roundtrip, grub_roundtrip, extlinux_roundtrip⟩

/-- C2 counterexample: the unconditional round-trip claim fails on all three
codecs — a multi-token u-boot value comes back as a single scalar, a global
`fdtoverlays` entry comes back as split Python list syntax, and a valued
`label` key comes back as a label definition. -/
theorem c2_codecs_roundtrip_counterexample :
    ¬(encode_uboot (parse_uboot (some "FOO=bar baz"))).map
        (fun out => parse_uboot (some out)) =
      some (parse_uboot (some "FOO=bar baz")) ∧
    ¬parse_extlinux_conf (serialize_extlinux_conf
        (parse_extlinux_conf "FDTOVERLAYS a b")) =
      parse_extlinux_conf "FDTOVERLAYS a b" ∧
    ¬parse_extlinux_conf (serialize_extlinux_conf
        (parse_extlinux_conf "label\tx")) =
      parse_extlinux_conf "label\tx" := by
  refine ⟨?_, ?_, ?_⟩
  · decide
  · decide
  · decide

/-- C2 witness: the amended round-trip at concrete configurations, with all
hypotheses discharged by evaluation. -/
theorem c2_codecs_roundtrip_witness :
    (∃ out, encode_uboot (parse_uboot (some "FOO=bar")) = some out ∧
      parse_uboot (some out) = parse_uboot (some "FOO=bar")) ∧
    (∃ out, encode_grub (parse_grub "GRUB_TIMEOUT=5") = some out ∧
      parse_grub out = parse_grub "GRUB_TIMEOUT=5") ∧
    parse_extlinux_conf (serialize_extlinux_conf (parse_extlinux_conf
      "DEFAULT a\nLABEL a\n    KERNEL k\n    FDTOVERLAYS x y")) =
      parse_extlinux_conf "DEFAULT a\nLABEL a\n    KERNEL k\n    FDTOVERLAYS x y" :=
  ⟨c2_codecs_roundtrip.1 "FOO=bar" (by decide),
   c2_codecs_roundtrip.2.1 "GRUB_TIMEOUT=5" (by decide),
   c2_codecs_roundtrip.2.2 "DEFAULT a\nLABEL a\n    KERNEL k\n    FDTOVERLAYS x y"
     (by decide) (by decide) (by decide)⟩

/-! ### The flattening invariant (C6) -/

mutual
theorem noSLL_flatten : ∀ (v : PyVal), noSLLB (_flatten v) = true
  | .str _ => rfl
  | .bool _ => rfl
  | .int _ => rfl
  | .float _ _ => rfl
  | .dict d => by
    have he : _flatten (.dict d) = .dict (flattenDict d) := rfl
    rw [he, show noSLLB (.dict (flattenDict d)) = noSLLBd (flattenDict d) from rfl]
    exact noSLL_flattenD d
  | .list l => by
    have hC := noSLL_flattenL l
    have he : _flatten (.list l) =
        (match flattenList l with
         | [PyVal.list inner] => PyVal.list inner
         | lst => PyVal.list lst) := rfl
    rcases hl : flattenList l with _ | ⟨v1, rest⟩
    · rw [he, hl]
      rfl
    · rcases rest with _ | ⟨v2, rest2⟩
      · rw [hl] at hC
        cases v1 with
        | list inner =>
          rw [he, hl]
          show noSLLB (.list inner) = true
          have : noSLLB (.list inner) && noSLLBl [] = true := hC
          revert this
          cases noSLLB (.list inner) <;> simp [noSLLBl]
        | str s => rw [he, hl]; exact hC
        | bool b => rw [he, hl]; exact hC
        | int n => rw [he, hl]; exact hC
        | float n d => rw [he, hl]; exact hC
        | dict d => rw [he, hl]; exact hC
      · rw [he, hl]
        rw [hl] at hC
        cases v1 <;> simpa [noSLLB] using hC

theorem noSLL_flattenD : ∀ (d : List (String × PyVal)),
    noSLLBd (flattenDict d) = true
  | [] => rfl
  | (k, v) :: rest => by
    have h1 := noSLL_flatten v
    have h2 := noSLL_flattenD rest
    show (noSLLB (_flatten v) && noSLLBd (flattenDict rest)) = true
    rw [h1, h2]
    rfl

theorem noSLL_flattenL : ∀ (l : List PyVal), noSLLBl (flattenList l) = true
  | [] => rfl
  | v :: rest => by
    have h1 := noSLL_flatten v
    have h2 := noSLL_flattenL rest
    show (noSLLB (_flatten v) && noSLLBl (flattenList rest)) = true
    rw [h1, h2]
    rfl
end

theorem noSLL_parse_dtc_yaml (data : String) (res : PyDict)
    (h : parse_dtc_yaml data = .ok res) : noSLLBd res = true := by
  rw [parse_dtc_yaml] at h
  rcases hfold : (pySplitlines data).foldlM yLine (⟨[], none, []⟩ : YSt) with e | st
  · rw [hfold] at h
    simp at h
  · rw [hfold] at h
    simp only [Except.ok.injEq] at h
    rw [← h]
    exact noSLL_flattenD (yCloseAll st)

/-- C6: every tree the dtc-YAML parser returns satisfies the flattening
invariant — no value anywhere in it is a single-element list whose sole
element is itself a list — and the one-element wrapping that the compiler
produces for a two-element `compatible` list is collapsed to the inner
two-element list. -/
theorem c6_flatten_invariant :
    (∀ (data : String) (res : PyDict), parse_dtc_yaml data = .ok res →
      noSLLBd res = true) ∧
    parse_dtc_yaml "- compatible: [\"a\", \"b\"]" =
      .ok [("compatible", PyVal.list [.str "a", .str "b"])] :=
  ⟨noSLL_parse_dtc_yaml, rfl⟩

/-- C6 witness: the invariant instantiated at the concrete `compatible`
parse. -/
theorem c6_flatten_invariant_witness :
    noSLLBd [("compatible", PyVal.list [.str "a", .str "b"])] = true :=
  c6_flatten_invariant.1 "- compatible: [\"a\", \"b\"]"
    [("compatible", PyVal.list [.str "a", .str "b"])] c6_flatten_invariant.2

/-- C5: the scalar-inference function maps `"0x10"` to the integer 16,
`"3.5"` to the float 7/2 (represented exactly as 35/10), `"true"` to the
boolean true, and a double-quoted `"hello"` to the bare string `hello`;
the quote test precedes the boolean test (`"\"true\""` stays a string),
the bracket test precedes the numeric test, and a dot selects float over
integer. -/
theorem c5_parse_scalar_inference :
    _parse_scalar "0x10" = .int 16 ∧
    (_parse_scalar "3.5" = .float 35 10 ∧ (35 : ℚ) / 10 = 7 / 2) ∧
    _parse_scalar "true" = .bool true ∧
    _parse_scalar "\"hello\"" = .str "hello" ∧
    _parse_scalar "\"true\"" = .str "true" ∧
    _parse_scalar "[true]" = .list [.bool true] ∧
    _parse_scalar "15" = .int 15 :=
  ⟨rfl, ⟨rfl, by norm_num⟩, rfl, rfl, rfl, rfl, rfl⟩

/-! ### Cache-build lemmas (C3) -/

theorem gencacheGo_mono :
    ∀ (files : List GFile) (acc : List (String × PyDict) × List (String × PyDict)),
      (∀ x ∈ acc.1, x ∈ (gencacheGo files acc).1) ∧
      (∀ x ∈ acc.2, x ∈ (gencacheGo files acc).2) := by
  intro files
  induction files with
  | nil => intro acc; exact ⟨fun x hx => hx, fun x hx => hx⟩
  | cons f rest ih =>
    intro acc
    rcases hx : extract_dtb_info f.r1 f.r2 f.stem with e | od
    · have hstep : gencacheGo (f :: rest) acc = acc := by
        rw [gencacheGo, hx]
      rw [hstep]
      exact ⟨fun x hx => hx, fun x hx => hx⟩
    · rcases od with _ | d
      · have hstep : gencacheGo (f :: rest) acc = gencacheGo rest acc := by
          rw [gencacheGo, hx]
        rw [hstep]
        exact ih acc
      · have hstep : gencacheGo (f :: rest) acc = gencacheGo rest
            (if f.isOverlay = true then (acc.1, acc.2 ++ [(f.path, d)])
             else (acc.1 ++ [(f.path, d)], acc.2)) := by
          rw [gencacheGo, hx]
        rw [hstep]
        by_cases hov : f.isOverlay = true
        · rw [if_pos hov]
          exact ⟨fun x hmem => (ih (acc.1, acc.2 ++ [(f.path, d)])).1 x hmem,
            fun x hmem => (ih (acc.1, acc.2 ++ [(f.path, d)])).2 x
              (List.mem_append.mpr (Or.inl hmem))⟩
        · rw [if_neg hov]
          exact ⟨fun x hmem => (ih (acc.1 ++ [(f.path, d)], acc.2)).1 x
              (List.mem_append.mpr (Or.inl hmem)),
            fun x hmem => (ih (acc.1 ++ [(f.path, d)], acc.2)).2 x hmem⟩

theorem gencacheGo_mem :
    ∀ (files : List GFile) (acc : List (String × PyDict) × List (String × PyDict)),
      (∀ f ∈ files, exOk (extract_dtb_info f.r1 f.r2 f.stem) = true) →
      ∀ f ∈ files, ∀ d, extract_dtb_info f.r1 f.r2 f.stem = .ok (some d) →
        (f.path, d) ∈ (if f.isOverlay then (gencacheGo files acc).2
          else (gencacheGo files acc).1) := by
  intro files
  induction files with
  | nil => intro acc _ f hf; simp at hf
  | cons f0 rest ih =>
    intro acc hok f hf d hd
    rcases hx : extract_dtb_info f0.r1 f0.r2 f0.stem with e | od
    · have := hok f0 (by simp)
      rw [hx] at this
      simp [exOk] at this
    · rcases od with _ | d0
      · have hstep : gencacheGo (f0 :: rest) acc = gencacheGo rest acc := by
          rw [gencacheGo, hx]
        rw [hstep]
        rcases List.mem_cons.mp hf with rfl | hmem
        · rw [hx] at hd
          simp at hd
        · exact ih acc (fun x hxm => hok x (by simp [hxm])) f hmem d hd
      · have hstep : gencacheGo (f0 :: rest) acc = gencacheGo rest
            (if f0.isOverlay = true then (acc.1, acc.2 ++ [(f0.path, d0)])
             else (acc.1 ++ [(f0.path, d0)], acc.2)) := by
          rw [gencacheGo, hx]
        rw [hstep]
        rcases List.mem_cons.mp hf with rfl | hmem
        · rw [hx] at hd
          have hdd : d0 = d := by
            simp only [Except.ok.injEq, Option.some.injEq] at hd
            exact hd
          subst hdd
          by_cases hov : f.isOverlay = true
          · rw [if_pos hov, if_pos hov]
            exact (gencacheGo_mono rest (acc.1, acc.2 ++ [(f.path, d0)])).2
              (f.path, d0) (by simp)
          · rw [if_neg hov, if_neg hov]
            exact (gencacheGo_mono rest (acc.1 ++ [(f.path, d0)], acc.2)).1
              (f.path, d0) (by simp)
        · by_cases hov : f0.isOverlay = true
          · rw [if_pos hov]
            exact ih (acc.1, acc.2 ++ [(f0.path, d0)])
              (fun x hxm => hok x (by simp [hxm])) f hmem d hd
          · rw [if_neg hov]
            exact ih (acc.1 ++ [(f0.path, d0)], acc.2)
              (fun x hxm => hok x (by simp [hxm])) f hmem d hd

/-- C3 (amended): a non-zero compiler exit never raises out of
`extract_dtb_info` — the file yields `None` — whether the dts or the yaml
conversion fails; and a batch whose extractions all complete without an
exception collects an entry for every file whose conversion succeeded.
(The original claim fails for a missing executable: that raises
`FileNotFoundError` through `extract_dtb_info`, and in `gencache` the
re-raised exception abandons the collection loop, dropping the remaining
files.) -/
theorem c3_conversion_failure_handling :
    (∀ (r2 : ProcResult) (stem : String),
      extract_dtb_info .exitErr r2 stem = .ok none) ∧
    (∀ (out : String) (stem : String),
      extract_dtb_info (.ok out) .exitErr stem = .ok none) ∧
    (∀ (files : List GFile),
      (∀ f ∈ files, exOk (extract_dtb_info f.r1 f.r2 f.stem) = true) →
      ∀ f ∈ files, ∀ d, extract_dtb_info f.r1 f.r2 f.stem = .ok (some d) →
        (f.path, d) ∈ (if f.isOverlay then (gencache files).2
          else (gencache files).1)) := by
  refine ⟨fun r2 stem => rfl, ?_, ?_⟩
  · intro out stem
    by_cases h : out = "" <;>
      simp [extract_dtb_info, dtb_to_yaml, dtb_to_dts, h]
  · intro files hok f hf d hd
    exact gencacheGo_mem files ([], []) hok f hf d hd

/-- C3 counterexample: with the compiler executable missing, the
metadata extraction raises `FileNotFoundError` instead of returning
`None`, and in a two-file batch the raised exception makes `gencache`
drop the second (healthy) file, whereas the same batch with a non-zero
exit keeps it. -/
theorem c3_conversion_failure_counterexample :
    extract_dtb_info .missingExe .missingExe "bad" = .error .fileNotFoundError ∧
    gencache [⟨"/boot/dtbs/bad.dtb", false, "bad", .missingExe, .missingExe⟩,
      ⟨"/boot/dtbs/good.dtb", false, "good", .ok "d", .ok "model: X"⟩] = ([], []) ∧
    gencache [⟨"/boot/dtbs/bad.dtb", false, "bad", .exitErr, .exitErr⟩,
      ⟨"/boot/dtbs/good.dtb", false, "good", .ok "d", .ok "model: X"⟩] =
      ([("/boot/dtbs/good.dtb",
        [("name", .str "good"), ("description", .str "X"),
         ("compatible", .list [])])], []) :=
  ⟨rfl, rfl, rfl⟩

/-- C3 witness: the amended batch-completeness applied to a concrete
one-file batch. -/
theorem c3_conversion_failure_handling_witness :
    ("/boot/dtbs/a.dtb",
      [("name", PyVal.str "a"), ("description", PyVal.str "M"),
       ("compatible", PyVal.list [])]) ∈
      (gencache [⟨"/boot/dtbs/a.dtb", false, "a", .ok "d", .ok "model: M"⟩]).1 := by
  have h := c3_conversion_failure_handling.2.2
    [⟨"/boot/dtbs/a.dtb", false, "a", .ok "d", .ok "model: M"⟩]
    (by
      intro f hf
      have hfe : f = ⟨"/boot/dtbs/a.dtb", false, "a", .ok "d", .ok "model: M"⟩ := by
        simpa using hf
      rw [hfe]
      rfl)
    ⟨"/boot/dtbs/a.dtb", false, "a", .ok "d", .ok "model: M"⟩ (by simp)
    [("name", PyVal.str "a"), ("description", PyVal.str "M"),
      ("compatible", PyVal.list [])] rfl
  simpa using h

theorem identify_overlays_fw_go (entries : List FsEntry) (acc : List String) :
    entries.foldl (fun res e =>
        if e.isFile && !e.isSymlink then res ++ [pyBasename e.resolved] else res) acc =
      acc ++ (entries.filter (fun e => e.isFile && !e.isSymlink)).map
        (fun e => pyBasename e.resolved) := by
  induction entries generalizing acc with
  | nil => simp
  | cons e rest ih =>
    rw [List.foldl_cons]
    by_cases h : (e.isFile && !e.isSymlink) = true
    · rw [if_pos h, ih, List.filter_cons, if_pos h]
      simp
    · rw [if_neg h, ih, List.filter_cons, if_neg h]

theorem pyBasename_noSlash (s : String) : ∀ c ∈ (pyBasename s).data, ¬c = '/' := by
  intro c hc
  have hc2 : c ∈ (s.data.reverse.takeWhile (fun c => !(c = '/'))).reverse := hc
  have hc3 : c ∈ s.data.reverse.takeWhile (fun c => !(c = '/')) :=
    List.mem_reverse.mp hc2
  have h2 := List.mem_takeWhile_imp hc3
  simpa using h2

/-- C8 (amended): in the firmware branch, `identify_overlays` keeps
exactly the entries that are regular files AND not symlinks — every
symlink, valid or broken, is excluded — and for each kept entry it
returns the base name (final path segment, containing no slash) of the
resolved path. (As stated the claim fails: an overlay reachable through
a valid symlink is NOT included, because the filter
`dtbo.is_file() and not dtbo.is_symlink()` rejects all symlinks.) -/
theorem c8_identify_overlays (entries : List FsEntry) :
    (∀ e ∈ entries, e.isFile = true → e.isSymlink = false →
      pyBasename e.resolved ∈ identify_overlays_fw entries) ∧
    (∀ x ∈ identify_overlays_fw entries, ∃ e ∈ entries,
      e.isFile = true ∧ e.isSymlink = false ∧ x = pyBasename e.resolved ∧
      ∀ c ∈ x.data, ¬c = '/') := by
  have hrep : identify_overlays_fw entries =
      (entries.filter (fun e => e.isFile && !e.isSymlink)).map
        (fun e => pyBasename e.resolved) := by
    have h := identify_overlays_fw_go entries []
    simpa [identify_overlays_fw] using h
  constructor
  · intro e he h1 h2
    rw [hrep]
    exact List.mem_map_of_mem _ (List.mem_filter.mpr ⟨he, by simp [h1, h2]⟩)
  · intro x hx
    rw [hrep] at hx
    obtain ⟨e, he, rfl⟩ := List.mem_map.mp hx
    have hef := List.mem_filter.mp he
    have hb : e.isFile = true ∧ e.isSymlink = false := by simpa using hef.2
    exact ⟨e, hef.1, hb.1, hb.2, rfl, pyBasename_noSlash _⟩

/-- C8 counterexample: a valid symlink to a regular overlay file
(`is_file()` true since it follows the link, `is_symlink()` true) is
dropped by the firmware branch, while the listing the specification
describes (follow symlinks, reject only broken ones) keeps it. -/
theorem c8_identify_overlays_counterexample :
    identify_overlays_fw
        [⟨"/boot/efi/dtb/overlays/link.dtbo", true, true,
          "/boot/efi/dtb/base/real.dtbo"⟩] = [] ∧
    identify_overlays_fw_spec
        [⟨"/boot/efi/dtb/overlays/link.dtbo", true, true,
          "/boot/efi/dtb/base/real.dtbo"⟩] = ["real.dtbo"] ∧
    ¬identify_overlays_fw
        [⟨"/boot/efi/dtb/overlays/link.dtbo", true, true,
          "/boot/efi/dtb/base/real.dtbo"⟩] =
      identify_overlays_fw_spec
        [⟨"/boot/efi/dtb/overlays/link.dtbo", true, true,
          "/boot/efi/dtb/base/real.dtbo"⟩] := by
  refine ⟨rfl, by decide, by decide⟩

/-- C8 witness: the amended inclusion direction applied to a concrete
regular (non-symlink) overlay file. -/
theorem c8_identify_overlays_witness :
    pyBasename "/boot/efi/dtb/overlays/ov1.dtbo" ∈
      identify_overlays_fw
        [⟨"/boot/efi/dtb/overlays/ov1.dtbo", true, false,
          "/boot/efi/dtb/overlays/ov1.dtbo"⟩] :=
  (c8_identify_overlays
      [⟨"/boot/efi/dtb/overlays/ov1.dtbo", true, false,
        "/boot/efi/dtb/overlays/ov1.dtbo"⟩]).1
    ⟨"/boot/efi/dtb/overlays/ov1.dtbo", true, false,
      "/boot/efi/dtb/overlays/ov1.dtbo"⟩
    (by simp) rfl rfl

end BredosDT
